import Mathlib

/-!
# bencode: descriptor parser, binary encoder and JSON pretty-printer

A shallow embedding of `bencode/detail/parser/descriptor_parser.hpp`,
`bencode/detail/events/encode_to.hpp` and
`bencode/detail/events/format_json_to.hpp`.

Bytes are natural numbers (character codes).  The byte range handed to `parse`
is a list; the cursor `it_` is kept as the distance `it_ - begin_`, so that
`end_` is the length of the range.  The vector of descriptors is a list that
grows at its back, the container stack is a list whose head is the top.
-/

set_option autoImplicit false

/-- Character codes of a string literal, used to write inputs readably. -/
def bytes (s : String) : List Nat := s.toList.map Char.toNat

/-- Truncation to an unsigned 32-bit field. -/
def u32 (n : Nat) : Nat := n % 4294967296

/-! ## Symbols (`bencode/detail/symbol.hpp`, absent from the sources) -/

namespace symbol

/-- Modelled from the spec: the byte `i` that opens an integer token. -/
def begin_integer : Nat := 105
/-- Modelled from the spec: the byte `l` that opens a list. -/
def begin_list : Nat := 108
/-- Modelled from the spec: the byte `d` that opens a dict. -/
def begin_dict : Nat := 100
/-- Modelled from the spec: the byte `e` that closes an integer, list or dict. -/
def end_ : Nat := 101
/-- Modelled from the spec: the byte `:` between a string length and its payload. -/
def colon : Nat := 58
/-- Modelled from the spec: the byte `-` of a negative integer. -/
def minus : Nat := 45
/-- Modelled from the spec: the comparison `c == symbol::digit`, true for `0` .. `9`. -/
def digit (c : Nat) : Bool := decide (48 ≤ c) && decide (c ≤ 57)

end symbol

/-! ## Error values (`parsing_error.hpp`, `bencode_type.hpp`, absent from the sources) -/

/-- Modelled from the spec: the error kinds listed for the error surface. -/
inductive parsing_errc where
  | expected_value
  | expected_colon
  | expected_end
  | expected_dict_key_or_end
  | expected_dict_value
  | expected_list_value_or_end
  | unexpected_eof
  | leading_zero
  | negative_zero
  | out_of_range
  | size_limit_exceeded
  | recursion_depth_exceeded
  | value_limit_exceeded
  | internal_error
  deriving DecidableEq, Repr

/-- Modelled from the spec: the container context of an error. -/
inductive bencode_type where
  | integer
  | string
  | list
  | dict
  deriving DecidableEq, Repr

/-- Modelled from the spec: an error carries its kind, a byte position and an
optional context. -/
structure parsing_error where
  errc : parsing_errc
  position : Nat
  context : Option bencode_type
  deriving DecidableEq, Repr

/-! ## Parser options and states (`parser/common.hpp`, absent from the sources) -/

/-- Modelled from the spec: `recursion_limit` defaults to 1024 and `value_limit`
is unbounded unless configured, here the largest `std::size_t`. -/
structure parser_options where
  recursion_limit : Nat := 1024
  value_limit : Nat := 18446744073709551615
  deriving DecidableEq, Repr

/-- Modelled from the spec: the four states of a stack frame. -/
inductive parser_state where
  | expect_value
  | expect_list_value
  | expect_dict_key
  | expect_dict_value
  deriving DecidableEq, Repr

/-! ## Descriptors (`descriptor.hpp`, `descriptor_table.hpp`, absent from the sources) -/

/-- Modelled from the spec: the primary tag of a descriptor type. -/
inductive descriptor_tag where
  | none
  | integer
  | string
  | list
  | dict
  deriving DecidableEq, Repr

/-- Modelled from the spec: a descriptor type is one primary tag combined with
the modifier bits `list_value`, `dict_key`, `dict_value`, `end` and `stop`. -/
structure descriptor_type where
  tag : descriptor_tag := descriptor_tag.none
  list_value : Bool := false
  dict_key : Bool := false
  dict_value : Bool := false
  end_ : Bool := false
  stop : Bool := false
  deriving DecidableEq, Repr

namespace descriptor_type

/-- The empty bitmask `{}`. -/
def empty : descriptor_type := {}
/-- Primary tag `integer`. -/
def integer : descriptor_type := { tag := descriptor_tag.integer }
/-- Primary tag `string`. -/
def string : descriptor_type := { tag := descriptor_tag.string }
/-- Primary tag `list`. -/
def list : descriptor_type := { tag := descriptor_tag.list }
/-- Primary tag `dict`. -/
def dict : descriptor_type := { tag := descriptor_tag.dict }
/-- Modifier `list_value`. -/
def list_value_bit : descriptor_type := { list_value := true }
/-- Modifier `dict_key`. -/
def dict_key_bit : descriptor_type := { dict_key := true }
/-- Modifier `dict_value`. -/
def dict_value_bit : descriptor_type := { dict_value := true }
/-- Modifier `end`. -/
def end_bit : descriptor_type := { end_ := true }
/-- Modifier `stop`. -/
def stop_bit : descriptor_type := { stop := true }

/-- The bitmask union `a | b`; the parser only joins a primary tag with modifiers. -/
def or (a b : descriptor_type) : descriptor_type :=
  { tag := if a.tag = descriptor_tag.none then b.tag else a.tag
    list_value := a.list_value || b.list_value
    dict_key := a.dict_key || b.dict_key
    dict_value := a.dict_value || b.dict_value
    end_ := a.end_ || b.end_
    stop := a.stop || b.stop }

end descriptor_type

/-- Modelled from the spec: a descriptor record, with a 32-bit position, a signed
64-bit value for integers, and 32-bit `offset` and `size` for strings and
containers. -/
structure descriptor where
  type : descriptor_type
  position : Nat
  value : Int := 0
  offset : Nat := 0
  size : Nat := 0
  deriving DecidableEq, Repr

namespace descriptor

/-- Constructor `descriptor(type, position)`. -/
def create (type : descriptor_type) (position : Nat) : descriptor :=
  { type := type, position := u32 position }

/-- Setter of the integer payload. -/
def set_value (d : descriptor) (v : Int) : descriptor := { d with value := v }
/-- Setter of the 32-bit `offset` field. -/
def set_offset (d : descriptor) (o : Nat) : descriptor := { d with offset := u32 o }
/-- Setter of the 32-bit `size` field. -/
def set_size (d : descriptor) (n : Nat) : descriptor := { d with size := u32 n }
/-- Setter of the `stop` modifier. -/
def set_stop_flag (d : descriptor) : descriptor :=
  { d with type := { d.type with stop := true } }

/-- The record is an integer. -/
def is_integer (d : descriptor) : Bool := decide (d.type.tag = descriptor_tag.integer)
/-- The record is a string. -/
def is_string (d : descriptor) : Bool := decide (d.type.tag = descriptor_tag.string)
/-- The record has primary type list (header or end). -/
def is_list (d : descriptor) : Bool := decide (d.type.tag = descriptor_tag.list)
/-- The record has primary type dict (header or end). -/
def is_dict (d : descriptor) : Bool := decide (d.type.tag = descriptor_tag.dict)
/-- The record carries the `end` modifier. -/
def is_end (d : descriptor) : Bool := d.type.end_
/-- The record carries the `stop` modifier. -/
def is_stop (d : descriptor) : Bool := d.type.stop
/-- The record is the header of a list or dict. -/
def is_header (d : descriptor) : Bool := (d.is_list || d.is_dict) && !d.is_end

end descriptor

/-- Modelled from the spec: a descriptor table owns the records and borrows the
source bytes. -/
structure descriptor_table where
  descriptors : List descriptor
  data : List Nat
  deriving DecidableEq, Repr

/-! ## Lexical primitives (`parser/common.hpp`, `itoa.hpp`, absent from the sources) -/

/-- The number written by a run of decimal digits. -/
def decimal_value (digits : List Nat) : Nat :=
  digits.foldl (fun acc c => 10 * acc + (c - 48)) 0

/-- Decimal text of a natural number, most significant digit first; the first
argument bounds the number of digits. -/
def decimal_digits : Nat → Nat → List Nat
  | 0, _ => []
  | fuel + 1, n =>
    if n < 10 then [48 + n] else decimal_digits fuel (n / 10) ++ [48 + n % 10]

/-- Decimal text of a natural number without leading zeros. -/
def decimal_text (n : Nat) : List Nat := decimal_digits (n + 1) n

/-- Result of decoding a string token. -/
structure string_token where
  offset : Nat
  size : Nat
  deriving DecidableEq, Repr

/-- Modelled from the spec: the integer token decoder `bdecode_integer(it, end)`
of section 4.1, run on the bytes from the cursor to the end of the range.  On
success it gives the value and the number of bytes the cursor advances (past the
`e`).  On failure it gives the kind and how far the cursor moved; that distance
is not fixed by the spec and is the offset of the offending byte here.  An empty
digit run before a byte is reported as `expected_end`. -/
def bdecode_integer (r : List Nat) : Except (parsing_errc × Nat) (Int × Nat) :=
  match r with
  | [] => Except.error (parsing_errc.unexpected_eof, 0)
  | _ :: r1 =>
    let negative : Bool := decide (r1.head? = some symbol.minus)
    let r2 := if negative then r1.tail else r1
    let sign := if negative then 1 else 0
    let digits := r2.takeWhile symbol.digit
    let r3 := r2.dropWhile symbol.digit
    let n := decimal_value digits
    if digits = [] then
      if r3 = [] then Except.error (parsing_errc.unexpected_eof, 1 + sign)
      else Except.error (parsing_errc.expected_end, 1 + sign)
    else if negative && decide (digits = [48]) then
      Except.error (parsing_errc.negative_zero, 1 + sign)
    else if decide (2 ≤ digits.length) && decide (digits.head? = some 48) then
      Except.error (parsing_errc.leading_zero, 1 + sign)
    else if (if negative then decide (9223372036854775808 < n)
             else decide (9223372036854775807 < n)) then
      Except.error (parsing_errc.out_of_range, 1 + sign)
    else
      match r3 with
      | [] => Except.error (parsing_errc.unexpected_eof, 1 + sign + digits.length)
      | c :: _ =>
        if c = symbol.end_ then
          Except.ok (if negative then -(n : Int) else (n : Int), 1 + sign + digits.length + 1)
        else Except.error (parsing_errc.expected_end, 1 + sign + digits.length)

/-- Modelled from the spec: the string token decoder `bdecode_string_token(it, end)`
of section 4.1, run on the bytes from the cursor to the end of the range.  On
success it gives `offset` (width of the length text plus one), `size` (the
length) and the number of bytes the cursor advances (past the payload).  The
length must fit in 32 bits.  On failure it gives the kind and how far the cursor
moved, which the spec does not fix. -/
def bdecode_string_token (r : List Nat) : Except (parsing_errc × Nat) (string_token × Nat) :=
  let digits := r.takeWhile symbol.digit
  let r1 := r.dropWhile symbol.digit
  let n := decimal_value digits
  if digits = [] then
    if r1 = [] then Except.error (parsing_errc.unexpected_eof, 0)
    else Except.error (parsing_errc.expected_colon, 0)
  else if decide (2 ≤ digits.length) && decide (digits.head? = some 48) then
    Except.error (parsing_errc.leading_zero, 0)
  else if 4294967296 ≤ n then
    Except.error (parsing_errc.size_limit_exceeded, 0)
  else
    match r1 with
    | [] => Except.error (parsing_errc.unexpected_eof, digits.length)
    | c :: r2 =>
      if c ≠ symbol.colon then Except.error (parsing_errc.expected_colon, digits.length)
      else if r2.length < n then Except.error (parsing_errc.unexpected_eof, digits.length + 1)
      else Except.ok ({ offset := digits.length + 1, size := n }, digits.length + 1 + n)

namespace itoa

/-- Modelled from the spec: `itoa::to_buffer` for a signed 64-bit value writes its
decimal text, with a leading `-` for a negative value. -/
def to_buffer (value : Int) : List Nat :=
  if value < 0 then symbol.minus :: decimal_text value.natAbs else decimal_text value.toNat

/-- Modelled from the spec: `itoa::to_buffer` for an unsigned length writes its
decimal text. -/
def to_buffer_unsigned (n : Nat) : List Nat := decimal_text n

end itoa

/-! ## The descriptor parser (`parser/descriptor_parser.hpp`) -/

namespace detail

/-- A frame of the container stack: the state, the index of the header record
to patch on close, and the element count. -/
structure descriptor_parser_stack_frame where
  state : parser_state
  position : Nat
  size : Nat
  deriving DecidableEq, Repr

/-- The role modifier that a parser state gives to the records emitted in it. -/
def descriptor_type_modifier (s : parser_state) : descriptor_type :=
  match s with
  | parser_state.expect_list_value => descriptor_type.list_value_bit
  | parser_state.expect_dict_key => descriptor_type.dict_key_bit
  | parser_state.expect_dict_value => descriptor_type.dict_value_bit
  | _ => descriptor_type.empty

end detail

/-- The data members of a parser instance.  `input` is the range `begin_` ..
`end_`, `it_` the cursor as an offset from `begin_`. -/
structure bencode.descriptor_parser where
  input : List Nat := []
  it_ : Nat := 0
  descriptors_ : List descriptor := []
  stack_ : List detail.descriptor_parser_stack_frame := []
  error_ : Option parsing_error := none
  options_ : parser_options := {}
  deriving DecidableEq, Repr

namespace bencode.descriptor_parser

/-- Constructor `bencode.descriptor_parser(options)`. -/
def create (options : parser_options) : bencode.descriptor_parser := { options_ := options }

/-- The bytes from the cursor to `end_`. -/
def remaining (p : bencode.descriptor_parser) : List Nat := p.input.drop p.it_

/-- The byte under the cursor, `*it_`. -/
def peek (p : bencode.descriptor_parser) : Nat := p.remaining.headD 0

/-- The offset `it_ - begin_`. -/
def current_position (p : bencode.descriptor_parser) : Nat := p.it_

/-- Record an error at the current position. -/
def set_error (p : bencode.descriptor_parser) (ec : parsing_errc)
    (context : Option bencode_type) : bencode.descriptor_parser :=
  { p with error_ := some { errc := ec, position := p.current_position, context := context } }

/-- Apply a change to the top frame of the stack, `stack_.top()` by reference. -/
def modify_top (f : detail.descriptor_parser_stack_frame → detail.descriptor_parser_stack_frame)
    (p : bencode.descriptor_parser) : bencode.descriptor_parser :=
  match p.stack_ with
  | [] => p
  | top :: below => { p with stack_ := f top :: below }

/-- Apply a change to the record at an index, `descriptors_[i]` by reference. -/
def modify_descriptor (i : Nat) (f : descriptor → descriptor)
    (p : bencode.descriptor_parser) : bencode.descriptor_parser :=
  match p.descriptors_[i]? with
  | none => p
  | some d => { p with descriptors_ := p.descriptors_.set i (f d) }

/-- Decode an integer token into a new record. -/
def handle_integer (p : bencode.descriptor_parser) (modifier : descriptor_type) :
    Bool × bencode.descriptor_parser :=
  let type := descriptor_type.or descriptor_type.integer modifier
  let t := descriptor.create type p.current_position
  match bdecode_integer p.remaining with
  | Except.error (ec, moved) =>
    (false, set_error { p with descriptors_ := p.descriptors_ ++ [t], it_ := p.it_ + moved }
      ec (some bencode_type.integer))
  | Except.ok (v, moved) =>
    (true, { p with descriptors_ := p.descriptors_ ++ [t.set_value v], it_ := p.it_ + moved })

/-- Decode a string token into a new record. -/
def handle_string (p : bencode.descriptor_parser) (modifier : descriptor_type) :
    Bool × bencode.descriptor_parser :=
  let type := descriptor_type.or descriptor_type.string modifier
  let position := p.current_position
  match bdecode_string_token p.remaining with
  | Except.error (ec, moved) =>
    (false, set_error { p with it_ := p.it_ + moved } ec (some bencode_type.string))
  | Except.ok (tok, moved) =>
    let t := ((descriptor.create type position).set_offset tok.offset).set_size tok.size
    (true, { p with descriptors_ := p.descriptors_ ++ [t], it_ := p.it_ + moved })

/-- Open a list: header record, new frame, cursor past the `l`. -/
def handle_list_begin (p : bencode.descriptor_parser) (modifier : descriptor_type) :
    Bool × bencode.descriptor_parser :=
  let type := descriptor_type.or descriptor_type.list modifier
  let position := p.current_position
  if p.stack_.length = p.options_.recursion_limit then
    (false, p.set_error parsing_errc.recursion_depth_exceeded none)
  else
    let ds := p.descriptors_ ++ [descriptor.create type position]
    (true, { p with
      descriptors_ := ds
      stack_ := { state := parser_state.expect_list_value
                  position := u32 (ds.length - 1)
                  size := 0 } :: p.stack_
      it_ := p.it_ + 1 })

/-- Open a dict: header record, new frame, cursor past the `d`. -/
def handle_dict_begin (p : bencode.descriptor_parser) (modifier : descriptor_type) :
    Bool × bencode.descriptor_parser :=
  let type := descriptor_type.or descriptor_type.dict modifier
  let position := p.current_position
  if p.stack_.length = p.options_.recursion_limit then
    (false, p.set_error parsing_errc.recursion_depth_exceeded none)
  else
    let ds := p.descriptors_ ++ [descriptor.create type position]
    (true, { p with
      descriptors_ := ds
      stack_ := { state := parser_state.expect_dict_key
                  position := u32 (ds.length - 1)
                  size := 0 } :: p.stack_
      it_ := p.it_ + 1 })

/-- After a nested container closed: count it in the parent frame, flip the
parent between dict key and dict value, and report the parent state as it was. -/
def handle_nested_structures (p : bencode.descriptor_parser) :
    Option parser_state × bencode.descriptor_parser :=
  match p.stack_ with
  | [] => (none, p)
  | top :: below =>
    let state :=
      match top.state with
      | parser_state.expect_dict_value => parser_state.expect_dict_key
      | parser_state.expect_dict_key => parser_state.expect_dict_value
      | s => s
    (some top.state,
      { p with stack_ := { top with state := state, size := u32 (top.size + 1) } :: below })

/-- Body shared by `handle_list_end` and `handle_dict_end`, which differ in the
primary tag only.  The frame is read before it is popped; `handle_dict_end`
binds it by reference and reads it after the pop, and the model gives it the
values the frame had, as in `handle_list_end`.  The loop calls this with a
frame on the stack only; `offset` is `descriptors_.size() - start_pos`, and
`start_pos` is at most `descriptors_.size()` in every parse of a fresh parser. -/
def handle_container_end (p : bencode.descriptor_parser) (tag : descriptor_type) :
    Bool × bencode.descriptor_parser :=
  match p.stack_ with
  | [] => (true, p)
  | top :: below =>
    let type := descriptor_type.or tag descriptor_type.end_bit
    let start_pos := top.position
    let size := top.size
    let offset := p.descriptors_.length - start_pos
    let position := p.current_position
    let p1 := { p with stack_ := below, it_ := p.it_ + 1 }
    let (s, p2) := p1.handle_nested_structures
    let type :=
      match s with
      | some st => descriptor_type.or type (detail.descriptor_type_modifier st)
      | none => type
    let p3 := { p2 with descriptors_ := p2.descriptors_ ++ [descriptor.create type position] }
    let p4 := p3.modify_descriptor start_pos (fun d => (d.set_offset offset).set_size size)
    let p5 := p4.modify_descriptor (p3.descriptors_.length - 1)
      (fun t => (t.set_offset offset).set_size size)
    (true, p5)

/-- Close a list. -/
def handle_list_end (p : bencode.descriptor_parser) : Bool × bencode.descriptor_parser :=
  p.handle_container_end descriptor_type.list

/-- Close a dict. -/
def handle_dict_end (p : bencode.descriptor_parser) : Bool × bencode.descriptor_parser :=
  p.handle_container_end descriptor_type.dict

/-- Decode a dict key: a string record with the `dict_key` modifier; the frame
moves on to expect the value. -/
def handle_dict_key (p : bencode.descriptor_parser) : Bool × bencode.descriptor_parser :=
  let type := descriptor_type.or descriptor_type.string descriptor_type.dict_key_bit
  let position := p.current_position
  match bdecode_string_token p.remaining with
  | Except.error (ec, moved) =>
    (false, set_error { p with it_ := p.it_ + moved } ec (some bencode_type.string))
  | Except.ok (tok, moved) =>
    let p1 := modify_top (fun f => { f with state := parser_state.expect_dict_value })
      { p with it_ := p.it_ + moved }
    let t := ((descriptor.create type position).set_offset tok.offset).set_size tok.size
    (true, { p1 with descriptors_ := p1.descriptors_ ++ [t] })

/-- The local lambda `dispatch` of `handle_value`: after a scalar value, count it
in the top frame and, in a dict, expect a key next. -/
def dispatch (ParserState : parser_state) (r : Bool × bencode.descriptor_parser) :
    Bool × bencode.descriptor_parser :=
  if !r.1 then (false, r.2)
  else
    match ParserState with
    | parser_state.expect_dict_value =>
      (true, modify_top
        (fun f => { f with state := parser_state.expect_dict_key, size := u32 (f.size + 1) }) r.2)
    | parser_state.expect_list_value =>
      (true, modify_top (fun f => { f with size := u32 (f.size + 1) }) r.2)
    | _ => (true, r.2)

/-- The template `handle_value<ParserState>`: read one value or open a container. -/
def handle_value (ParserState : parser_state) (p : bencode.descriptor_parser) :
    Bool × bencode.descriptor_parser :=
  let type_modifier := detail.descriptor_type_modifier ParserState
  let c := p.peek
  if c = symbol.begin_integer then dispatch ParserState (p.handle_integer type_modifier)
  else if c = symbol.begin_list then p.handle_list_begin type_modifier
  else if c = symbol.begin_dict then p.handle_dict_begin type_modifier
  else if symbol.digit c then dispatch ParserState (p.handle_string type_modifier)
  else
    match ParserState with
    | parser_state.expect_list_value =>
      (false, p.set_error parsing_errc.expected_value (some bencode_type.list))
    | parser_state.expect_dict_value =>
      (false, p.set_error parsing_errc.expected_value (some bencode_type.dict))
    | _ => (false, p.set_error parsing_errc.expected_value none)

/-- One pass through the body of the `while` loop of `parse_loop`, after the
value-limit check.  The `default` branch of the switch records `internal_error`. -/
def loop_body (p : bencode.descriptor_parser) : bencode.descriptor_parser :=
  let c := p.peek
  match p.stack_ with
  | top :: _ =>
    match top.state with
    | parser_state.expect_dict_key =>
      if symbol.digit c then p.handle_dict_key.2
      else if c = symbol.end_ then p.handle_dict_end.2
      else p.set_error parsing_errc.expected_dict_key_or_end (some bencode_type.dict)
    | parser_state.expect_dict_value =>
      if c = symbol.end_ then
        p.set_error parsing_errc.expected_dict_value (some bencode_type.dict)
      else (p.handle_value parser_state.expect_dict_value).2
    | parser_state.expect_list_value =>
      if c = symbol.end_ then p.handle_list_end.2
      else (p.handle_value parser_state.expect_list_value).2
    | parser_state.expect_value => p.set_error parsing_errc.internal_error none
  | [] => (p.handle_value parser_state.expect_value).2

/-- The exit of `parse_loop` once the `while` condition fails: `false` when an
error is recorded, else the stop flag goes on the last record and the result is
`true`.  The `Ensures` checks leave the result untouched. -/
def finish (p : bencode.descriptor_parser) : Bool × bencode.descriptor_parser :=
  if p.error_.isSome then (false, p)
  else
    match p.descriptors_.getLast? with
    | none => (true, p)
    | some d => (true, { p with descriptors_ := p.descriptors_.dropLast ++ [d.set_stop_flag] })

/-- The loop of `parse_loop`, with a bound on the number of iterations; `none`
when the bound is used up before the loop ends. -/
def parse_loop_fuel : Nat → bencode.descriptor_parser → Option (Bool × bencode.descriptor_parser)
  | 0, _ => none
  | fuel + 1, p =>
    if p.it_ ≠ p.input.length ∧ p.error_ = none then
      if p.descriptors_.length > p.options_.value_limit then
        some (false, p.set_error parsing_errc.value_limit_exceeded none)
      else parse_loop_fuel fuel p.loop_body
    else some p.finish

/-- The member `parse_loop`: the loop runs at most once per remaining byte. -/
def parse_loop (p : bencode.descriptor_parser) : Option (Bool × bencode.descriptor_parser) :=
  parse_loop_fuel (p.input.length - p.it_ + 1) p

/-- The conditions asserted by the two `Ensures` lines at the end of `parse_loop`. -/
def ensures_hold (p : bencode.descriptor_parser) : Bool :=
  p.stack_.isEmpty && decide (p.it_ = p.input.length)

/-- The member `parse`: reset the range, the cursor, the records and the error,
run the loop, and hand the records over as a table.  The stack is not reset.
The result pairs what `parse` returns with the parser instance afterwards, whose
records are empty once they were moved into the table; the outer `none` stands
for a loop that used up its bound, which `parse_loop_total` excludes. -/
def parse (p : bencode.descriptor_parser) (range : List Nat) :
    Option (Option descriptor_table × bencode.descriptor_parser) :=
  let p1 := { p with input := range, it_ := 0, descriptors_ := [], error_ := none }
  match p1.parse_loop with
  | none => none
  | some (success, p2) =>
    if !success then some (none, p2)
    else some (some { descriptors := p2.descriptors_, data := range },
      { p2 with descriptors_ := [] })

/-- The member `has_error`. -/
def has_error (p : bencode.descriptor_parser) : Bool := p.error_.isSome

/-- The member `error`. -/
def error (p : bencode.descriptor_parser) : Option parsing_error := p.error_

end bencode.descriptor_parser

/-! ## The binary encoder (`events/encode_to.hpp`) -/

/-- The data members of an encoder: the bytes written to `out_` so far and the
running count `size_`. -/
structure encode_to where
  out_ : List Nat := []
  size_ : Nat := 0
  deriving DecidableEq, Repr

namespace encode_to

/-- Event `integer(value)`. -/
def integer (e : encode_to) (value : Int) : encode_to :=
  let buffer := itoa.to_buffer value
  let n := buffer.length
  { out_ := e.out_ ++ [symbol.begin_integer] ++ buffer ++ [symbol.end_]
    size_ := e.size_ + (2 + n) }

/-- Event `string(value)`. -/
def string (e : encode_to) (value : List Nat) : encode_to :=
  let buffer := itoa.to_buffer_unsigned value.length
  let n := buffer.length
  { out_ := e.out_ ++ buffer ++ [symbol.colon] ++ value
    size_ := e.size_ + (n + 1 + value.length) }

/-- Event `begin_list(size)`; the size hint is unused. -/
def begin_list (e : encode_to) (_size : Option Nat) : encode_to :=
  { out_ := e.out_ ++ [symbol.begin_list], size_ := e.size_ + 1 }

/-- Event `list_item()`. -/
def list_item (e : encode_to) : encode_to := e

/-- Event `end_list(size)`; the size hint is unused. -/
def end_list (e : encode_to) (_size : Option Nat) : encode_to :=
  { out_ := e.out_ ++ [symbol.end_], size_ := e.size_ + 1 }

/-- Event `begin_dict(size)`; the size hint is unused. -/
def begin_dict (e : encode_to) (_size : Option Nat) : encode_to :=
  { out_ := e.out_ ++ [symbol.begin_dict], size_ := e.size_ + 1 }

/-- Event `end_dict(size)`; the size hint is unused. -/
def end_dict (e : encode_to) (_size : Option Nat) : encode_to :=
  { out_ := e.out_ ++ [symbol.end_], size_ := e.size_ + 1 }

/-- Event `dict_key()`. -/
def dict_key (e : encode_to) : encode_to := e

/-- Event `dict_value()`. -/
def dict_value (e : encode_to) : encode_to := e

/-- The member `count`. -/
def count (e : encode_to) : Nat := e.size_

end encode_to

/-- Modelled from the spec: the event that replays one record of a table into an
encoder, as the round-trip property lists them: an integer record gives
`integer(value)`, a string record `string` of the `size` bytes of the source at
`position + offset`, a header `begin_list` or `begin_dict`, an end record
`end_list` or `end_dict`. -/
def replay_record (data : List Nat) (e : encode_to) (d : descriptor) : encode_to :=
  if d.is_integer then e.integer d.value
  else if d.is_string then e.string ((data.drop (d.position + d.offset)).take d.size)
  else if d.is_list then (if d.is_end then e.end_list none else e.begin_list none)
  else if d.is_dict then (if d.is_end then e.end_dict none else e.begin_dict none)
  else e

/-- Modelled from the spec: replay all records of a table, in order, into a fresh
encoder. -/
def replay (t : descriptor_table) : encode_to :=
  t.descriptors.foldl (replay_record t.data) {}

/-! ## Well-formed values of the wire format (spec, section 6) -/

mutual
/-- Modelled from the spec: a value of the wire format: an integer, a byte
string, a list of values, or a dict of key and value pairs. -/
inductive bvalue where
  | integer (v : Int)
  | string (s : List Nat)
  | list (xs : blist)
  | dict (kvs : bdict)
/-- The elements of a list value. -/
inductive blist where
  | nil
  | cons (x : bvalue) (xs : blist)
/-- The entries of a dict value. -/
inductive bdict where
  | nil
  | cons (k : List Nat) (v : bvalue) (kvs : bdict)
end

/-- Modelled from the spec: the wire text of a string: decimal length, `:`, payload. -/
def string_wire (s : List Nat) : List Nat :=
  decimal_text s.length ++ symbol.colon :: s

/-- Modelled from the spec: the wire text of an integer: `i`, optional `-`, decimal
digits without leading zero, `e`. -/
def integer_wire (v : Int) : List Nat :=
  symbol.begin_integer ::
    ((if v < 0 then symbol.minus :: decimal_text v.natAbs else decimal_text v.toNat)
      ++ [symbol.end_])

mutual
/-- Modelled from the spec: the bytes of a value in the wire format. -/
def bvalue.wire : bvalue → List Nat
  | bvalue.integer v => integer_wire v
  | bvalue.string s => string_wire s
  | bvalue.list xs => symbol.begin_list :: (xs.wire ++ [symbol.end_])
  | bvalue.dict kvs => symbol.begin_dict :: (kvs.wire ++ [symbol.end_])
/-- The bytes of the elements of a list, one after the other. -/
def blist.wire : blist → List Nat
  | blist.nil => []
  | blist.cons x xs => x.wire ++ xs.wire
/-- The bytes of the entries of a dict: key, value, key, value, and so on. -/
def bdict.wire : bdict → List Nat
  | bdict.nil => []
  | bdict.cons k v kvs => string_wire k ++ (v.wire ++ kvs.wire)
end

mutual
/-- Modelled from the spec: the limits of the format: integers are signed 64-bit,
string lengths fit in 32 bits. -/
def bvalue.wf : bvalue → Prop
  | bvalue.integer v => -9223372036854775808 ≤ v ∧ v ≤ 9223372036854775807
  | bvalue.string s => s.length < 4294967296
  | bvalue.list xs => xs.wf
  | bvalue.dict kvs => kvs.wf
/-- Every element is within the limits of the format. -/
def blist.wf : blist → Prop
  | blist.nil => True
  | blist.cons x xs => x.wf ∧ xs.wf
/-- Every key and value is within the limits of the format. -/
def bdict.wf : bdict → Prop
  | bdict.nil => True
  | bdict.cons k v kvs => k.length < 4294967296 ∧ v.wf ∧ kvs.wf
end

mutual
/-- The largest number of containers open at once while reading the value. -/
def bvalue.depth : bvalue → Nat
  | bvalue.integer _ => 0
  | bvalue.string _ => 0
  | bvalue.list xs => xs.depth + 1
  | bvalue.dict kvs => kvs.depth + 1
/-- The largest depth among the elements. -/
def blist.depth : blist → Nat
  | blist.nil => 0
  | blist.cons x xs => max x.depth xs.depth
/-- The largest depth among the values of the entries. -/
def bdict.depth : bdict → Nat
  | bdict.nil => 0
  | bdict.cons _ v kvs => max v.depth kvs.depth
end

/-- Number of direct elements of a list. -/
def blist.length : blist → Nat
  | blist.nil => 0
  | blist.cons _ xs => xs.length + 1

/-- Number of entries of a dict. -/
def bdict.length : bdict → Nat
  | bdict.nil => 0
  | bdict.cons _ _ kvs => kvs.length + 1

mutual
/-- The records a value is expected to give when it starts at byte `pos` with
role modifier `m`. -/
def bvalue.records : bvalue → Nat → descriptor_type → List descriptor
  | bvalue.integer v, pos, m =>
    [{ type := descriptor_type.or descriptor_type.integer m, position := pos, value := v }]
  | bvalue.string s, pos, m =>
    [{ type := descriptor_type.or descriptor_type.string m, position := pos
       offset := (decimal_text s.length).length + 1, size := s.length }]
  | bvalue.list xs, pos, m =>
    { type := descriptor_type.or descriptor_type.list m, position := pos
      offset := (xs.records (pos + 1)).length + 1, size := xs.length } ::
    (xs.records (pos + 1) ++
    [{ type := descriptor_type.or (descriptor_type.or descriptor_type.list descriptor_type.end_bit) m
       position := pos + 1 + xs.wire.length
       offset := (xs.records (pos + 1)).length + 1, size := xs.length }])
  | bvalue.dict kvs, pos, m =>
    { type := descriptor_type.or descriptor_type.dict m, position := pos
      offset := (kvs.records (pos + 1)).length + 1, size := kvs.length } ::
    (kvs.records (pos + 1) ++
    [{ type := descriptor_type.or (descriptor_type.or descriptor_type.dict descriptor_type.end_bit) m
       position := pos + 1 + kvs.wire.length
       offset := (kvs.records (pos + 1)).length + 1, size := kvs.length }])
/-- The records expected for the elements of a list that start at byte `pos`. -/
def blist.records : blist → Nat → List descriptor
  | blist.nil, _ => []
  | blist.cons x xs, pos =>
    x.records pos descriptor_type.list_value_bit ++ xs.records (pos + x.wire.length)
/-- The records expected for the entries of a dict that start at byte `pos`. -/
def bdict.records : bdict → Nat → List descriptor
  | bdict.nil, _ => []
  | bdict.cons k v kvs, pos =>
    { type := descriptor_type.or descriptor_type.string descriptor_type.dict_key_bit
      position := pos, offset := (decimal_text k.length).length + 1, size := k.length } ::
    (v.records (pos + (string_wire k).length) descriptor_type.dict_value_bit ++
     kvs.records (pos + (string_wire k).length + v.wire.length))
end

/-- Put the stop modifier on the last record of a list of records. -/
def mark_stop (ds : List descriptor) : List descriptor :=
  match ds.getLast? with
  | none => ds
  | some d => ds.dropLast ++ [d.set_stop_flag]

/-! ## Auxiliary definitions for the statements -/

/-- The state the loop dispatches on for a stack: the state of the top frame, or
`expect_value` when no container is open. -/
def stack_context (s : List detail.descriptor_parser_stack_frame) : parser_state :=
  match s with
  | [] => parser_state.expect_value
  | top :: _ => top.state

/-- A value may start under this stack: no container is open, or the top frame
expects a list value or a dict value. -/
def value_stack (s : List detail.descriptor_parser_stack_frame) : Prop :=
  match s with
  | [] => True
  | top :: _ =>
    top.state = parser_state.expect_list_value ∨ top.state = parser_state.expect_dict_value

instance value_stack_decidable (s : List detail.descriptor_parser_stack_frame) :
    Decidable (value_stack s) :=
  match s with
  | [] => isTrue trivial
  | top :: _ =>
    inferInstanceAs (Decidable (top.state = parser_state.expect_list_value ∨
      top.state = parser_state.expect_dict_value))

namespace bencode.descriptor_parser

/-- The state the loop dispatches on. -/
def context (p : bencode.descriptor_parser) : parser_state := stack_context p.stack_

/-- The parser is at a place where a value may start. -/
def value_context (p : bencode.descriptor_parser) : Prop := value_stack p.stack_

/-- The loop of `parse_loop` is still running: the cursor is not at `end_`, no
error is recorded and the value limit is not exceeded. -/
def running (p : bencode.descriptor_parser) : Prop :=
  p.it_ ≠ p.input.length ∧ p.error_ = none ∧ p.descriptors_.length ≤ p.options_.value_limit

end bencode.descriptor_parser

/-- The parser after a whole value was read at the cursor: the cursor moved on by
the width of the value, the records of the value were appended, and the value
was counted in the top frame. -/
def bencode.descriptor_parser.after_value (p : bencode.descriptor_parser) (width : Nat)
    (records : List descriptor)
    (stack : List detail.descriptor_parser_stack_frame) : bencode.descriptor_parser :=
  { p with it_ := p.it_ + width, descriptors_ := p.descriptors_ ++ records, stack_ := stack }

/-- A frame after one more value was read in it: the count goes up and a dict
frame that expected a value expects a key. -/
def frame_after_value (f : detail.descriptor_parser_stack_frame) :
    detail.descriptor_parser_stack_frame :=
  { f with
    state := if f.state = parser_state.expect_dict_value then parser_state.expect_dict_key
             else f.state
    size := f.size + 1 }

/-- The stack after one more value was read in the innermost open container. -/
def stack_after_value :
    List detail.descriptor_parser_stack_frame → List detail.descriptor_parser_stack_frame
  | [] => []
  | top :: below => frame_after_value top :: below

mutual
/-- Number of records of a value: one for a scalar, two more than its content
for a container. -/
def bvalue.count : bvalue → Nat
  | bvalue.integer _ => 1
  | bvalue.string _ => 1
  | bvalue.list xs => xs.count + 2
  | bvalue.dict kvs => kvs.count + 2
/-- Number of records of the elements of a list. -/
def blist.count : blist → Nat
  | blist.nil => 0
  | blist.cons x xs => x.count + xs.count
/-- Number of records of the entries of a dict. -/
def bdict.count : bdict → Nat
  | bdict.nil => 0
  | bdict.cons _ v kvs => 1 + v.count + kvs.count
end

/-- A value that a parser with these options is to accept whole: within the
limits of the format, shorter than 2^32 bytes (positions are 32-bit), and
within the value limit and the recursion limit. -/
def bvalue.valid_for (v : bvalue) (options : parser_options) : Prop :=
  v.wf ∧ v.wire.length < 4294967296 ∧ v.count ≤ options.value_limit ∧
    v.depth ≤ options.recursion_limit

/-- The stop modifier sits on the last record of the table and on no other. -/
def stop_on_last_only (ds : List descriptor) : Prop :=
  (∃ d, ds.getLast? = some d ∧ d.is_stop = true) ∧
    ∀ i d, i + 1 < ds.length → ds[i]? = some d → d.is_stop = false

/-! ## Reading a table -/

/-- The record without its stop modifier. -/
def descriptor.unstop (d : descriptor) : descriptor :=
  { d with type := { d.type with stop := false } }

/-- Scan forward for the end record that closes an open container; `depth`
counts the containers that were opened on the way and are still open.  The
result is the distance to that end record. -/
def find_end : List descriptor → Nat → Option Nat
  | [], _ => none
  | d :: rest, depth =>
    if d.is_end then
      match depth with
      | 0 => some 0
      | depth + 1 => (find_end rest depth).map (fun n => n + 1)
    else if d.is_header then (find_end rest (depth + 1)).map (fun n => n + 1)
    else (find_end rest depth).map (fun n => n + 1)

/-- Index of the end record that closes the header at index `i`: the first end
record after `i` that does not close a container opened after `i`. -/
def matching_end (ds : List descriptor) (i : Nat) : Option Nat :=
  (find_end (ds.drop (i + 1)) 0).map (fun n => n + (i + 1))

/-- Table consistency: a header at index `i` with offset `k` has `k ≥ 1`, its
matching end record is the record at `i + k`, and that record is an end record
of the same primary type with the same offset and size. -/
def table_consistent (ds : List descriptor) : Prop :=
  ∀ i h, ds[i]? = some h → h.is_header = true →
    1 ≤ h.offset ∧ matching_end ds i = some (i + h.offset) ∧
    ∃ e, ds[i + h.offset]? = some e ∧ e.is_end = true ∧ e.type.tag = h.type.tag ∧
      e.offset = h.offset ∧ e.size = h.size

/-- Index of the record after the whole value that starts at index `j`: one
record further for a scalar, `offset + 1` records further for a container. -/
def next_value (ds : List descriptor) (j : Nat) : Nat :=
  match ds[j]? with
  | some d => if d.is_header then j + d.offset + 1 else j + 1
  | none => j + 1

/-- Index reached from `j` after skipping `n` whole values. -/
def walk (ds : List descriptor) : Nat → Nat → Nat
  | 0, j => j
  | n + 1, j => walk ds n (next_value ds j)

/-- Number of values directly inside a container according to its header:
`size` for a list, `2 * size` (keys and values) for a dict. -/
def header_steps (h : descriptor) : Nat := if h.is_list then h.size else 2 * h.size

/-- Iteration count: from the record after a header, skipping one whole value
per step reaches the matching end record after exactly `header_steps` steps and
not before. -/
def iteration_exact (ds : List descriptor) : Prop :=
  ∀ i h, ds[i]? = some h → h.is_header = true →
    matching_end ds i = some (walk ds (header_steps h) (i + 1)) ∧
    ∀ n, n < header_steps h → walk ds n (i + 1) < walk ds (header_steps h) (i + 1)

/-! ## The loop as a transition system -/

/-- The stack after a scalar value was counted in the top frame by `dispatch`. -/
def stack_counted :
    List detail.descriptor_parser_stack_frame → List detail.descriptor_parser_stack_frame
  | [] => []
  | top :: below =>
    { top with
      state := if top.state = parser_state.expect_dict_value then parser_state.expect_dict_key
               else top.state
      size := u32 (top.size + 1) } :: below

/-- The stack after `handle_nested_structures` counted a closed container in the
frame that is now on top. -/
def stack_after_nested :
    List detail.descriptor_parser_stack_frame → List detail.descriptor_parser_stack_frame
  | [] => []
  | top :: below =>
    { top with
      state := match top.state with
        | parser_state.expect_dict_value => parser_state.expect_dict_key
        | parser_state.expect_dict_key => parser_state.expect_dict_value
        | s => s
      size := u32 (top.size + 1) } :: below

/-- One pass through the loop body, sorted by what it did: recorded an error,
read an integer, a string or a dict key, opened a container, or closed one. -/
inductive loop_step (p : bencode.descriptor_parser) : bencode.descriptor_parser → Prop where
  | error (q : bencode.descriptor_parser) :
    q.error_ ≠ none → q.input = p.input → q.options_ = p.options_ → q.stack_ = p.stack_ →
    loop_step p q
  | integer (v : Int) (moved : Nat) :
    value_stack p.stack_ → p.peek = symbol.begin_integer →
    bdecode_integer p.remaining = Except.ok (v, moved) →
    loop_step p { p with
      it_ := p.it_ + moved
      descriptors_ := p.descriptors_ ++
        [{ type := descriptor_type.or descriptor_type.integer
              (detail.descriptor_type_modifier (stack_context p.stack_))
           position := u32 p.it_, value := v }]
      stack_ := stack_counted p.stack_ }
  | string (tok : string_token) (moved : Nat) :
    value_stack p.stack_ → symbol.digit p.peek = true →
    bdecode_string_token p.remaining = Except.ok (tok, moved) →
    loop_step p { p with
      it_ := p.it_ + moved
      descriptors_ := p.descriptors_ ++
        [{ type := descriptor_type.or descriptor_type.string
              (detail.descriptor_type_modifier (stack_context p.stack_))
           position := u32 p.it_, offset := u32 tok.offset, size := u32 tok.size }]
      stack_ := stack_counted p.stack_ }
  | dict_key (top : detail.descriptor_parser_stack_frame)
    (below : List detail.descriptor_parser_stack_frame) (tok : string_token) (moved : Nat) :
    p.stack_ = top :: below → top.state = parser_state.expect_dict_key →
    symbol.digit p.peek = true →
    bdecode_string_token p.remaining = Except.ok (tok, moved) →
    loop_step p { p with
      it_ := p.it_ + moved
      descriptors_ := p.descriptors_ ++
        [{ type := descriptor_type.or descriptor_type.string descriptor_type.dict_key_bit
           position := u32 p.it_, offset := u32 tok.offset, size := u32 tok.size }]
      stack_ := { top with state := parser_state.expect_dict_value } :: below }
  | open_list :
    value_stack p.stack_ → p.peek = symbol.begin_list →
    p.stack_.length ≠ p.options_.recursion_limit →
    loop_step p { p with
      it_ := p.it_ + 1
      descriptors_ := p.descriptors_ ++
        [{ type := descriptor_type.or descriptor_type.list
              (detail.descriptor_type_modifier (stack_context p.stack_))
           position := u32 p.it_ }]
      stack_ := { state := parser_state.expect_list_value
                  position := u32 p.descriptors_.length
                  size := 0 } :: p.stack_ }
  | open_dict :
    value_stack p.stack_ → p.peek = symbol.begin_dict →
    p.stack_.length ≠ p.options_.recursion_limit →
    loop_step p { p with
      it_ := p.it_ + 1
      descriptors_ := p.descriptors_ ++
        [{ type := descriptor_type.or descriptor_type.dict
              (detail.descriptor_type_modifier (stack_context p.stack_))
           position := u32 p.it_ }]
      stack_ := { state := parser_state.expect_dict_key
                  position := u32 p.descriptors_.length
                  size := 0 } :: p.stack_ }
  | close (top : detail.descriptor_parser_stack_frame)
    (below : List detail.descriptor_parser_stack_frame) (tag : descriptor_type) :
    p.stack_ = top :: below → p.peek = symbol.end_ →
    (top.state = parser_state.expect_list_value ∧ tag = descriptor_type.list ∨
      top.state = parser_state.expect_dict_key ∧ tag = descriptor_type.dict) →
    loop_step p
      (bencode.descriptor_parser.modify_descriptor p.descriptors_.length
        (fun t => (t.set_offset (p.descriptors_.length - top.position)).set_size top.size)
        (bencode.descriptor_parser.modify_descriptor top.position
          (fun d => (d.set_offset (p.descriptors_.length - top.position)).set_size top.size)
          { p with
            it_ := p.it_ + 1
            descriptors_ := p.descriptors_ ++
              [{ type := descriptor_type.or (descriptor_type.or tag descriptor_type.end_bit)
                    (detail.descriptor_type_modifier (stack_context below))
                 position := u32 p.it_ }]
            stack_ := stack_after_nested below }))

namespace bencode.descriptor_parser

instance running_decidable (p : bencode.descriptor_parser) : Decidable p.running := by
  unfold running
  exact inferInstance

/-- The parser at the head of the loop after `n` passes through the body, or
where the loop stopped if it stopped earlier. -/
def state_after : Nat → bencode.descriptor_parser → bencode.descriptor_parser
  | 0, p => p
  | n + 1, p => if p.running then state_after n p.loop_body else p

/-- What `parse_loop` returns once the loop is not running any more: the
value-limit error if that check stopped it, else the regular exit. -/
def exit_result (p : bencode.descriptor_parser) : Bool × bencode.descriptor_parser :=
  if p.it_ ≠ p.input.length ∧ p.error_ = none then
    (false, p.set_error parsing_errc.value_limit_exceeded none)
  else p.finish

/-- The parser as `parse` sets it up before it runs the loop on a range. -/
def start (p : bencode.descriptor_parser) (range : List Nat) : bencode.descriptor_parser :=
  { p with input := range, it_ := 0, descriptors_ := [], error_ := none }

end bencode.descriptor_parser

/-! ## Records and the bytes they index -/

/-- The byte of the input at the position of a record fits the record: `i` for
an integer, a digit for a string, `l` or `d` for a list or dict header, `e` for
an end record. -/
def byte_matches (B : List Nat) (d : descriptor) : Prop :=
  ∃ c, B[d.position]? = some c ∧
    (d.is_integer = true → c = symbol.begin_integer) ∧
    (d.is_string = true → symbol.digit c = true) ∧
    (d.is_list = true → d.is_end = false → c = symbol.begin_list) ∧
    (d.is_dict = true → d.is_end = false → c = symbol.begin_dict) ∧
    (d.is_end = true → c = symbol.end_)

/-- Lexical order: positions strictly increase with the record index, every
position is inside the input, and the byte there fits the record. -/
def lexical_order (B : List Nat) (ds : List descriptor) : Prop :=
  (∀ (i j : Nat) (a b : descriptor), i < j → ds[i]? = some a → ds[j]? = some b →
      a.position < b.position) ∧
    ∀ d ∈ ds, d.position < B.length ∧ byte_matches B d

/-- The payload of a string record lies inside the input, the byte before the
payload is `:`, and the bytes from the position up to that colon are decimal
digits that denote `size`. -/
def string_inside (B : List Nat) (d : descriptor) : Prop :=
  d.position + d.offset + d.size ≤ B.length ∧ 2 ≤ d.offset ∧
    B[d.position + d.offset - 1]? = some symbol.colon ∧
    (∀ c ∈ (B.drop d.position).take (d.offset - 1), symbol.digit c = true) ∧
    decimal_value ((B.drop d.position).take (d.offset - 1)) = d.size

/-- Every string record of the table has its payload inside the input. -/
def strings_inside (B : List Nat) (ds : List descriptor) : Prop :=
  ∀ d ∈ ds, d.is_string = true → string_inside B d

/-- What holds of the records and the stack while the loop runs without error:
there are at most as many records as bytes read, every record lies before the
cursor and fits the input, positions increase, and every frame points at a
record that is not a string. -/
def records_ok (B : List Nat) (it : Nat) (ds : List descriptor)
    (stack : List detail.descriptor_parser_stack_frame) : Prop :=
  ds.length ≤ it ∧
    (∀ d ∈ ds, d.position < it ∧ byte_matches B d ∧ (d.is_string = true → string_inside B d)) ∧
    List.Pairwise (fun a b : descriptor => a.position < b.position) ds ∧
    ∀ f ∈ stack, ∃ h, ds[f.position]? = some h ∧ h.is_string = false

/-- The invariant of the loop on the input `B`. -/
def record_invariant (B : List Nat) (p : bencode.descriptor_parser) : Prop :=
  p.input = B ∧ (p.error_ = none → p.it_ ≤ B.length ∧
    records_ok B p.it_ p.descriptors_ p.stack_)

/-- A bound on the number of passes the loop can still make: the bytes left, or
nothing once an error is recorded. -/
def bencode.descriptor_parser.work_left (p : bencode.descriptor_parser) : Nat :=
  if p.error_ = none then p.input.length - p.it_ else 0

/-! ## States in which the loop reads a byte -/

/-- The loop of a fresh parser with these options on the input `B` is, after `n`
passes, at the head of a pass in state `p`: no error is recorded, the value-limit
check lets the pass through, and the byte under the cursor is `c`. -/
def reads_byte (options : parser_options) (B : List Nat) (n : Nat)
    (p : bencode.descriptor_parser) (c : Nat) : Prop :=
  p = bencode.descriptor_parser.state_after n
      ((bencode.descriptor_parser.create options).start B) ∧
    p.error_ = none ∧ p.descriptors_.length ≤ options.value_limit ∧ B[p.it_]? = some c

instance reads_byte_decidable (options : parser_options) (B : List Nat) (n : Nat)
    (p : bencode.descriptor_parser) (c : Nat) : Decidable (reads_byte options B n p c) := by
  unfold reads_byte
  exact inferInstance

/-- The context that `handle_value` reports with `expected_value`: the list or
dict whose element is missing, and none at top level. -/
def value_error_context (s : List detail.descriptor_parser_stack_frame) : Option bencode_type :=
  match stack_context s with
  | parser_state.expect_list_value => some bencode_type.list
  | parser_state.expect_dict_value => some bencode_type.dict
  | _ => none

/-- Every frame below the top of the stack belongs to a container that was
opened where a value was expected: it expects a list value or a dict value. -/
def inner_frames_expect_values (s : List detail.descriptor_parser_stack_frame) : Prop :=
  ∀ f ∈ s.tail, f.state = parser_state.expect_list_value ∨
    f.state = parser_state.expect_dict_value

/-- Every record that carries the `dict_key` modifier has primary type string. -/
def dict_keys_are_strings (ds : List descriptor) : Prop :=
  ∀ d ∈ ds, d.type.dict_key = true → d.type.tag = descriptor_tag.string

/-! ## Events (`events/concepts.hpp`, absent from the sources) -/

/-- Modelled from the spec: the calls of the event consumer contract, section 4.4:
`integer`, `string`, `begin_list`, `list_item`, `end_list`, `begin_dict`,
`dict_key`, `dict_value`, `end_dict`; `begin_*` and `end_*` take an optional size
hint. -/
inductive event where
  | integer (value : Int)
  | string (value : List Nat)
  | begin_list (size : Option Nat)
  | list_item
  | end_list (size : Option Nat)
  | begin_dict (size : Option Nat)
  | dict_key
  | dict_value
  | end_dict (size : Option Nat)
  deriving DecidableEq, Repr

/-- Call the member of the encoder that the event names. -/
def encode_to.feed (e : encode_to) (ev : event) : encode_to :=
  match ev with
  | event.integer value => e.integer value
  | event.string value => e.string value
  | event.begin_list size => e.begin_list size
  | event.list_item => e.list_item
  | event.end_list size => e.end_list size
  | event.begin_dict size => e.begin_dict size
  | event.dict_key => e.dict_key
  | event.dict_value => e.dict_value
  | event.end_dict size => e.end_dict size

/-- Feed a sequence of events to an encoder, in call order. -/
def encode_to.feed_all (e : encode_to) (events : List event) : encode_to :=
  events.foldl encode_to.feed e

/-- The bytes the encoder is specified to write for one event: `i`, the decimal
text with a leading `-` for a negative value, `e` for an integer; the decimal
length, `:` and the payload for a string; `l`, `d`, `e` for the begin and end
events, whatever the size hint; nothing for the role markers. -/
def event_text (ev : event) : List Nat :=
  match ev with
  | event.integer value =>
    [symbol.begin_integer] ++ (if value < 0 then [symbol.minus] else []) ++
      decimal_text value.natAbs ++ [symbol.end_]
  | event.string value => decimal_text value.length ++ [symbol.colon] ++ value
  | event.begin_list _ => [symbol.begin_list]
  | event.list_item => []
  | event.end_list _ => [symbol.end_]
  | event.begin_dict _ => [symbol.begin_dict]
  | event.dict_key => []
  | event.dict_value => []
  | event.end_dict _ => [symbol.end_]

/-- The texts of a sequence of events, one after the other. -/
def events_text : List event → List Nat
  | [] => []
  | ev :: rest => event_text ev ++ events_text rest

/-! ## The JSON pretty-printer (`events/format_json_to.hpp`) -/

/-- Truncation to `std::size_t`. -/
def u64 (n : Nat) : Nat := n % 18446744073709551616

/-- The data members of the pretty-printer.  `out_` is the sink, kept as the
bytes written so far: the members write through `*out_++` and through
`std::copy_n(.., out_)`, whose returned iterator is dropped, so the sink is
taken to be one that appends on every write, as `std::back_inserter` and
`std::ostreambuf_iterator` do; `format_json_to_char_ptr` below is the same class
on a pointer.  The buffers are scratch space and are left out. -/
structure format_json_to where
  out_ : List Nat := []
  indent_ : Nat := 4
  current_indent_ : Nat := 0
  first_ : Bool := true
  after_key_ : Bool := true
  deriving DecidableEq, Repr

namespace format_json_to

/-- Constructor `format_json_to(out, indent)` on an empty sink. -/
def create (indent : Nat) : format_json_to := { indent_ := indent }

/-- The loop of `next_line`: write `len` spaces, at most 24 (the size of
`line_buffer_`) per pass; the first argument bounds the number of passes. -/
def fill_spaces : Nat → Nat → List Nat → List Nat
  | 0, _, out => out
  | fuel + 1, len, out =>
    if len = 0 then out
    else
      let chunk_size := min len 24
      fill_spaces fuel (len - chunk_size) (out ++ List.replicate chunk_size 32)

/-- The member `next_line`: a newline, then `current_indent_` spaces. -/
def next_line (f : format_json_to) : format_json_to :=
  { f with out_ := fill_spaces f.current_indent_ f.current_indent_ (f.out_ ++ [10]) }

/-- The member `next`: a comma unless this is the first element, then a new
line unless a dict key came just before. -/
def next (f : format_json_to) : format_json_to :=
  let f1 := if !f.first_ then { f with out_ := f.out_ ++ [44] } else f
  if f1.after_key_ then { f1 with after_key_ := false } else f1.next_line

/-- Event `integer(value)`. -/
def integer (f : format_json_to) (value : Int) : format_json_to :=
  let f1 := f.next
  { f1 with out_ := f1.out_ ++ itoa.to_buffer value }

/-- Event `string(value)`. -/
def string (f : format_json_to) (value : List Nat) : format_json_to :=
  let f1 := f.next
  { f1 with out_ := f1.out_ ++ [34] ++ value ++ [34] }

/-- Event `begin_list(size)`; the size hint is unused. -/
def begin_list (f : format_json_to) (_size : Option Nat) : format_json_to :=
  let f1 := f.next
  { f1 with
    out_ := f1.out_ ++ [91]
    current_indent_ := u64 (f1.current_indent_ + f1.indent_)
    first_ := true }

/-- Event `list_item()`. -/
def list_item (f : format_json_to) : format_json_to := { f with first_ := false }

/-- Event `end_list(size)`; the size hint is unused. -/
def end_list (f : format_json_to) (_size : Option Nat) : format_json_to :=
  let f1 := { f with
    current_indent_ := u64 (f.current_indent_ + 18446744073709551616 - f.indent_) }
  let f2 := if !f1.first_ then f1.next_line else f1
  { f2 with out_ := f2.out_ ++ [93] }

/-- Event `begin_dict(size)`; the size hint is unused. -/
def begin_dict (f : format_json_to) (_size : Option Nat) : format_json_to :=
  let f1 := f.next
  { f1 with
    out_ := f1.out_ ++ [123]
    current_indent_ := u64 (f1.current_indent_ + f1.indent_)
    first_ := true }

/-- Event `end_dict(size)`; the size hint is unused. -/
def end_dict (f : format_json_to) (_size : Option Nat) : format_json_to :=
  let f1 := { f with
    current_indent_ := u64 (f.current_indent_ + 18446744073709551616 - f.indent_) }
  let f2 := if !f1.first_ then f1.next_line else f1
  { f2 with out_ := f2.out_ ++ [125] }

/-- Event `dict_key()`: writes `: `. -/
def dict_key (f : format_json_to) : format_json_to :=
  { f with out_ := f.out_ ++ [58, 32], first_ := true, after_key_ := true }

/-- Event `dict_value()`. -/
def dict_value (f : format_json_to) : format_json_to := { f with first_ := false }

/-- Call the member of the pretty-printer that the event names. -/
def feed (f : format_json_to) (ev : event) : format_json_to :=
  match ev with
  | event.integer value => f.integer value
  | event.string value => f.string value
  | event.begin_list size => f.begin_list size
  | event.list_item => f.list_item
  | event.end_list size => f.end_list size
  | event.begin_dict size => f.begin_dict size
  | event.dict_key => f.dict_key
  | event.dict_value => f.dict_value
  | event.end_dict size => f.end_dict size

/-- Feed a sequence of events to a pretty-printer, in call order. -/
def feed_all (f : format_json_to) (events : List event) : format_json_to :=
  events.foldl feed f

end format_json_to

/-! ## Views (`bview.hpp`, absent from the sources) -/

/-- Modelled from the spec: `value()` of a string view, section 4.6: the slice of
the source bytes at `position + offset` of length `size`. -/
def string_value (t : descriptor_table) (d : descriptor) : List Nat :=
  (t.data.drop (d.position + d.offset)).take d.size

/-! ## Role modifiers in a table -/

/-- The record carries exactly the role modifier of `m`: its `list_value`,
`dict_key` and `dict_value` bits are those of `m`. -/
def has_role (d : descriptor) (m : descriptor_type) : Prop :=
  d.type.list_value = m.list_value ∧ d.type.dict_key = m.dict_key ∧
    d.type.dict_value = m.dict_value

/-- The role of the value number `k`, counted from 0, directly inside the
container with header `h`: `list_value` in a list; in a dict `dict_key` for an
even `k` and `dict_value` for an odd `k`, so keys and values alternate, key
first. -/
def child_role (h : descriptor) (k : Nat) : descriptor_type :=
  if h.is_list then descriptor_type.list_value_bit
  else if k % 2 = 0 then descriptor_type.dict_key_bit
  else descriptor_type.dict_value_bit

/-- The record `d` at index `j` is a value directly inside a container and
carries the role of its place there: some header `h` at index `i` has it as its
value number `k`, reached from the record after the header by skipping `k` whole
values, and `d` has the role of the value number `k` in `h`. -/
def child_with_role (ds : List descriptor) (j : Nat) (d : descriptor) : Prop :=
  ∃ i h k, ds[i]? = some h ∧ h.is_header = true ∧ k < header_steps h ∧
    walk ds k (i + 1) = j ∧ has_role d (child_role h k)

/-- Role modifiers of the table of one top-level value: (1) every record that
opens a value is the first record, with no role modifier, or a value directly
inside a container with the role of its place there; (2) for every header, each
of its `header_steps` direct values is a record that opens a value and has the
role of its place; (3) the end record of every header, at distance `offset`,
carries the same role modifier as the header. -/
def roles_exact (ds : List descriptor) : Prop :=
  (∀ j d, ds[j]? = some d → d.is_end = false →
    (j = 0 ∧ has_role d descriptor_type.empty) ∨ (0 < j ∧ child_with_role ds j d)) ∧
  (∀ i h, ds[i]? = some h → h.is_header = true →
    (∀ k, k < header_steps h →
      ∃ c, ds[walk ds k (i + 1)]? = some c ∧ c.is_end = false ∧ has_role c (child_role h k)) ∧
    ∃ e, ds[i + h.offset]? = some e ∧ e.is_end = true ∧ has_role e h.type)

/-- The number of bytes the encoder is specified to count for one event: 2 and
the characters of the decimal text, sign included, for an integer; the digits of
the length, 1 and the payload for a string; 1 for each begin and end event; 0
for each role marker. -/
def event_size (ev : event) : Nat :=
  match ev with
  | event.integer value =>
    2 + ((if value < 0 then 1 else 0) + (decimal_text value.natAbs).length)
  | event.string value => (decimal_text value.length).length + 1 + value.length
  | event.begin_list _ => 1
  | event.list_item => 0
  | event.end_list _ => 1
  | event.begin_dict _ => 1
  | event.dict_key => 0
  | event.dict_value => 0
  | event.end_dict _ => 1

/-- The sizes of a sequence of events, added up. -/
def events_size : List event → Nat
  | [] => 0
  | ev :: rest => event_size ev + events_size rest

/-- The record with its position moved on by `n` bytes. -/
def descriptor.shift (n : Nat) (d : descriptor) : descriptor :=
  { d with position := d.position + n }

/-- The byte can start a value: `i`, `l`, `d` or a decimal digit. -/
def starts_value (c : Nat) : Bool :=
  decide (c = symbol.begin_integer) || decide (c = symbol.begin_list) ||
    decide (c = symbol.begin_dict) || symbol.digit c

/-- What one pass through the loop body may do to the cursor and the error: the
cursor does not move back, and an error that is recorded afterwards was recorded
before or has a position at or after the cursor the pass started from. -/
def moves_forward (p q : bencode.descriptor_parser) : Prop :=
  p.it_ ≤ q.it_ ∧ ∀ e, q.error_ = some e → p.error_ = some e ∨ p.it_ ≤ e.position

/-! ## Events of a value and the layout they are to be printed in -/

mutual
/-- Modelled from the spec: the events a producer emits for one value, by the
ordering contract of section 4.3: `begin_X` precedes the children, each child is
followed at once by its role marker (`list_item`, `dict_key` or `dict_value`),
`end_X` follows the last marker.  No size hints are passed. -/
def bvalue.events : bvalue → List event
  | bvalue.integer v => [event.integer v]
  | bvalue.string s => [event.string s]
  | bvalue.list xs => event.begin_list none :: (xs.events ++ [event.end_list none])
  | bvalue.dict kvs => event.begin_dict none :: (kvs.events ++ [event.end_dict none])
/-- The events of the elements of a list, each followed by `list_item`. -/
def blist.events : blist → List event
  | blist.nil => []
  | blist.cons x xs => x.events ++ event.list_item :: xs.events
/-- The events of the entries of a dict: the key, `dict_key`, the value,
`dict_value`. -/
def bdict.events : bdict → List event
  | bdict.nil => []
  | bdict.cons k v kvs =>
    event.string k :: event.dict_key :: (v.events ++ event.dict_value :: kvs.events)
end

/-- A run of `k` spaces. -/
def spaces (k : Nat) : List Nat := List.replicate k 32

mutual
/-- The recursive pretty-printer `pp(value, d)` for indent `n`: the decimal text
of an integer; a string between double quotes; `[]` and `{}` for an empty list
and an empty dict; for a list `[`, the items, a newline, `n * d` spaces and `]`;
for a dict the same with `{` and `}`. -/
def bvalue.pp : bvalue → Nat → Nat → List Nat
  | bvalue.integer v, _, _ =>
    (if v < 0 then [symbol.minus] else []) ++ decimal_text v.natAbs
  | bvalue.string s, _, _ => [34] ++ s ++ [34]
  | bvalue.list xs, n, d =>
    [91] ++ xs.pp n d true ++
      (match xs with
        | blist.nil => []
        | blist.cons _ _ => [10] ++ spaces (n * d)) ++ [93]
  | bvalue.dict kvs, n, d =>
    [123] ++ kvs.pp n d true ++
      (match kvs with
        | bdict.nil => []
        | bdict.cons _ _ _ => [10] ++ spaces (n * d)) ++ [125]
/-- The items of a list at depth `d`, each rendered as a newline, `n * (d + 1)`
spaces and the item at depth `d + 1`, joined by `,`: every item but the first
has the comma before it. -/
def blist.pp : blist → Nat → Nat → Bool → List Nat
  | blist.nil, _, _, _ => []
  | blist.cons x xs, n, d, first =>
    (if first then [] else [44]) ++ [10] ++ spaces (n * (d + 1)) ++ x.pp n (d + 1) ++
      xs.pp n d false
/-- The entries of a dict at depth `d`, each rendered as a newline,
`n * (d + 1)` spaces, the key between double quotes, `: ` and the value at depth
`d + 1`, joined by `,`. -/
def bdict.pp : bdict → Nat → Nat → Bool → List Nat
  | bdict.nil, _, _, _ => []
  | bdict.cons k v kvs, n, d, first =>
    (if first then [] else [44]) ++ [10] ++ spaces (n * (d + 1)) ++ [34] ++ k ++ [34] ++
      [58, 32] ++ v.pp n (d + 1) ++ kvs.pp n d false
end

/-- What `next` writes before a value: a comma unless the value is the first
one, then a newline and the current indentation unless a dict key came just
before. -/
def format_json_to.lead (f : format_json_to) : List Nat :=
  (if f.first_ then [] else [44]) ++
    (if f.after_key_ then [] else [10] ++ spaces f.current_indent_)

/-! ## The JSON pretty-printer on a pointer (`format_json_to<char*>`) -/

/-- Store `src` in a buffer from offset `pos` on, over what was there. -/
def write_at (buffer : List Nat) (pos : Nat) (src : List Nat) : List Nat :=
  buffer.take pos ++ src ++ buffer.drop (pos + src.length)

/-- The data members of the pretty-printer when `OIter` is a pointer, the
instantiation `format_json_to<char*>` that the `static_assert` at the end of
`format_json_to.hpp` names.  `buffer` is the memory the pointer was set up on,
as far as it has been written; `out_` is the offset of the member `out_` in
it. -/
structure format_json_to_char_ptr where
  buffer : List Nat := []
  out_ : Nat := 0
  indent_ : Nat := 4
  current_indent_ : Nat := 0
  first_ : Bool := true
  after_key_ : Bool := true
  deriving DecidableEq, Repr

namespace format_json_to_char_ptr

/-- The statement `*out_++ = c`: store at the pointer and move the pointer on. -/
def put (f : format_json_to_char_ptr) (c : Nat) : format_json_to_char_ptr :=
  { f with buffer := write_at f.buffer f.out_ [c], out_ := f.out_ + 1 }

/-- The statement `std::copy_n(src, size, out_);`: the bytes are stored from the
pointer on through a copy of the pointer; the pointer that `copy_n` returns is
dropped, so the member `out_` stays where it was. -/
def copy_n (f : format_json_to_char_ptr) (src : List Nat) : format_json_to_char_ptr :=
  { f with buffer := write_at f.buffer f.out_ src }

/-- Constructor `format_json_to(out, indent)` on a pointer to the start of a
buffer. -/
def create (indent : Nat) : format_json_to_char_ptr := { indent_ := indent }

/-- The loop of `next_line`: `copy_n` of at most 24 spaces per pass; the first
argument bounds the number of passes. -/
def fill_spaces : Nat → Nat → format_json_to_char_ptr → format_json_to_char_ptr
  | 0, _, f => f
  | fuel + 1, len, f =>
    if len = 0 then f
    else
      let chunk_size := min len 24
      fill_spaces fuel (len - chunk_size) (f.copy_n (List.replicate chunk_size 32))

/-- The member `next_line`. -/
def next_line (f : format_json_to_char_ptr) : format_json_to_char_ptr :=
  fill_spaces f.current_indent_ f.current_indent_ (f.put 10)

/-- The member `next`. -/
def next (f : format_json_to_char_ptr) : format_json_to_char_ptr :=
  let f1 := if !f.first_ then f.put 44 else f
  if f1.after_key_ then { f1 with after_key_ := false } else f1.next_line

/-- Event `integer(value)`. -/
def integer (f : format_json_to_char_ptr) (value : Int) : format_json_to_char_ptr :=
  f.next.copy_n (itoa.to_buffer value)

/-- Event `string(value)`. -/
def string (f : format_json_to_char_ptr) (value : List Nat) : format_json_to_char_ptr :=
  ((f.next.put 34).copy_n value).put 34

/-- Event `begin_list(size)`. -/
def begin_list (f : format_json_to_char_ptr) (_size : Option Nat) : format_json_to_char_ptr :=
  let f1 := f.next.put 91
  { f1 with current_indent_ := u64 (f1.current_indent_ + f1.indent_), first_ := true }

/-- Event `list_item()`. -/
def list_item (f : format_json_to_char_ptr) : format_json_to_char_ptr :=
  { f with first_ := false }

/-- Event `end_list(size)`. -/
def end_list (f : format_json_to_char_ptr) (_size : Option Nat) : format_json_to_char_ptr :=
  let f1 := { f with
    current_indent_ := u64 (f.current_indent_ + 18446744073709551616 - f.indent_) }
  let f2 := if !f1.first_ then f1.next_line else f1
  f2.put 93

/-- Event `begin_dict(size)`. -/
def begin_dict (f : format_json_to_char_ptr) (_size : Option Nat) : format_json_to_char_ptr :=
  let f1 := f.next.put 123
  { f1 with current_indent_ := u64 (f1.current_indent_ + f1.indent_), first_ := true }

/-- Event `end_dict(size)`. -/
def end_dict (f : format_json_to_char_ptr) (_size : Option Nat) : format_json_to_char_ptr :=
  let f1 := { f with
    current_indent_ := u64 (f.current_indent_ + 18446744073709551616 - f.indent_) }
  let f2 := if !f1.first_ then f1.next_line else f1
  f2.put 125

/-- Event `dict_key()`. -/
def dict_key (f : format_json_to_char_ptr) : format_json_to_char_ptr :=
  { f.copy_n [58, 32] with first_ := true, after_key_ := true }

/-- Event `dict_value()`. -/
def dict_value (f : format_json_to_char_ptr) : format_json_to_char_ptr :=
  { f with first_ := false }

/-- Call the member that the event names. -/
def feed (f : format_json_to_char_ptr) (ev : event) : format_json_to_char_ptr :=
  match ev with
  | event.integer value => f.integer value
  | event.string value => f.string value
  | event.begin_list size => f.begin_list size
  | event.list_item => f.list_item
  | event.end_list size => f.end_list size
  | event.begin_dict size => f.begin_dict size
  | event.dict_key => f.dict_key
  | event.dict_value => f.dict_value
  | event.end_dict size => f.end_dict size

/-- Feed a sequence of events, in call order. -/
def feed_all (f : format_json_to_char_ptr) (events : List event) : format_json_to_char_ptr :=
  events.foldl feed f

end format_json_to_char_ptr

/-! ## Sample inputs -/

/-- The value written `li1el3:foo3:baree`: a list of the integer 1 and a list of
the strings `foo` and `bar`. -/
def sample_nested_list : bvalue :=
  bvalue.list (blist.cons (bvalue.integer 1)
    (blist.cons (bvalue.list (blist.cons (bvalue.string (bytes "foo"))
      (blist.cons (bvalue.string (bytes "bar")) blist.nil))) blist.nil))

/-- The value written `d1:ai-7e1:bl0:ee`: a dict with the integer -7 under `a`
and a list holding the empty string under `b`. -/
def sample_dict : bvalue :=
  bvalue.dict (bdict.cons (bytes "a") (bvalue.integer (-7))
    (bdict.cons (bytes "b")
      (bvalue.list (blist.cons (bvalue.string []) blist.nil)) bdict.nil))

/-! ## Decimal text -/

theorem decimal_value_append (xs : List Nat) (d : Nat) :
    decimal_value (xs ++ [d]) = 10 * decimal_value xs + (d - 48) := by
  simp [decimal_value, List.foldl_append]

theorem decimal_digits_ne_nil (fuel n : Nat) : decimal_digits (fuel + 1) n ≠ [] := by
  unfold decimal_digits
  split <;> simp

theorem decimal_digits_digit (fuel n : Nat) :
    ∀ c ∈ decimal_digits fuel n, symbol.digit c = true := by
  induction fuel generalizing n with
  | zero => simp [decimal_digits]
  | succ f ih =>
    intro c hc
    unfold decimal_digits at hc
    split at hc
    · simp at hc
      subst hc
      simp [symbol.digit]
      omega
    · rw [List.mem_append] at hc
      rcases hc with hc | hc
      · exact ih _ c hc
      · simp at hc
        subst hc
        simp [symbol.digit]
        omega

theorem decimal_value_digits (fuel n : Nat) (h : n < fuel) :
    decimal_value (decimal_digits fuel n) = n := by
  induction fuel generalizing n with
  | zero => omega
  | succ f ih =>
    unfold decimal_digits
    split
    · simp [decimal_value]
    · rw [decimal_value_append, ih (n / 10) (by omega)]
      omega

theorem decimal_digits_head (fuel n : Nat) (h : n < fuel) (h0 : n ≠ 0) :
    (decimal_digits fuel n).head? ≠ some 48 := by
  induction fuel generalizing n with
  | zero => omega
  | succ f ih =>
    unfold decimal_digits
    split
    · simp
      omega
    · have hf : f ≠ 0 := by omega
      obtain ⟨g, rfl⟩ := Nat.exists_eq_succ_of_ne_zero hf
      have hne := decimal_digits_ne_nil g (n / 10)
      rw [List.head?_append_of_ne_nil _ hne]
      exact ih (n / 10) (by omega) (by omega)

theorem decimal_text_ne_nil (n : Nat) : decimal_text n ≠ [] :=
  decimal_digits_ne_nil n n

theorem decimal_text_digit (n : Nat) : ∀ c ∈ decimal_text n, symbol.digit c = true :=
  decimal_digits_digit (n + 1) n

theorem decimal_value_text (n : Nat) : decimal_value (decimal_text n) = n :=
  decimal_value_digits (n + 1) n (by omega)

theorem decimal_text_zero : decimal_text 0 = [48] := by
  simp [decimal_text, decimal_digits]

theorem decimal_text_no_leading_zero (n : Nat) :
    (decide (2 ≤ (decimal_text n).length) && decide ((decimal_text n).head? = some 48)) = false := by
  by_cases h0 : n = 0
  · subst h0
    simp [decimal_text_zero]
  · have := decimal_digits_head (n + 1) n (by omega) h0
    simp [decimal_text, this]

theorem decimal_text_length_pos (n : Nat) : 0 < (decimal_text n).length :=
  List.length_pos.mpr (decimal_text_ne_nil n)

/-! ## The token decoders on well-formed tokens -/

theorem not_digit_colon : symbol.digit symbol.colon = false := by decide

theorem not_digit_end : symbol.digit symbol.end_ = false := by decide

theorem not_digit_minus : symbol.digit symbol.minus = false := by decide

theorem takeWhile_digit_text (n : Nat) (c : Nat) (rest : List Nat)
    (hc : symbol.digit c = false) :
    (decimal_text n ++ c :: rest).takeWhile symbol.digit = decimal_text n := by
  rw [List.takeWhile_append_of_pos (decimal_text_digit n)]
  simp [hc]

theorem dropWhile_digit_text (n : Nat) (c : Nat) (rest : List Nat)
    (hc : symbol.digit c = false) :
    (decimal_text n ++ c :: rest).dropWhile symbol.digit = c :: rest := by
  rw [List.dropWhile_append_of_pos (decimal_text_digit n)]
  simp [hc]

theorem string_wire_length (s : List Nat) :
    (string_wire s).length = (decimal_text s.length).length + 1 + s.length := by
  simp [string_wire]
  omega

theorem bdecode_string_token_wire (s : List Nat) (post : List Nat)
    (hs : s.length < 4294967296) :
    bdecode_string_token (string_wire s ++ post) =
      Except.ok ({ offset := (decimal_text s.length).length + 1, size := s.length },
        (string_wire s).length) := by
  have e : string_wire s ++ post = decimal_text s.length ++ symbol.colon :: (s ++ post) := by
    simp [string_wire]
  unfold bdecode_string_token
  simp only [e, takeWhile_digit_text _ _ _ not_digit_colon,
    dropWhile_digit_text _ _ _ not_digit_colon, decimal_value_text,
    decimal_text_no_leading_zero, string_wire_length]
  simp [decimal_text_ne_nil]
  omega

theorem integer_wire_length (v : Int) :
    (integer_wire v).length =
      1 + (if v < 0 then 1 else 0) + (decimal_text v.natAbs).length + 1 := by
  unfold integer_wire
  by_cases h : v < 0
  · simp [h]
    omega
  · have : v.toNat = v.natAbs := by omega
    simp [h, this]
    omega

theorem decimal_text_head_not_minus (n : Nat) : (decimal_text n).head? ≠ some symbol.minus := by
  intro h
  have hne := decimal_text_ne_nil n
  cases hd : decimal_text n with
  | nil => exact hne hd
  | cons c cs =>
    rw [hd] at h
    simp at h
    have := decimal_text_digit n c (by rw [hd]; simp)
    rw [h] at this
    exact absurd this (by decide)

theorem bdecode_integer_wire (v : Int) (post : List Nat)
    (h1 : -9223372036854775808 ≤ v) (h2 : v ≤ 9223372036854775807) :
    bdecode_integer (integer_wire v ++ post) = Except.ok (v, (integer_wire v).length) := by
  rw [integer_wire_length]
  by_cases h : v < 0
  · have e : integer_wire v ++ post =
        symbol.begin_integer :: symbol.minus :: (decimal_text v.natAbs ++ symbol.end_ :: post) := by
      simp [integer_wire, h]
    have hz : decimal_text v.natAbs ≠ [48] := by
      intro hh
      have := decimal_value_text v.natAbs
      rw [hh] at this
      simp [decimal_value] at this
      omega
    rw [e]
    unfold bdecode_integer
    simp only [List.head?_cons, decide_True, if_true, List.tail_cons,
      takeWhile_digit_text _ _ _ not_digit_end, dropWhile_digit_text _ _ _ not_digit_end,
      decimal_value_text, decimal_text_no_leading_zero]
    simp [decimal_text_ne_nil, hz, h]
    have hr : ¬ (9223372036854775808 < v.natAbs) := by omega
    rw [if_neg hr]
    have hv : -|v| = v := by rw [abs_of_neg h]; omega
    rw [hv]
  · have e : integer_wire v ++ post =
        symbol.begin_integer :: (decimal_text v.natAbs ++ symbol.end_ :: post) := by
      have : v.toNat = v.natAbs := by omega
      simp [integer_wire, h, this]
    rw [e]
    unfold bdecode_integer
    have hm : ((decimal_text v.natAbs ++ symbol.end_ :: post).head? = some symbol.minus) = False := by
      rw [List.head?_append_of_ne_nil _ (decimal_text_ne_nil _)]
      simp [decimal_text_head_not_minus]
    simp only [hm, decide_False, Bool.false_eq_true, if_false,
      takeWhile_digit_text _ _ _ not_digit_end, dropWhile_digit_text _ _ _ not_digit_end,
      decimal_value_text, decimal_text_no_leading_zero]
    simp [decimal_text_ne_nil, h]
    have hr : ¬ (9223372036854775807 < v.natAbs) := by omega
    rw [if_neg hr]
    have hv : |v| = v := abs_of_nonneg (by omega)
    rw [hv]

/-! ## Single steps of the loop -/

theorem u32_of_lt {n : Nat} (h : n < 4294967296) : u32 n = n := Nat.mod_eq_of_lt h

theorem or_empty (a : descriptor_type) : descriptor_type.or a descriptor_type.empty = a := by
  cases a
  simp [descriptor_type.or, descriptor_type.empty]
  intro h
  exact h.symm

theorem parse_loop_fuel_step (fuel : Nat) (p : bencode.descriptor_parser) (h : p.running) :
    bencode.descriptor_parser.parse_loop_fuel (fuel + 1) p =
      bencode.descriptor_parser.parse_loop_fuel fuel p.loop_body := by
  obtain ⟨h1, h2, h3⟩ := h
  have h3' : ¬ (p.descriptors_.length > p.options_.value_limit) := by omega
  simp [bencode.descriptor_parser.parse_loop_fuel, h1, h2, h3']

theorem remaining_lt (p : bencode.descriptor_parser) (c : Nat) (rest : List Nat)
    (h : p.remaining = c :: rest) : p.it_ < p.input.length := by
  unfold bencode.descriptor_parser.remaining at h
  by_contra hh
  rw [List.drop_eq_nil_of_le (by omega)] at h
  cases h

theorem remaining_length (p : bencode.descriptor_parser) (w post : List Nat)
    (h : p.remaining = w ++ post) : p.it_ + w.length + post.length = p.input.length ∨ w ++ post = [] := by
  unfold bencode.descriptor_parser.remaining at h
  have := congrArg List.length h
  simp at this
  by_cases hh : w ++ post = []
  · right; exact hh
  · left
    have : 0 < (w ++ post).length := List.length_pos.mpr hh
    simp at this
    omega

theorem peek_of_remaining (p : bencode.descriptor_parser) (c : Nat) (rest : List Nat)
    (h : p.remaining = c :: rest) : p.peek = c := by
  simp [bencode.descriptor_parser.peek, h]

theorem integer_wire_cons (v : Int) :
    ∃ rest, integer_wire v = symbol.begin_integer :: rest := ⟨_, rfl⟩

theorem step_integer (p : bencode.descriptor_parser) (v : Int) (post : List Nat)
    (hrem : p.remaining = integer_wire v ++ post)
    (h1 : -9223372036854775808 ≤ v) (h2 : v ≤ 9223372036854775807)
    (hctx : p.value_context)
    (hlen : p.input.length < 4294967296)
    (htop : ∀ f, p.stack_.head? = some f → f.size ≤ p.it_) :
    p.loop_body = p.after_value (integer_wire v).length
      [{ type := descriptor_type.or descriptor_type.integer
            (detail.descriptor_type_modifier p.context)
         position := p.it_, value := v }]
      (stack_after_value p.stack_) := by
  obtain ⟨rest, hw⟩ := integer_wire_cons v
  have hlt : p.it_ < p.input.length := remaining_lt p _ (rest ++ post) (by rw [hrem, hw]; rfl)
  have hpk : p.peek = 105 := peek_of_remaining p _ (rest ++ post) (by rw [hrem, hw]; rfl)
  have hdec := bdecode_integer_wire v post h1 h2
  rw [← hrem] at hdec
  have hpos : u32 p.it_ = p.it_ := u32_of_lt (by omega)
  cases hs : p.stack_ with
  | nil =>
    simp [bencode.descriptor_parser.loop_body, hs, bencode.descriptor_parser.handle_value, hpk,
      symbol.begin_integer, bencode.descriptor_parser.dispatch, bencode.descriptor_parser.handle_integer, hdec,
      bencode.descriptor_parser.after_value, stack_after_value, bencode.descriptor_parser.context, stack_context,
      descriptor.create, descriptor.set_value, bencode.descriptor_parser.current_position, hpos]
  | cons top below =>
    have hsz : u32 (top.size + 1) = top.size + 1 := by
      have := htop top (by simp [hs])
      exact u32_of_lt (by omega)
    simp only [bencode.descriptor_parser.value_context, value_stack, hs] at hctx
    rcases hctx with hst | hst
    · simp [bencode.descriptor_parser.loop_body, hs, bencode.descriptor_parser.handle_value, hpk, hst,
        symbol.begin_integer, symbol.end_, bencode.descriptor_parser.dispatch,
        bencode.descriptor_parser.handle_integer, hdec,
        bencode.descriptor_parser.after_value, stack_after_value, bencode.descriptor_parser.context, stack_context,
        descriptor.create, descriptor.set_value, bencode.descriptor_parser.current_position, hpos,
        bencode.descriptor_parser.modify_top, frame_after_value, hsz]
    · simp [bencode.descriptor_parser.loop_body, hs, bencode.descriptor_parser.handle_value, hpk, hst,
        symbol.begin_integer, symbol.end_, bencode.descriptor_parser.dispatch,
        bencode.descriptor_parser.handle_integer, hdec,
        bencode.descriptor_parser.after_value, stack_after_value, bencode.descriptor_parser.context, stack_context,
        descriptor.create, descriptor.set_value, bencode.descriptor_parser.current_position, hpos,
        bencode.descriptor_parser.modify_top, frame_after_value, hsz]

theorem string_wire_cons (s : List Nat) :
    ∃ c rest, string_wire s = c :: rest ∧ symbol.digit c = true := by
  cases hd : decimal_text s.length with
  | nil => exact absurd hd (decimal_text_ne_nil _)
  | cons c cs =>
    refine ⟨c, cs ++ symbol.colon :: s, ?_, ?_⟩
    · simp [string_wire, hd]
    · exact decimal_text_digit s.length c (by rw [hd]; simp)

theorem digit_bounds {c : Nat} (h : symbol.digit c = true) : 48 ≤ c ∧ c ≤ 57 := by
  simpa [symbol.digit] using h

theorem step_string (p : bencode.descriptor_parser) (s : List Nat) (post : List Nat)
    (hrem : p.remaining = string_wire s ++ post)
    (hs : s.length < 4294967296)
    (hctx : p.value_context)
    (hlen : p.input.length < 4294967296)
    (htop : ∀ f, p.stack_.head? = some f → f.size ≤ p.it_) :
    p.loop_body = p.after_value (string_wire s).length
      [{ type := descriptor_type.or descriptor_type.string
            (detail.descriptor_type_modifier p.context)
         position := p.it_
         offset := (decimal_text s.length).length + 1, size := s.length }]
      (stack_after_value p.stack_) := by
  obtain ⟨c, rest, hw, hdig⟩ := string_wire_cons s
  have hb := digit_bounds hdig
  have hlt : p.it_ < p.input.length := remaining_lt p _ (rest ++ post) (by rw [hrem, hw]; rfl)
  have hpk : p.peek = c := peek_of_remaining p _ (rest ++ post) (by rw [hrem, hw]; rfl)
  have hdec := bdecode_string_token_wire s post hs
  rw [← hrem] at hdec
  have hpos : u32 p.it_ = p.it_ := u32_of_lt (by omega)
  have hsz0 : u32 s.length = s.length := u32_of_lt hs
  have hoff : u32 ((decimal_text s.length).length + 1) = (decimal_text s.length).length + 1 := by
    apply u32_of_lt
    have := remaining_length p _ _ hrem
    rw [string_wire_length] at this
    rcases this with h | h
    · omega
    · rw [hw] at h
      simp at h
  have c1 : c ≠ 105 := by omega
  have c2 : c ≠ 108 := by omega
  have c3 : c ≠ 100 := by omega
  have c4 : c ≠ 101 := by omega
  cases hst : p.stack_ with
  | nil =>
    simp [bencode.descriptor_parser.loop_body, hst, bencode.descriptor_parser.handle_value, hpk, c1, c2, c3, hdig,
      symbol.begin_integer, symbol.begin_list, symbol.begin_dict,
      bencode.descriptor_parser.dispatch, bencode.descriptor_parser.handle_string, hdec,
      bencode.descriptor_parser.after_value, stack_after_value, bencode.descriptor_parser.context, stack_context,
      descriptor.create, descriptor.set_offset, descriptor.set_size,
      bencode.descriptor_parser.current_position, hpos, hsz0, hoff]
  | cons top below =>
    have hsz : u32 (top.size + 1) = top.size + 1 := by
      have := htop top (by simp [hst])
      exact u32_of_lt (by omega)
    simp only [bencode.descriptor_parser.value_context, value_stack, hst] at hctx
    rcases hctx with hx | hx
    · simp [bencode.descriptor_parser.loop_body, hst, bencode.descriptor_parser.handle_value, hpk, hx,
        c1, c2, c3, c4, hdig,
        symbol.begin_integer, symbol.begin_list, symbol.begin_dict, symbol.end_,
        bencode.descriptor_parser.dispatch, bencode.descriptor_parser.handle_string, hdec,
        bencode.descriptor_parser.after_value, stack_after_value, bencode.descriptor_parser.context, stack_context,
        descriptor.create, descriptor.set_offset, descriptor.set_size,
        bencode.descriptor_parser.current_position, hpos, hsz0, hoff,
        bencode.descriptor_parser.modify_top, frame_after_value, hsz]
    · simp [bencode.descriptor_parser.loop_body, hst, bencode.descriptor_parser.handle_value, hpk, hx,
        c1, c2, c3, c4, hdig,
        symbol.begin_integer, symbol.begin_list, symbol.begin_dict, symbol.end_,
        bencode.descriptor_parser.dispatch, bencode.descriptor_parser.handle_string, hdec,
        bencode.descriptor_parser.after_value, stack_after_value, bencode.descriptor_parser.context, stack_context,
        descriptor.create, descriptor.set_offset, descriptor.set_size,
        bencode.descriptor_parser.current_position, hpos, hsz0, hoff,
        bencode.descriptor_parser.modify_top, frame_after_value, hsz]

theorem step_dict_key (p : bencode.descriptor_parser) (s : List Nat) (post : List Nat)
    (top : detail.descriptor_parser_stack_frame)
    (below : List detail.descriptor_parser_stack_frame)
    (hrem : p.remaining = string_wire s ++ post)
    (hs : s.length < 4294967296)
    (hstack : p.stack_ = top :: below)
    (hstate : top.state = parser_state.expect_dict_key)
    (hlen : p.input.length < 4294967296) :
    p.loop_body = p.after_value (string_wire s).length
      [{ type := descriptor_type.or descriptor_type.string descriptor_type.dict_key_bit
         position := p.it_
         offset := (decimal_text s.length).length + 1, size := s.length }]
      ({ top with state := parser_state.expect_dict_value } :: below) := by
  obtain ⟨c, rest, hw, hdig⟩ := string_wire_cons s
  have hlt : p.it_ < p.input.length := remaining_lt p _ (rest ++ post) (by rw [hrem, hw]; rfl)
  have hpk : p.peek = c := peek_of_remaining p _ (rest ++ post) (by rw [hrem, hw]; rfl)
  have hdec := bdecode_string_token_wire s post hs
  rw [← hrem] at hdec
  have hpos : u32 p.it_ = p.it_ := u32_of_lt (by omega)
  have hsz0 : u32 s.length = s.length := u32_of_lt hs
  have hoff : u32 ((decimal_text s.length).length + 1) = (decimal_text s.length).length + 1 := by
    apply u32_of_lt
    have := remaining_length p _ _ hrem
    rw [string_wire_length] at this
    rcases this with h | h
    · omega
    · rw [hw] at h
      simp at h
  simp [bencode.descriptor_parser.loop_body, hstack, hstate, hpk, hdig,
    bencode.descriptor_parser.handle_dict_key, hdec,
    bencode.descriptor_parser.after_value, descriptor.create, descriptor.set_offset, descriptor.set_size,
    bencode.descriptor_parser.current_position, hpos, hsz0, hoff, bencode.descriptor_parser.modify_top]

theorem step_list_begin (p : bencode.descriptor_parser) (rest : List Nat)
    (hrem : p.remaining = symbol.begin_list :: rest)
    (hctx : p.value_context)
    (hlen : p.input.length < 4294967296)
    (hds : p.descriptors_.length ≤ p.it_)
    (hrec : p.stack_.length < p.options_.recursion_limit) :
    p.loop_body = p.after_value 1
      [{ type := descriptor_type.or descriptor_type.list
            (detail.descriptor_type_modifier p.context)
         position := p.it_ }]
      ({ state := parser_state.expect_list_value, position := p.descriptors_.length, size := 0 }
        :: p.stack_) := by
  have hlt : p.it_ < p.input.length := remaining_lt p _ rest hrem
  have hpk : p.peek = 108 := peek_of_remaining p _ rest hrem
  have hpos : u32 p.it_ = p.it_ := u32_of_lt (by omega)
  have hidx : u32 p.descriptors_.length = p.descriptors_.length := u32_of_lt (by omega)
  have hne : p.stack_.length ≠ p.options_.recursion_limit := by omega
  cases hs : p.stack_ with
  | nil =>
    rw [hs] at hne
    simp [bencode.descriptor_parser.loop_body, hs, bencode.descriptor_parser.handle_value, hpk,
      symbol.begin_integer, symbol.begin_list, bencode.descriptor_parser.handle_list_begin, hne,
      bencode.descriptor_parser.after_value, bencode.descriptor_parser.context, stack_context,
      descriptor.create, bencode.descriptor_parser.current_position, hpos, hidx]
    simp only [List.length_nil] at hne
    rw [if_neg hne]
  | cons top below =>
    rw [hs] at hne
    simp only [bencode.descriptor_parser.value_context, value_stack, hs] at hctx
    rcases hctx with hst | hst
    · simp [bencode.descriptor_parser.loop_body, hs, bencode.descriptor_parser.handle_value, hpk, hst,
        symbol.begin_integer, symbol.begin_list, symbol.end_,
        bencode.descriptor_parser.handle_list_begin, hne,
        bencode.descriptor_parser.after_value, bencode.descriptor_parser.context, stack_context,
        descriptor.create, bencode.descriptor_parser.current_position, hpos, hidx]
      simp only [List.length_cons] at hne
      rw [if_neg hne]
    · simp [bencode.descriptor_parser.loop_body, hs, bencode.descriptor_parser.handle_value, hpk, hst,
        symbol.begin_integer, symbol.begin_list, symbol.end_,
        bencode.descriptor_parser.handle_list_begin, hne,
        bencode.descriptor_parser.after_value, bencode.descriptor_parser.context, stack_context,
        descriptor.create, bencode.descriptor_parser.current_position, hpos, hidx]
      simp only [List.length_cons] at hne
      rw [if_neg hne]

theorem step_dict_begin (p : bencode.descriptor_parser) (rest : List Nat)
    (hrem : p.remaining = symbol.begin_dict :: rest)
    (hctx : p.value_context)
    (hlen : p.input.length < 4294967296)
    (hds : p.descriptors_.length ≤ p.it_)
    (hrec : p.stack_.length < p.options_.recursion_limit) :
    p.loop_body = p.after_value 1
      [{ type := descriptor_type.or descriptor_type.dict
            (detail.descriptor_type_modifier p.context)
         position := p.it_ }]
      ({ state := parser_state.expect_dict_key, position := p.descriptors_.length, size := 0 }
        :: p.stack_) := by
  have hlt : p.it_ < p.input.length := remaining_lt p _ rest hrem
  have hpk : p.peek = 100 := peek_of_remaining p _ rest hrem
  have hpos : u32 p.it_ = p.it_ := u32_of_lt (by omega)
  have hidx : u32 p.descriptors_.length = p.descriptors_.length := u32_of_lt (by omega)
  have hne : p.stack_.length ≠ p.options_.recursion_limit := by omega
  cases hs : p.stack_ with
  | nil =>
    rw [hs] at hne
    simp [bencode.descriptor_parser.loop_body, hs, bencode.descriptor_parser.handle_value, hpk,
      symbol.begin_integer, symbol.begin_list, symbol.begin_dict,
      bencode.descriptor_parser.handle_dict_begin, hne,
      bencode.descriptor_parser.after_value, bencode.descriptor_parser.context, stack_context,
      descriptor.create, bencode.descriptor_parser.current_position, hpos, hidx]
    simp only [List.length_nil] at hne
    rw [if_neg hne]
  | cons top below =>
    rw [hs] at hne
    simp only [bencode.descriptor_parser.value_context, value_stack, hs] at hctx
    rcases hctx with hst | hst
    · simp [bencode.descriptor_parser.loop_body, hs, bencode.descriptor_parser.handle_value, hpk, hst,
        symbol.begin_integer, symbol.begin_list, symbol.begin_dict, symbol.end_,
        bencode.descriptor_parser.handle_dict_begin, hne,
        bencode.descriptor_parser.after_value, bencode.descriptor_parser.context, stack_context,
        descriptor.create, bencode.descriptor_parser.current_position, hpos, hidx]
      simp only [List.length_cons] at hne
      rw [if_neg hne]
    · simp [bencode.descriptor_parser.loop_body, hs, bencode.descriptor_parser.handle_value, hpk, hst,
        symbol.begin_integer, symbol.begin_list, symbol.begin_dict, symbol.end_,
        bencode.descriptor_parser.handle_dict_begin, hne,
        bencode.descriptor_parser.after_value, bencode.descriptor_parser.context, stack_context,
        descriptor.create, bencode.descriptor_parser.current_position, hpos, hidx]
      simp only [List.length_cons] at hne
      rw [if_neg hne]

theorem getElem?_middle (pre : List descriptor) (hdr : descriptor) (post : List descriptor) :
    (pre ++ hdr :: post)[pre.length]? = some hdr := by
  rw [List.getElem?_append_right (le_refl _)]
  simp

theorem set_middle (pre : List descriptor) (hdr x : descriptor) (post : List descriptor) :
    (pre ++ hdr :: post).set pre.length x = pre ++ x :: post := by
  simp

theorem modify_descriptor_eq (p : bencode.descriptor_parser) (i : Nat) (f : descriptor → descriptor)
    (pre : List descriptor) (hdr : descriptor) (post : List descriptor)
    (h : p.descriptors_ = pre ++ hdr :: post) (hi : i = pre.length) :
    p.modify_descriptor i f = { p with descriptors_ := pre ++ f hdr :: post } := by
  subst hi
  simp only [bencode.descriptor_parser.modify_descriptor, h, getElem?_middle, set_middle]

theorem handle_nested_structures_eq (q : bencode.descriptor_parser)
    (hv : value_stack q.stack_)
    (hsz : ∀ f, q.stack_.head? = some f → f.size + 1 < 4294967296) :
    q.handle_nested_structures =
      (if q.stack_ = [] then none else some (stack_context q.stack_),
        { q with stack_ := stack_after_value q.stack_ }) := by
  cases hs : q.stack_ with
  | nil =>
    simp [bencode.descriptor_parser.handle_nested_structures, hs, stack_after_value]
    cases q
    simp_all
  | cons b bs =>
    have hu : u32 (b.size + 1) = b.size + 1 := u32_of_lt (hsz b (by simp [hs]))
    simp only [value_stack, hs] at hv
    rcases hv with hst | hst
    · simp [bencode.descriptor_parser.handle_nested_structures, hs, stack_after_value, stack_context,
        frame_after_value, hst, hu]
    · simp [bencode.descriptor_parser.handle_nested_structures, hs, stack_after_value, stack_context,
        frame_after_value, hst, hu]

theorem handle_container_end_eq (p : bencode.descriptor_parser) (tag : descriptor_type)
    (top : detail.descriptor_parser_stack_frame)
    (below : List detail.descriptor_parser_stack_frame)
    (pre : List descriptor) (hdr : descriptor) (body : List descriptor)
    (hstack : p.stack_ = top :: below)
    (hds : p.descriptors_ = pre ++ hdr :: body)
    (hpos : top.position = pre.length)
    (hlen : p.input.length < 4294967296)
    (hlt : p.it_ < p.input.length)
    (hdl : p.descriptors_.length ≤ p.it_)
    (hsz : top.size ≤ p.it_)
    (hbelow : value_stack below)
    (hbsz : ∀ f, below.head? = some f → f.size ≤ p.it_) :
    (p.handle_container_end tag).2 =
      { p with
        it_ := p.it_ + 1
        stack_ := stack_after_value below
        descriptors_ := pre ++ { hdr with offset := body.length + 1, size := top.size } ::
          (body ++ [{ type := descriptor_type.or (descriptor_type.or tag descriptor_type.end_bit)
                        (detail.descriptor_type_modifier (stack_context below))
                      position := p.it_, offset := body.length + 1, size := top.size }]) } := by
  obtain ⟨input, it, ds, stack, err, opts⟩ := p
  dsimp only at *
  subst hstack hds
  have hposu : u32 it = it := u32_of_lt (by omega)
  have hszu : u32 top.size = top.size := u32_of_lt (by omega)
  have hdl2 : pre.length + body.length + 1 ≤ it := by
    simp at hdl
    omega
  have hoffu : u32 (body.length + 1) = body.length + 1 := u32_of_lt (by omega)
  have hoff : (pre ++ hdr :: body).length - pre.length = body.length + 1 := by
    simp
  have hns := handle_nested_structures_eq
    { input := input, it_ := it + 1, descriptors_ := pre ++ hdr :: body, stack_ := below,
      error_ := err, options_ := opts } hbelow
    (by intro f hf; have := hbsz f hf; omega)
  simp only at hns
  simp only [bencode.descriptor_parser.handle_container_end, hns, hpos, hoff,
    bencode.descriptor_parser.current_position]
  rw [modify_descriptor_eq _ pre.length _ pre hdr
    (body ++ [descriptor.create
      (match (if below = [] then none else some (stack_context below)) with
        | some st => descriptor_type.or (descriptor_type.or tag descriptor_type.end_bit)
            (detail.descriptor_type_modifier st)
        | none => descriptor_type.or tag descriptor_type.end_bit) it]) (by simp) rfl]
  rw [modify_descriptor_eq _ _ _ (pre ++ (hdr.set_offset (body.length + 1)).set_size top.size :: body)
    (descriptor.create
      (match (if below = [] then none else some (stack_context below)) with
        | some st => descriptor_type.or (descriptor_type.or tag descriptor_type.end_bit)
            (detail.descriptor_type_modifier st)
        | none => descriptor_type.or tag descriptor_type.end_bit) it) [] (by simp) (by simp)]
  cases below with
  | nil =>
    simp [descriptor.set_offset, descriptor.set_size, descriptor.create, hposu, hszu, hoffu,
      stack_context, detail.descriptor_type_modifier, or_empty]
  | cons b bs =>
    simp [descriptor.set_offset, descriptor.set_size, descriptor.create, hposu, hszu, hoffu]

theorem step_list_end (p : bencode.descriptor_parser) (rest : List Nat)
    (top : detail.descriptor_parser_stack_frame)
    (below : List detail.descriptor_parser_stack_frame)
    (hrem : p.remaining = symbol.end_ :: rest)
    (hstack : p.stack_ = top :: below)
    (hstate : top.state = parser_state.expect_list_value) :
    p.loop_body = (p.handle_container_end descriptor_type.list).2 := by
  have hpk : p.peek = 101 := peek_of_remaining p _ rest hrem
  simp [bencode.descriptor_parser.loop_body, hstack, hstate, hpk, symbol.end_,
    bencode.descriptor_parser.handle_list_end]

theorem step_dict_end (p : bencode.descriptor_parser) (rest : List Nat)
    (top : detail.descriptor_parser_stack_frame)
    (below : List detail.descriptor_parser_stack_frame)
    (hrem : p.remaining = symbol.end_ :: rest)
    (hstack : p.stack_ = top :: below)
    (hstate : top.state = parser_state.expect_dict_key) :
    p.loop_body = (p.handle_container_end descriptor_type.dict).2 := by
  have hpk : p.peek = 101 := peek_of_remaining p _ rest hrem
  simp [bencode.descriptor_parser.loop_body, hstack, hstate, hpk, symbol.end_, symbol.digit,
    bencode.descriptor_parser.handle_dict_end]

theorem remaining_after_value (p : bencode.descriptor_parser) (w post : List Nat)
    (records : List descriptor) (stack : List detail.descriptor_parser_stack_frame)
    (h : p.remaining = w ++ post) :
    (p.after_value w.length records stack).remaining = post := by
  unfold bencode.descriptor_parser.remaining at *
  simp only [bencode.descriptor_parser.after_value]
  rw [← List.drop_drop, h]
  simp

mutual
theorem bvalue_records_length (v : bvalue) (pos : Nat) (m : descriptor_type) :
    (v.records pos m).length = v.count := by
  cases v with
  | integer v => simp [bvalue.records, bvalue.count]
  | string s => simp [bvalue.records, bvalue.count]
  | list xs => simp [bvalue.records, bvalue.count, blist_records_length xs (pos + 1)]
  | dict kvs => simp [bvalue.records, bvalue.count, bdict_records_length kvs (pos + 1)]
theorem blist_records_length (xs : blist) (pos : Nat) :
    (xs.records pos).length = xs.count := by
  cases xs with
  | nil => simp [blist.records, blist.count]
  | cons x xs =>
    simp [blist.records, blist.count, bvalue_records_length x, blist_records_length xs]
theorem bdict_records_length (kvs : bdict) (pos : Nat) :
    (kvs.records pos).length = kvs.count := by
  cases kvs with
  | nil => simp [bdict.records, bdict.count]
  | cons k v kvs =>
    simp [bdict.records, bdict.count, bvalue_records_length v, bdict_records_length kvs]
    omega
end

mutual
theorem bvalue_count_le_wire (v : bvalue) : v.count ≤ v.wire.length := by
  cases v with
  | integer v =>
    simp [bvalue.wire, bvalue.count, integer_wire]
  | string s =>
    simp [bvalue.wire, bvalue.count, string_wire]
    omega
  | list xs =>
    have := blist_count_le_wire xs
    simp [bvalue.wire, bvalue.count]
    omega
  | dict kvs =>
    have := bdict_count_le_wire kvs
    simp [bvalue.wire, bvalue.count]
    omega
theorem blist_count_le_wire (xs : blist) : xs.count ≤ xs.wire.length := by
  cases xs with
  | nil => simp [blist.wire, blist.count]
  | cons x xs =>
    have := bvalue_count_le_wire x
    have := blist_count_le_wire xs
    simp [blist.wire, blist.count]
    omega
theorem bdict_count_le_wire (kvs : bdict) : kvs.count ≤ kvs.wire.length := by
  cases kvs with
  | nil => simp [bdict.wire, bdict.count]
  | cons k v kvs =>
    have := bvalue_count_le_wire v
    have := bdict_count_le_wire kvs
    have := decimal_text_length_pos k.length
    simp [bdict.wire, bdict.count, string_wire]
    omega
end

theorem bvalue_count_pos (v : bvalue) : 0 < v.count := by
  cases v <;> simp [bvalue.count]

theorem blist_length_le_count (xs : blist) : xs.length ≤ xs.count := by
  cases xs with
  | nil => simp [blist.length]
  | cons x xs =>
    have := bvalue_count_pos x
    have := blist_length_le_count xs
    simp [blist.length, blist.count]
    omega

theorem bdict_length_le_count (kvs : bdict) : kvs.length ≤ kvs.count := by
  cases kvs with
  | nil => simp [bdict.length]
  | cons k v kvs =>
    have := bdict_length_le_count kvs
    simp [bdict.length, bdict.count]
    omega

/-! ## Reading a well-formed value -/

@[simp] theorem after_value_it (p : bencode.descriptor_parser) (w : Nat) (r : List descriptor)
    (s : List detail.descriptor_parser_stack_frame) : (p.after_value w r s).it_ = p.it_ + w := rfl

@[simp] theorem after_value_input (p : bencode.descriptor_parser) (w : Nat) (r : List descriptor)
    (s : List detail.descriptor_parser_stack_frame) : (p.after_value w r s).input = p.input := rfl

@[simp] theorem after_value_descriptors (p : bencode.descriptor_parser) (w : Nat) (r : List descriptor)
    (s : List detail.descriptor_parser_stack_frame) :
    (p.after_value w r s).descriptors_ = p.descriptors_ ++ r := rfl

@[simp] theorem after_value_stack (p : bencode.descriptor_parser) (w : Nat) (r : List descriptor)
    (s : List detail.descriptor_parser_stack_frame) : (p.after_value w r s).stack_ = s := rfl

@[simp] theorem after_value_error (p : bencode.descriptor_parser) (w : Nat) (r : List descriptor)
    (s : List detail.descriptor_parser_stack_frame) : (p.after_value w r s).error_ = p.error_ := rfl

@[simp] theorem after_value_options (p : bencode.descriptor_parser) (w : Nat) (r : List descriptor)
    (s : List detail.descriptor_parser_stack_frame) :
    (p.after_value w r s).options_ = p.options_ := rfl

theorem after_value_after_value (p : bencode.descriptor_parser) (w1 w2 : Nat) (r1 r2 : List descriptor)
    (s1 s2 : List detail.descriptor_parser_stack_frame) :
    (p.after_value w1 r1 s1).after_value w2 r2 s2 = p.after_value (w1 + w2) (r1 ++ r2) s2 := by
  simp [bencode.descriptor_parser.after_value, Nat.add_assoc]

theorem bvalue_wire_pos (v : bvalue) : 0 < v.wire.length :=
  Nat.lt_of_lt_of_le (bvalue_count_pos v) (bvalue_count_le_wire v)

theorem remaining_bound (p : bencode.descriptor_parser) (w post : List Nat)
    (h : p.remaining = w ++ post) (hw : 0 < w.length) :
    p.it_ + w.length + post.length = p.input.length := by
  rcases remaining_length p w post h with h | h
  · exact h
  · have hw0 : w = [] := (List.append_eq_nil.mp h).1
    rw [hw0] at hw
    simp at hw

mutual
theorem run_value (v : bvalue) (p : bencode.descriptor_parser) (post : List Nat) (fuel : Nat)
    (hwf : v.wf) (herr : p.error_ = none) (hrem : p.remaining = v.wire ++ post)
    (hlen : p.input.length < 4294967296) (hds : p.descriptors_.length ≤ p.it_)
    (htop : ∀ f, p.stack_.head? = some f → f.size ≤ p.it_)
    (hctx : p.value_context)
    (hlim : p.descriptors_.length + v.count ≤ p.options_.value_limit + 1)
    (hrec : p.stack_.length + v.depth ≤ p.options_.recursion_limit) :
    bencode.descriptor_parser.parse_loop_fuel (fuel + v.count) p =
      bencode.descriptor_parser.parse_loop_fuel fuel
        (p.after_value v.wire.length
          (v.records p.it_ (detail.descriptor_type_modifier p.context))
          (stack_after_value p.stack_)) := by
  have hb := remaining_bound p _ _ hrem (bvalue_wire_pos v)
  have hrun : p.running := by
    have := bvalue_count_pos v
    exact ⟨by have := bvalue_wire_pos v; omega, herr, by omega⟩
  cases v with
  | integer i =>
    simp only [bvalue.wf] at hwf
    simp only [bvalue.wire] at hrem
    simp only [bvalue.count, bvalue.wire, bvalue.records]
    rw [parse_loop_fuel_step _ _ hrun, step_integer p i post hrem hwf.1 hwf.2 hctx hlen htop]
  | string s =>
    simp only [bvalue.wf] at hwf
    simp only [bvalue.wire] at hrem
    simp only [bvalue.count, bvalue.wire, bvalue.records]
    rw [parse_loop_fuel_step _ _ hrun, step_string p s post hrem hwf hctx hlen htop]
  | list xs =>
    simp only [bvalue.wf] at hwf
    simp only [bvalue.count] at hlim
    simp only [bvalue.depth] at hrec
    simp only [bvalue.wire] at hrem hb
    simp only [List.length_cons, List.length_append, List.length_singleton, List.length_nil] at hb
    have hrem0 : p.remaining = symbol.begin_list :: (xs.wire ++ symbol.end_ :: post) := by
      rw [hrem]; simp
    have h1 := step_list_begin p _ hrem0 hctx hlen hds (by omega)
    have e : fuel + (bvalue.list xs).count = (fuel + 1 + xs.count) + 1 := by
      simp only [bvalue.count]; omega
    rw [e, parse_loop_fuel_step _ _ hrun, h1]
    obtain ⟨hdr, hhdr⟩ : ∃ d : descriptor, d =
        { type := (descriptor_type.or descriptor_type.list
            (detail.descriptor_type_modifier p.context))
          position := p.it_ } := ⟨_, rfl⟩
    obtain ⟨fr, hfr⟩ : ∃ f : detail.descriptor_parser_stack_frame,
        f = { state := parser_state.expect_list_value
              position := p.descriptors_.length
              size := 0 } := ⟨_, rfl⟩
    rw [← hhdr, ← hfr]
    obtain ⟨p1, hp1⟩ : ∃ q, q = p.after_value 1 [hdr] (fr :: p.stack_) := ⟨_, rfl⟩
    have hrem1 : p1.remaining = xs.wire ++ symbol.end_ :: post := by
      rw [hp1]
      exact remaining_after_value p [symbol.begin_list] (xs.wire ++ symbol.end_ :: post) _ _ hrem0
    have hcw := blist_count_le_wire xs
    have hlc := blist_length_le_count xs
    rw [← hp1]
    rw [run_list xs p1 (symbol.end_ :: post) (fuel + 1) fr p.stack_ (by rw [hp1]; rfl)
      (by rw [hfr]) hwf (by rw [hp1]; exact herr) hrem1
      (by rw [hp1]; exact hlen) (by rw [hp1]; simp; omega) (by rw [hfr, hp1]; simp)
      (by rw [hp1]; simp; omega) (by rw [hp1]; simp; omega)]
    obtain ⟨p2, hp2⟩ : ∃ q, q = p1.after_value xs.wire.length (xs.records p1.it_)
      ({ fr with size := fr.size + xs.length } :: p.stack_) := ⟨_, rfl⟩
    rw [← hp2]
    have hrem2 : p2.remaining = symbol.end_ :: post := by
      rw [hp2]
      exact remaining_after_value p1 xs.wire (symbol.end_ :: post) _ _ hrem1
    have hit2 : p2.it_ = p.it_ + 1 + xs.wire.length := by rw [hp2, hp1]; rfl
    have hds2 : p2.descriptors_ = p.descriptors_ ++ hdr :: xs.records (p.it_ + 1) := by
      rw [hp2, hp1]; simp
    have hin2 : p2.input = p.input := by rw [hp2, hp1]; rfl
    have hst2 : p2.stack_ = { fr with size := fr.size + xs.length } :: p.stack_ := by
      rw [hp2]; rfl
    rw [parse_loop_fuel_step _ _ ⟨by rw [hit2, hin2]; omega, by rw [hp2, hp1]; exact herr,
      by rw [hds2, hp2, hp1]; simp [blist_records_length]; omega⟩]
    rw [step_list_end p2 post _ p.stack_ hrem2 hst2 (by rw [hfr])]
    rw [handle_container_end_eq p2 descriptor_type.list _ p.stack_ p.descriptors_
      hdr (xs.records (p.it_ + 1)) hst2 hds2 (by rw [hfr])
      (by rw [hin2]; exact hlen) (by rw [hit2, hin2]; omega)
      (by rw [hds2, hit2]; simp [blist_records_length]; omega)
      (by rw [hit2, hfr]; simp; omega) hctx
      (by intro f hf; have := htop f hf; rw [hit2]; omega)]
    congr 1
    rw [hp2, hp1, hhdr, hfr]
    simp [bencode.descriptor_parser.after_value, bvalue.wire, bvalue.records, bencode.descriptor_parser.context]
    omega
  | dict kvs =>
    simp only [bvalue.wf] at hwf
    simp only [bvalue.count] at hlim
    simp only [bvalue.depth] at hrec
    simp only [bvalue.wire] at hrem hb
    simp only [List.length_cons, List.length_append, List.length_singleton, List.length_nil] at hb
    have hrem0 : p.remaining = symbol.begin_dict :: (kvs.wire ++ symbol.end_ :: post) := by
      rw [hrem]; simp
    have h1 := step_dict_begin p _ hrem0 hctx hlen hds (by omega)
    have e : fuel + (bvalue.dict kvs).count = (fuel + 1 + kvs.count) + 1 := by
      simp only [bvalue.count]; omega
    rw [e, parse_loop_fuel_step _ _ hrun, h1]
    obtain ⟨hdr, hhdr⟩ : ∃ d : descriptor, d =
        { type := (descriptor_type.or descriptor_type.dict
            (detail.descriptor_type_modifier p.context))
          position := p.it_ } := ⟨_, rfl⟩
    obtain ⟨fr, hfr⟩ : ∃ f : detail.descriptor_parser_stack_frame,
        f = { state := parser_state.expect_dict_key
              position := p.descriptors_.length
              size := 0 } := ⟨_, rfl⟩
    rw [← hhdr, ← hfr]
    obtain ⟨p1, hp1⟩ : ∃ q, q = p.after_value 1 [hdr] (fr :: p.stack_) := ⟨_, rfl⟩
    have hrem1 : p1.remaining = kvs.wire ++ symbol.end_ :: post := by
      rw [hp1]
      exact remaining_after_value p [symbol.begin_dict] (kvs.wire ++ symbol.end_ :: post) _ _ hrem0
    have hcw := bdict_count_le_wire kvs
    have hlc := bdict_length_le_count kvs
    rw [← hp1]
    rw [run_dict kvs p1 (symbol.end_ :: post) (fuel + 1) fr p.stack_ (by rw [hp1]; rfl)
      (by rw [hfr]) hwf (by rw [hp1]; exact herr) hrem1
      (by rw [hp1]; exact hlen) (by rw [hp1]; simp; omega) (by rw [hfr, hp1]; simp)
      (by rw [hp1]; simp; omega) (by rw [hp1]; simp; omega)]
    obtain ⟨p2, hp2⟩ : ∃ q, q = p1.after_value kvs.wire.length (kvs.records p1.it_)
      ({ fr with size := fr.size + kvs.length } :: p.stack_) := ⟨_, rfl⟩
    rw [← hp2]
    have hrem2 : p2.remaining = symbol.end_ :: post := by
      rw [hp2]
      exact remaining_after_value p1 kvs.wire (symbol.end_ :: post) _ _ hrem1
    have hit2 : p2.it_ = p.it_ + 1 + kvs.wire.length := by rw [hp2, hp1]; rfl
    have hds2 : p2.descriptors_ = p.descriptors_ ++ hdr :: kvs.records (p.it_ + 1) := by
      rw [hp2, hp1]; simp
    have hin2 : p2.input = p.input := by rw [hp2, hp1]; rfl
    have hst2 : p2.stack_ = { fr with size := fr.size + kvs.length } :: p.stack_ := by
      rw [hp2]; rfl
    rw [parse_loop_fuel_step _ _ ⟨by rw [hit2, hin2]; omega, by rw [hp2, hp1]; exact herr,
      by rw [hds2, hp2, hp1]; simp [bdict_records_length]; omega⟩]
    rw [step_dict_end p2 post _ p.stack_ hrem2 hst2 (by rw [hfr])]
    rw [handle_container_end_eq p2 descriptor_type.dict _ p.stack_ p.descriptors_
      hdr (kvs.records (p.it_ + 1)) hst2 hds2 (by rw [hfr])
      (by rw [hin2]; exact hlen) (by rw [hit2, hin2]; omega)
      (by rw [hds2, hit2]; simp [bdict_records_length]; omega)
      (by rw [hit2, hfr]; simp; omega) hctx
      (by intro f hf; have := htop f hf; rw [hit2]; omega)]
    congr 1
    rw [hp2, hp1, hhdr, hfr]
    simp [bencode.descriptor_parser.after_value, bvalue.wire, bvalue.records, bencode.descriptor_parser.context]
    omega
theorem run_list (xs : blist) (p : bencode.descriptor_parser) (post : List Nat) (fuel : Nat)
    (top : detail.descriptor_parser_stack_frame)
    (below : List detail.descriptor_parser_stack_frame)
    (hstack : p.stack_ = top :: below)
    (hstate : top.state = parser_state.expect_list_value)
    (hwf : xs.wf) (herr : p.error_ = none) (hrem : p.remaining = xs.wire ++ post)
    (hlen : p.input.length < 4294967296) (hds : p.descriptors_.length ≤ p.it_)
    (htop : top.size ≤ p.it_)
    (hlim : p.descriptors_.length + xs.count ≤ p.options_.value_limit + 1)
    (hrec : p.stack_.length + xs.depth ≤ p.options_.recursion_limit) :
    bencode.descriptor_parser.parse_loop_fuel (fuel + xs.count) p =
      bencode.descriptor_parser.parse_loop_fuel fuel
        (p.after_value xs.wire.length (xs.records p.it_)
          ({ top with size := top.size + xs.length } :: below)) := by
  cases xs with
  | nil =>
    simp only [blist.count, blist.wire, blist.records, blist.length]
    congr 1
    obtain ⟨input, it, ds, stack, err, opts⟩ := p
    simp only at hstack
    simp [bencode.descriptor_parser.after_value, hstack]
  | cons x xs =>
    simp only [blist.wf] at hwf
    simp only [blist.count] at hlim
    simp only [blist.depth] at hrec
    simp only [blist.wire, List.append_assoc] at hrem
    have hctx : p.value_context := by
      simp [bencode.descriptor_parser.value_context, value_stack, hstack, hstate]
    have hcx : p.context = parser_state.expect_list_value := by
      simp [bencode.descriptor_parser.context, stack_context, hstack, hstate]
    have e : fuel + (blist.cons x xs).count = (fuel + xs.count) + x.count := by
      simp only [blist.count]; omega
    rw [e, run_value x p (xs.wire ++ post) (fuel + xs.count) hwf.1 herr hrem hlen hds
      (by intro f hf; rw [hstack] at hf; simp at hf; rw [← hf]; exact htop) hctx
      (by omega) (by have := le_max_left x.depth xs.depth; omega)]
    obtain ⟨p1, hp1⟩ : ∃ q, q = p.after_value x.wire.length
      (x.records p.it_ (detail.descriptor_type_modifier p.context))
      (stack_after_value p.stack_) := ⟨_, rfl⟩
    rw [← hp1]
    have hrem1 : p1.remaining = xs.wire ++ post := by
      rw [hp1]
      exact remaining_after_value p x.wire (xs.wire ++ post) _ _ hrem
    have hb := remaining_bound p _ _ hrem (bvalue_wire_pos x)
    have hcw := bvalue_count_le_wire x
    rw [run_list xs p1 post fuel (frame_after_value top) below
      (by rw [hp1, hstack]; rfl) (by simp [frame_after_value, hstate]) hwf.2
      (by rw [hp1]; exact herr) hrem1 (by rw [hp1]; exact hlen)
      (by rw [hp1]; simp [bvalue_records_length]; omega)
      (by rw [hp1]; simp [frame_after_value]; have := bvalue_wire_pos x; omega)
      (by rw [hp1]; simp [bvalue_records_length]; omega)
      (by rw [hp1, hstack]; simp [stack_after_value]; rw [hstack] at hrec
          have := le_max_right x.depth xs.depth; simp at hrec; omega)]
    congr 1
    rw [hp1, after_value_after_value, hcx]
    simp [bencode.descriptor_parser.after_value, blist.wire, blist.records, blist.length,
      frame_after_value, hstate, detail.descriptor_type_modifier]
    omega
theorem run_dict (kvs : bdict) (p : bencode.descriptor_parser) (post : List Nat) (fuel : Nat)
    (top : detail.descriptor_parser_stack_frame)
    (below : List detail.descriptor_parser_stack_frame)
    (hstack : p.stack_ = top :: below)
    (hstate : top.state = parser_state.expect_dict_key)
    (hwf : kvs.wf) (herr : p.error_ = none) (hrem : p.remaining = kvs.wire ++ post)
    (hlen : p.input.length < 4294967296) (hds : p.descriptors_.length ≤ p.it_)
    (htop : top.size ≤ p.it_)
    (hlim : p.descriptors_.length + kvs.count ≤ p.options_.value_limit + 1)
    (hrec : p.stack_.length + kvs.depth ≤ p.options_.recursion_limit) :
    bencode.descriptor_parser.parse_loop_fuel (fuel + kvs.count) p =
      bencode.descriptor_parser.parse_loop_fuel fuel
        (p.after_value kvs.wire.length (kvs.records p.it_)
          ({ top with size := top.size + kvs.length } :: below)) := by
  cases kvs with
  | nil =>
    simp only [bdict.count, bdict.wire, bdict.records, bdict.length]
    congr 1
    obtain ⟨input, it, ds, stack, err, opts⟩ := p
    simp only at hstack
    simp [bencode.descriptor_parser.after_value, hstack]
  | cons k v kvs =>
    simp only [bdict.wf] at hwf
    simp only [bdict.count] at hlim
    simp only [bdict.depth] at hrec
    simp only [bdict.wire, List.append_assoc] at hrem
    obtain ⟨c, rest, hw, hdig⟩ := string_wire_cons k
    have hkpos : 0 < (string_wire k).length := by rw [hw]; simp
    have hb := remaining_bound p _ _ hrem hkpos
    have hrun : p.running := ⟨by omega, herr, by omega⟩
    have e : fuel + (bdict.cons k v kvs).count = ((fuel + kvs.count) + v.count) + 1 := by
      simp only [bdict.count]; omega
    rw [e, parse_loop_fuel_step _ _ hrun,
      step_dict_key p k (v.wire ++ (kvs.wire ++ post)) top below hrem hwf.1 hstack hstate hlen]
    obtain ⟨p1, hp1⟩ : ∃ q, q = p.after_value (string_wire k).length
      [{ type := (descriptor_type.or descriptor_type.string descriptor_type.dict_key_bit)
         position := p.it_
         offset := (decimal_text k.length).length + 1, size := k.length }]
      ({ top with state := parser_state.expect_dict_value } :: below) := ⟨_, rfl⟩
    rw [← hp1]
    have hrem1 : p1.remaining = v.wire ++ (kvs.wire ++ post) := by
      rw [hp1]
      exact remaining_after_value p (string_wire k) _ _ _ hrem
    have hctx1 : p1.value_context := by
      rw [hp1]
      simp [bencode.descriptor_parser.value_context, value_stack]
    have hcx1 : p1.context = parser_state.expect_dict_value := by
      rw [hp1]
      simp [bencode.descriptor_parser.context, stack_context]
    rw [run_value v p1 (kvs.wire ++ post) (fuel + kvs.count) hwf.2.1
      (by rw [hp1]; exact herr) hrem1 (by rw [hp1]; exact hlen)
      (by rw [hp1]; simp; omega)
      (by intro f hf; rw [hp1] at hf; simp at hf; rw [← hf, hp1]; simp; omega) hctx1
      (by rw [hp1]; simp; omega)
      (by rw [hp1]; simp; rw [hstack] at hrec; simp at hrec
          have := le_max_left v.depth kvs.depth; omega)]
    obtain ⟨p2, hp2⟩ : ∃ q, q = p1.after_value v.wire.length
      (v.records p1.it_ (detail.descriptor_type_modifier p1.context))
      (stack_after_value p1.stack_) := ⟨_, rfl⟩
    rw [← hp2]
    have hrem2 : p2.remaining = kvs.wire ++ post := by
      rw [hp2]
      exact remaining_after_value p1 v.wire (kvs.wire ++ post) _ _ hrem1
    have hcw := bvalue_count_le_wire v
    have hvp := bvalue_wire_pos v
    rw [run_dict kvs p2 post fuel
      { top with state := parser_state.expect_dict_key, size := top.size + 1 } below
      (by rw [hp2, hp1]; simp [stack_after_value, frame_after_value]) rfl hwf.2.2
      (by rw [hp2, hp1]; exact herr) hrem2 (by rw [hp2, hp1]; exact hlen)
      (by rw [hp2, hp1]; simp [bvalue_records_length]; omega)
      (by rw [hp2, hp1]; simp; omega)
      (by rw [hp2, hp1]; simp [bvalue_records_length]; omega)
      (by rw [hp2, hp1]; simp [stack_after_value]; rw [hstack] at hrec; simp at hrec
          have := le_max_right v.depth kvs.depth; omega)]
    congr 1
    rw [hp2, hcx1, hp1, after_value_after_value, after_value_after_value]
    simp [bencode.descriptor_parser.after_value, bdict.wire, bdict.records, bdict.length, hstate,
      detail.descriptor_type_modifier]
    omega
end

theorem finish_eq (p : bencode.descriptor_parser) (h : p.error_ = none) :
    p.finish = (true, { p with descriptors_ := mark_stop p.descriptors_ }) := by
  obtain ⟨input, it, ds, stack, err, opts⟩ := p
  simp only at h
  subst h
  simp only [bencode.descriptor_parser.finish, mark_stop, Option.isSome_none, Bool.false_eq_true, if_false]
  cases ds.getLast? <;> rfl

theorem parse_loop_fuel_done (fuel : Nat) (p : bencode.descriptor_parser)
    (h : p.it_ = p.input.length) :
    bencode.descriptor_parser.parse_loop_fuel (fuel + 1) p = some p.finish := by
  simp [bencode.descriptor_parser.parse_loop_fuel, h]

/-- Reading a well-formed value with a fresh parser gives exactly the expected
records, with the stop modifier on the last one, and leaves no error and an
empty stack. -/
theorem parse_wire (v : bvalue) (options : parser_options)
    (hwf : v.wf) (hlen : v.wire.length < 4294967296)
    (hlim : v.count ≤ options.value_limit + 1)
    (hrec : v.depth ≤ options.recursion_limit) :
    (bencode.descriptor_parser.create options).parse v.wire =
      some (some { descriptors := mark_stop (v.records 0 descriptor_type.empty), data := v.wire },
        { input := v.wire, it_ := v.wire.length, descriptors_ := [], stack_ := [],
          error_ := none, options_ := options }) := by
  have hcw := bvalue_count_le_wire v
  have hfuel : v.wire.length - 0 + 1 = (v.wire.length - v.count) + 1 + v.count := by omega
  simp only [bencode.descriptor_parser.parse, bencode.descriptor_parser.create, bencode.descriptor_parser.parse_loop]
  rw [hfuel]
  rw [run_value v _ [] (v.wire.length - v.count + 1) hwf rfl
    (by simp [bencode.descriptor_parser.remaining]) hlen (by simp) (by simp)
    (by simp [bencode.descriptor_parser.value_context, value_stack])
    (by simpa using hlim) (by simpa using hrec)]
  rw [parse_loop_fuel_done _ _ (by simp), finish_eq _ (by simp)]
  simp [bencode.descriptor_parser.after_value, bencode.descriptor_parser.context, stack_context,
    detail.descriptor_type_modifier, stack_after_value]

/-! ## Claims settled by evaluation -/

/-- C3: on the truncated inputs `li1e` and `d3:keyi1e` the loop of a
fresh parser leaves at the end of the input with a container still open; no
error is recorded, `parse` returns a table, and the condition asserted by
`Ensures(stack_.empty())` does not hold. -/
theorem truncated_container_returns_table :
    (∃ t p, (bencode.descriptor_parser.create {}).parse (bytes "li1e") = some (some t, p) ∧
      t.descriptors.length = 2 ∧ p.has_error = false ∧ p.stack_.length = 1 ∧
      p.ensures_hold = false) ∧
    (∃ t p, (bencode.descriptor_parser.create {}).parse (bytes "d3:keyi1e") = some (some t, p) ∧
      t.descriptors.length = 3 ∧ p.has_error = false ∧ p.stack_.length = 1 ∧
      p.ensures_hold = false) :=
  ⟨⟨_, _, rfl, rfl, rfl, rfl, rfl⟩, ⟨_, _, rfl, rfl, rfl, rfl, rfl⟩⟩

/-- C5: with `value_limit = 1` a fresh parser returns for `le` a table
of two records and records no error; the check at the head of the loop lets one
record more than the limit through. -/
theorem value_limit_off_by_one :
    ∃ t p, (bencode.descriptor_parser.create { value_limit := 1 }).parse (bytes "le") =
        some (some t, p) ∧
      t.descriptors.length = 2 ∧ p.has_error = false :=
  ⟨_, _, rfl, rfl, rfl⟩

/-- C6: `parse` does not reset the container stack.  After the failed
parse of `lx` the same instance parses `i1e` as a list element: its record
carries the `list_value` modifier, which the record of a fresh parser does not. -/
theorem reused_parser_differs :
    ∃ p1 t1 p2 t2 q,
      (bencode.descriptor_parser.create {}).parse (bytes "lx") = some (none, p1) ∧
      p1.parse (bytes "i1e") = some (some t1, p2) ∧
      (bencode.descriptor_parser.create {}).parse (bytes "i1e") = some (some t2, q) ∧
      t1.descriptors.map (fun d => d.type.list_value) = [true] ∧
      t2.descriptors.map (fun d => d.type.list_value) = [false] ∧
      t1 ≠ t2 :=
  ⟨_, _, _, _, _, rfl, rfl, rfl, rfl, rfl, by decide⟩

/-! ## Properties of the expected records -/

theorem or_stop (a m : descriptor_type) (ha : a.stop = false) (hm : m.stop = false) :
    (descriptor_type.or a m).stop = false := by
  simp [descriptor_type.or, ha, hm]

mutual
theorem bvalue_records_no_stop (v : bvalue) (pos : Nat) (m : descriptor_type)
    (hm : m.stop = false) : ∀ d ∈ v.records pos m, d.type.stop = false := by
  cases v with
  | integer i =>
    intro d hd
    simp only [bvalue.records, List.mem_singleton] at hd
    subst hd
    exact or_stop _ _ rfl hm
  | string s =>
    intro d hd
    simp only [bvalue.records, List.mem_singleton] at hd
    subst hd
    exact or_stop _ _ rfl hm
  | list xs =>
    intro d hd
    simp only [bvalue.records, List.mem_cons, List.mem_append, List.mem_singleton,
      List.mem_nil_iff, or_false] at hd
    rcases hd with hd | hd | hd
    · subst hd
      exact or_stop _ _ rfl hm
    · exact blist_records_no_stop xs (pos + 1) d hd
    · subst hd
      exact or_stop _ _ rfl hm
  | dict kvs =>
    intro d hd
    simp only [bvalue.records, List.mem_cons, List.mem_append, List.mem_singleton,
      List.mem_nil_iff, or_false] at hd
    rcases hd with hd | hd | hd
    · subst hd
      exact or_stop _ _ rfl hm
    · exact bdict_records_no_stop kvs (pos + 1) d hd
    · subst hd
      exact or_stop _ _ rfl hm
theorem blist_records_no_stop (xs : blist) (pos : Nat) :
    ∀ d ∈ xs.records pos, d.type.stop = false := by
  cases xs with
  | nil => simp [blist.records]
  | cons x xs =>
    intro d hd
    simp only [blist.records, List.mem_append] at hd
    rcases hd with hd | hd
    · exact bvalue_records_no_stop x pos _ rfl d hd
    · exact blist_records_no_stop xs _ d hd
theorem bdict_records_no_stop (kvs : bdict) (pos : Nat) :
    ∀ d ∈ kvs.records pos, d.type.stop = false := by
  cases kvs with
  | nil => simp [bdict.records]
  | cons k v kvs =>
    intro d hd
    simp only [bdict.records, List.mem_cons, List.mem_append] at hd
    rcases hd with hd | hd | hd
    · subst hd
      rfl
    · exact bvalue_records_no_stop v _ _ rfl d hd
    · exact bdict_records_no_stop kvs _ d hd
end

theorem mark_stop_eq (ds : List descriptor) (d : descriptor) (h : ds.getLast? = some d) :
    mark_stop ds = ds.dropLast ++ [d.set_stop_flag] := by
  simp [mark_stop, h]

theorem parse_valid (v : bvalue) (options : parser_options) (h : v.valid_for options) :
    ∃ p, (bencode.descriptor_parser.create options).parse v.wire =
      some (some { descriptors := mark_stop (v.records 0 descriptor_type.empty), data := v.wire },
        p) ∧ p.error_ = none ∧ p.stack_ = [] :=
  ⟨_, parse_wire v options h.1 h.2.1 (by have := h.2.2.1; omega) h.2.2.2, rfl, rfl⟩

theorem stop_on_last_only_mark_stop (ds : List descriptor) (hne : ds ≠ [])
    (hno : ∀ d ∈ ds, d.type.stop = false) : stop_on_last_only (mark_stop ds) := by
  obtain ⟨d, hd⟩ : ∃ d, ds.getLast? = some d := by
    cases h : ds.getLast? with
    | none => exact absurd (List.getLast?_eq_none_iff.mp h) hne
    | some d => exact ⟨d, rfl⟩
  rw [mark_stop_eq ds d hd]
  constructor
  · exact ⟨d.set_stop_flag, by simp, rfl⟩
  · intro i e hi he
    simp only [List.length_append, List.length_dropLast, List.length_singleton] at hi
    have hlt : i < ds.dropLast.length := by simp; omega
    rw [List.getElem?_append_left hlt] at he
    have hmem : e ∈ ds.dropLast := List.getElem?_mem he
    exact hno e (List.dropLast_subset ds hmem)

/-- C7: for every valid input, a fresh parser returns a table whose last record
carries the stop modifier and whose other records do not. -/
theorem stop_modifier_on_last_record_only (v : bvalue) (options : parser_options)
    (h : v.valid_for options) :
    ∃ t p, (bencode.descriptor_parser.create options).parse v.wire = some (some t, p) ∧
      stop_on_last_only t.descriptors := by
  obtain ⟨p, hp, _, _⟩ := parse_valid v options h
  refine ⟨_, p, hp, ?_⟩
  apply stop_on_last_only_mark_stop
  · intro hnil
    have := bvalue_records_length v 0 descriptor_type.empty
    rw [hnil] at this
    have := bvalue_count_pos v
    simp at *
    omega
  · exact bvalue_records_no_stop v 0 _ rfl

/-! ## Round trip through the encoder -/

theorem replay_record_set_stop (data : List Nat) (e : encode_to) (d : descriptor) :
    replay_record data e d.set_stop_flag = replay_record data e d := rfl

theorem foldl_replay_mark_stop (data : List Nat) (e : encode_to) (ds : List descriptor) :
    (mark_stop ds).foldl (replay_record data) e = ds.foldl (replay_record data) e := by
  cases h : ds.getLast? with
  | none => simp [mark_stop, h]
  | some d =>
    rw [mark_stop_eq ds d h]
    have hds : ds = ds.dropLast ++ [d] := by
      have hne : ds ≠ [] := by
        intro hh
        rw [hh] at h
        simp at h
      rw [List.getLast?_eq_getLast ds hne] at h
      simp only [Option.some.injEq] at h
      rw [← h]
      exact (List.dropLast_append_getLast hne).symm
    conv_rhs => rw [hds]
    simp only [List.foldl_append, List.foldl_cons, List.foldl_nil, replay_record_set_stop]

/-- The encoder after it wrote some more bytes. -/
theorem encode_to_ext (e1 e2 : encode_to) (h1 : e1.out_ = e2.out_) (h2 : e1.size_ = e2.size_) :
    e1 = e2 := by
  cases e1
  cases e2
  simp_all

theorem replay_string (data : List Nat) (e : encode_to) (s post : List Nat) (pos : Nat)
    (t : descriptor_type) (ht : t.tag = descriptor_tag.string)
    (hdata : data.drop pos = string_wire s ++ post) :
    replay_record data e
        { type := t, position := pos, offset := (decimal_text s.length).length + 1
          size := s.length } =
      { out_ := e.out_ ++ string_wire s, size_ := e.size_ + (string_wire s).length } := by
  have hpay : (data.drop (pos + ((decimal_text s.length).length + 1))).take s.length = s := by
    rw [← List.drop_drop, hdata]
    simp [string_wire]
  simp only [replay_record, descriptor.is_integer, descriptor.is_string, ht, hpay]
  apply encode_to_ext
  · simp [encode_to.string, itoa.to_buffer_unsigned, string_wire, symbol.colon]
  · simp [encode_to.string, itoa.to_buffer_unsigned, string_wire]
    omega

theorem replay_integer (data : List Nat) (e : encode_to) (v : Int) (pos : Nat)
    (t : descriptor_type) (ht : t.tag = descriptor_tag.integer) :
    replay_record data e { type := t, position := pos, value := v } =
      { out_ := e.out_ ++ integer_wire v, size_ := e.size_ + (integer_wire v).length } := by
  simp only [replay_record, descriptor.is_integer, ht]
  apply encode_to_ext
  · simp [encode_to.integer, itoa.to_buffer, integer_wire]
  · simp [encode_to.integer, itoa.to_buffer, integer_wire]
    omega

theorem or_tag (a m : descriptor_type) (ha : a.tag ≠ descriptor_tag.none) :
    (descriptor_type.or a m).tag = a.tag := by
  simp [descriptor_type.or, ha]

theorem or_end (a m : descriptor_type) :
    (descriptor_type.or a m).end_ = (a.end_ || m.end_) := rfl

theorem drop_add_of_drop (data : List Nat) (pos : Nat) (w rest : List Nat)
    (h : data.drop pos = w ++ rest) : data.drop (pos + w.length) = rest := by
  rw [← List.drop_drop, h]
  simp

mutual
theorem bvalue_replay (v : bvalue) (data : List Nat) (e : encode_to) (post : List Nat)
    (pos : Nat) (m : descriptor_type) (hm : m.end_ = false)
    (hdata : data.drop pos = v.wire ++ post) :
    (v.records pos m).foldl (replay_record data) e =
      { out_ := e.out_ ++ v.wire, size_ := e.size_ + v.wire.length } := by
  cases v with
  | integer i =>
    simp only [bvalue.records, bvalue.wire, List.foldl_cons, List.foldl_nil]
    exact replay_integer data e i pos _ (or_tag _ _ (by decide))
  | string s =>
    simp only [bvalue.records, bvalue.wire, List.foldl_cons, List.foldl_nil]
    exact replay_string data e s post pos _ (or_tag _ _ (by decide)) hdata
  | list xs =>
    simp only [bvalue.wire] at hdata
    have hbody : data.drop (pos + 1) = xs.wire ++ (symbol.end_ :: post) := by
      have := drop_add_of_drop data pos [symbol.begin_list] (xs.wire ++ (symbol.end_ :: post))
        (by rw [hdata]; simp)
      simpa using this
    simp only [bvalue.records, bvalue.wire, List.foldl_cons, List.foldl_append, List.foldl_nil]
    rw [blist_replay xs data _ (symbol.end_ :: post) (pos + 1) hbody]
    simp only [replay_record, descriptor.is_integer, descriptor.is_string, descriptor.is_list,
      descriptor.is_end, or_tag, or_end, hm]
    apply encode_to_ext
    · simp [encode_to.begin_list, encode_to.end_list, descriptor_type.list,
        descriptor_type.end_bit, descriptor_type.or]
    · simp [encode_to.begin_list, encode_to.end_list, descriptor_type.list,
        descriptor_type.end_bit, descriptor_type.or]
      omega
  | dict kvs =>
    simp only [bvalue.wire] at hdata
    have hbody : data.drop (pos + 1) = kvs.wire ++ (symbol.end_ :: post) := by
      have := drop_add_of_drop data pos [symbol.begin_dict] (kvs.wire ++ (symbol.end_ :: post))
        (by rw [hdata]; simp)
      simpa using this
    simp only [bvalue.records, bvalue.wire, List.foldl_cons, List.foldl_append, List.foldl_nil]
    rw [bdict_replay kvs data _ (symbol.end_ :: post) (pos + 1) hbody]
    simp only [replay_record, descriptor.is_integer, descriptor.is_string, descriptor.is_list,
      descriptor.is_dict, descriptor.is_end, or_tag, or_end, hm]
    apply encode_to_ext
    · simp [encode_to.begin_dict, encode_to.end_dict, descriptor_type.dict,
        descriptor_type.end_bit, descriptor_type.or]
    · simp [encode_to.begin_dict, encode_to.end_dict, descriptor_type.dict,
        descriptor_type.end_bit, descriptor_type.or]
      omega
theorem blist_replay (xs : blist) (data : List Nat) (e : encode_to) (post : List Nat)
    (pos : Nat) (hdata : data.drop pos = xs.wire ++ post) :
    (xs.records pos).foldl (replay_record data) e =
      { out_ := e.out_ ++ xs.wire, size_ := e.size_ + xs.wire.length } := by
  cases xs with
  | nil => simp [blist.records, blist.wire]
  | cons x xs =>
    simp only [blist.wire, List.append_assoc] at hdata
    simp only [blist.records, blist.wire, List.foldl_append]
    rw [bvalue_replay x data e (xs.wire ++ post) pos _ rfl hdata,
      blist_replay xs data _ post (pos + x.wire.length) (drop_add_of_drop data pos _ _ hdata)]
    apply encode_to_ext
    · simp
    · simp
      omega
theorem bdict_replay (kvs : bdict) (data : List Nat) (e : encode_to) (post : List Nat)
    (pos : Nat) (hdata : data.drop pos = kvs.wire ++ post) :
    (kvs.records pos).foldl (replay_record data) e =
      { out_ := e.out_ ++ kvs.wire, size_ := e.size_ + kvs.wire.length } := by
  cases kvs with
  | nil => simp [bdict.records, bdict.wire]
  | cons k v kvs =>
    simp only [bdict.wire, List.append_assoc] at hdata
    have h1 := drop_add_of_drop data pos _ _ hdata
    have h2 := drop_add_of_drop data _ _ _ h1
    simp only [bdict.records, bdict.wire, List.foldl_cons, List.foldl_append]
    rw [replay_string data e k (v.wire ++ (kvs.wire ++ post)) pos _ rfl hdata,
      bvalue_replay v data _ (kvs.wire ++ post) _ _ rfl h1,
      bdict_replay kvs data _ post _ h2]
    apply encode_to_ext
    · simp
    · simp
      omega
end

/-- C1: for every valid input, a fresh parser returns a table, and replaying the
records of that table in order through a fresh encoder writes exactly the bytes
of the input. -/
theorem round_trip (v : bvalue) (options : parser_options) (h : v.valid_for options) :
    ∃ t p, (bencode.descriptor_parser.create options).parse v.wire = some (some t, p) ∧
      (replay t).out_ = v.wire := by
  obtain ⟨p, hp, _, _⟩ := parse_valid v options h
  refine ⟨_, p, hp, ?_⟩
  simp only [replay]
  rw [foldl_replay_mark_stop, bvalue_replay v v.wire {} [] 0 descriptor_type.empty rfl (by simp)]
  simp

/-! ## The sample inputs are valid -/

theorem sample_nested_list_wire : sample_nested_list.wire = bytes "li1el3:foo3:baree" := by
  decide

theorem sample_dict_wire : sample_dict.wire = bytes "d1:ai-7e1:bl0:ee" := by
  decide

theorem sample_nested_list_valid : sample_nested_list.valid_for {} := by
  refine ⟨?_, ?_, ?_, ?_⟩
  · simp [sample_nested_list, bvalue.wf, blist.wf, bytes]
  · rw [sample_nested_list_wire]; decide
  · decide
  · decide

theorem sample_dict_valid : sample_dict.valid_for {} := by
  refine ⟨?_, ?_, ?_, ?_⟩
  · simp [sample_dict, bvalue.wf, blist.wf, bdict.wf, bytes]
  · rw [sample_dict_wire]; decide
  · decide
  · decide

theorem round_trip_witness :
    sample_nested_list.wire = bytes "li1el3:foo3:baree" ∧
    sample_nested_list.valid_for {} ∧
    ∃ t p, (bencode.descriptor_parser.create {}).parse sample_nested_list.wire =
        some (some t, p) ∧
      (replay t).out_ = sample_nested_list.wire :=
  ⟨sample_nested_list_wire, sample_nested_list_valid,
    round_trip sample_nested_list {} sample_nested_list_valid⟩

theorem stop_modifier_on_last_record_only_witness :
    sample_dict.wire = bytes "d1:ai-7e1:bl0:ee" ∧
    sample_dict.valid_for {} ∧
    ∃ t p, (bencode.descriptor_parser.create {}).parse sample_dict.wire = some (some t, p) ∧
      stop_on_last_only t.descriptors :=
  ⟨sample_dict_wire, sample_dict_valid,
    stop_modifier_on_last_record_only sample_dict {} sample_dict_valid⟩

/-! ## Headers inside the expected records -/

theorem is_header_or_list (m : descriptor_type) (hm : m.end_ = false) (pos off sz : Nat) :
    descriptor.is_header { type := descriptor_type.or descriptor_type.list m, position := pos
                           offset := off, size := sz } = true := by
  simp [descriptor.is_header, descriptor.is_list, descriptor.is_end, descriptor_type.or,
    descriptor_type.list, hm]

theorem is_header_or_dict (m : descriptor_type) (hm : m.end_ = false) (pos off sz : Nat) :
    descriptor.is_header { type := descriptor_type.or descriptor_type.dict m, position := pos
                           offset := off, size := sz } = true := by
  simp [descriptor.is_header, descriptor.is_list, descriptor.is_dict, descriptor.is_end,
    descriptor_type.or, descriptor_type.dict, hm]

theorem not_header_of_end (d : descriptor) (h : d.type.end_ = true) : d.is_header = false := by
  simp [descriptor.is_header, descriptor.is_end, h]

theorem not_header_of_scalar (d : descriptor)
    (h : d.type.tag = descriptor_tag.integer ∨ d.type.tag = descriptor_tag.string) :
    d.is_header = false := by
  rcases h with h | h <;> simp [descriptor.is_header, descriptor.is_list, descriptor.is_dict, h]

theorem getElem?_append_middle (pre mid post : List descriptor) (j : Nat) (h : descriptor)
    (hj : mid[j]? = some h) : (pre ++ mid ++ post)[pre.length + j]? = some h := by
  have hlt : j < mid.length := (List.getElem?_eq_some.mp hj).1
  rw [List.append_assoc, List.getElem?_append_right (by omega)]
  simp only [Nat.add_sub_cancel_left]
  rw [List.getElem?_append_left hlt]
  exact hj

mutual
/-- Every header inside the records of a value is the first record of the
records of some container value nested in it; a property that holds at the
first record of every container, whatever stands before and after, holds at
every header. -/
theorem headers_value (good : List descriptor → Nat → descriptor → Prop)
    (htop : ∀ (v : bvalue) (pre post : List descriptor) (pos : Nat) (m : descriptor_type)
      (h : descriptor), m.end_ = false → (v.records pos m).head? = some h →
      h.is_header = true → good (pre ++ v.records pos m ++ post) pre.length h)
    (v : bvalue) (pre post : List descriptor) (pos : Nat) (m : descriptor_type)
    (j : Nat) (h : descriptor) (hm : m.end_ = false) (hj : (v.records pos m)[j]? = some h)
    (hh : h.is_header = true) : good (pre ++ v.records pos m ++ post) (pre.length + j) h := by
  cases j with
  | zero =>
    have := htop v pre post pos m h hm (by rw [List.head?_eq_getElem?]; exact hj) hh
    simpa using this
  | succ j =>
    cases v with
    | integer i => simp [bvalue.records] at hj
    | string s => simp [bvalue.records] at hj
    | list xs =>
      simp only [bvalue.records, List.getElem?_cons_succ] at hj
      by_cases hlt : j < (xs.records (pos + 1)).length
      · rw [List.getElem?_append_left hlt] at hj
        obtain ⟨hdr, hhdr⟩ : ∃ d : descriptor, d =
          { type := (descriptor_type.or descriptor_type.list m), position := pos,
            offset := (xs.records (pos + 1)).length + 1, size := xs.length } := ⟨_, rfl⟩
        obtain ⟨en, hen⟩ : ∃ d : descriptor, d =
          { type := (descriptor_type.or
              (descriptor_type.or descriptor_type.list descriptor_type.end_bit) m),
            position := pos + 1 + xs.wire.length,
            offset := (xs.records (pos + 1)).length + 1, size := xs.length } := ⟨_, rfl⟩
        have := headers_list good htop xs (pre ++ [hdr]) ([en] ++ post) (pos + 1) j h hj hh
        have e1 : (pre ++ [hdr]).length + j = pre.length + (j + 1) := by
          simp only [List.length_append, List.length_singleton]
          omega
        rw [e1] at this
        simp only [bvalue.records]
        rw [← hhdr, ← hen]
        simpa only [List.append_assoc, List.singleton_append, List.cons_append,
          List.nil_append] using this
      · rw [List.getElem?_append_right (by omega)] at hj
        have hj0 : j - (xs.records (pos + 1)).length = 0 := by
          by_contra hne
          obtain ⟨k, hk⟩ := Nat.exists_eq_succ_of_ne_zero hne
          rw [hk] at hj
          simp at hj
        rw [hj0] at hj
        simp only [List.getElem?_cons_zero, Option.some.injEq] at hj
        rw [← hj] at hh
        rw [not_header_of_end _ (by simp [descriptor_type.or, descriptor_type.end_bit])] at hh
        cases hh
    | dict kvs =>
      simp only [bvalue.records, List.getElem?_cons_succ] at hj
      by_cases hlt : j < (kvs.records (pos + 1)).length
      · rw [List.getElem?_append_left hlt] at hj
        obtain ⟨hdr, hhdr⟩ : ∃ d : descriptor, d =
          { type := (descriptor_type.or descriptor_type.dict m), position := pos,
            offset := (kvs.records (pos + 1)).length + 1, size := kvs.length } := ⟨_, rfl⟩
        obtain ⟨en, hen⟩ : ∃ d : descriptor, d =
          { type := (descriptor_type.or
              (descriptor_type.or descriptor_type.dict descriptor_type.end_bit) m),
            position := pos + 1 + kvs.wire.length,
            offset := (kvs.records (pos + 1)).length + 1, size := kvs.length } := ⟨_, rfl⟩
        have := headers_dict good htop kvs (pre ++ [hdr]) ([en] ++ post) (pos + 1) j h hj hh
        have e1 : (pre ++ [hdr]).length + j = pre.length + (j + 1) := by
          simp only [List.length_append, List.length_singleton]
          omega
        rw [e1] at this
        simp only [bvalue.records]
        rw [← hhdr, ← hen]
        simpa only [List.append_assoc, List.singleton_append, List.cons_append,
          List.nil_append] using this
      · rw [List.getElem?_append_right (by omega)] at hj
        have hj0 : j - (kvs.records (pos + 1)).length = 0 := by
          by_contra hne
          obtain ⟨k, hk⟩ := Nat.exists_eq_succ_of_ne_zero hne
          rw [hk] at hj
          simp at hj
        rw [hj0] at hj
        simp only [List.getElem?_cons_zero, Option.some.injEq] at hj
        rw [← hj] at hh
        rw [not_header_of_end _ (by simp [descriptor_type.or, descriptor_type.end_bit])] at hh
        cases hh
/-- The headers inside the records of the elements of a list. -/
theorem headers_list (good : List descriptor → Nat → descriptor → Prop)
    (htop : ∀ (v : bvalue) (pre post : List descriptor) (pos : Nat) (m : descriptor_type)
      (h : descriptor), m.end_ = false → (v.records pos m).head? = some h →
      h.is_header = true → good (pre ++ v.records pos m ++ post) pre.length h)
    (xs : blist) (pre post : List descriptor) (pos : Nat)
    (j : Nat) (h : descriptor) (hj : (xs.records pos)[j]? = some h)
    (hh : h.is_header = true) : good (pre ++ xs.records pos ++ post) (pre.length + j) h := by
  cases xs with
  | nil => simp [blist.records] at hj
  | cons x xs =>
    simp only [blist.records] at hj ⊢
    by_cases hlt : j < (x.records pos descriptor_type.list_value_bit).length
    · rw [List.getElem?_append_left hlt] at hj
      have := headers_value good htop x pre (xs.records (pos + x.wire.length) ++ post) pos
        descriptor_type.list_value_bit j h rfl hj hh
      simpa only [List.append_assoc] using this
    · rw [List.getElem?_append_right (by omega)] at hj
      have := headers_list good htop xs (pre ++ x.records pos descriptor_type.list_value_bit) post
        (pos + x.wire.length) (j - (x.records pos descriptor_type.list_value_bit).length) h hj hh
      have e : (pre ++ x.records pos descriptor_type.list_value_bit).length +
          (j - (x.records pos descriptor_type.list_value_bit).length) = pre.length + j := by
        simp only [List.length_append]
        omega
      rw [e] at this
      simpa only [List.append_assoc] using this
/-- The headers inside the records of the entries of a dict. -/
theorem headers_dict (good : List descriptor → Nat → descriptor → Prop)
    (htop : ∀ (v : bvalue) (pre post : List descriptor) (pos : Nat) (m : descriptor_type)
      (h : descriptor), m.end_ = false → (v.records pos m).head? = some h →
      h.is_header = true → good (pre ++ v.records pos m ++ post) pre.length h)
    (kvs : bdict) (pre post : List descriptor) (pos : Nat)
    (j : Nat) (h : descriptor) (hj : (kvs.records pos)[j]? = some h)
    (hh : h.is_header = true) : good (pre ++ kvs.records pos ++ post) (pre.length + j) h := by
  cases kvs with
  | nil => simp [bdict.records] at hj
  | cons k v kvs =>
    simp only [bdict.records] at hj ⊢
    cases j with
    | zero =>
      simp only [List.getElem?_cons_zero, Option.some.injEq] at hj
      rw [← hj] at hh
      rw [not_header_of_scalar _ (Or.inr rfl)] at hh
      cases hh
    | succ j =>
      simp only [List.getElem?_cons_succ] at hj
      obtain ⟨key, hkey⟩ : ∃ d : descriptor, d =
        { type := (descriptor_type.or descriptor_type.string descriptor_type.dict_key_bit)
          position := pos, offset := (decimal_text k.length).length + 1, size := k.length } :=
        ⟨_, rfl⟩
      rw [← hkey]
      by_cases hlt : j < (v.records (pos + (string_wire k).length)
          descriptor_type.dict_value_bit).length
      · rw [List.getElem?_append_left hlt] at hj
        have := headers_value good htop v (pre ++ [key])
          (kvs.records (pos + (string_wire k).length + v.wire.length) ++ post) _
          descriptor_type.dict_value_bit j h rfl hj hh
        have e1 : (pre ++ [key]).length + j = pre.length + (j + 1) := by
          simp only [List.length_append, List.length_singleton]
          omega
        rw [e1] at this
        simpa only [List.append_assoc, List.singleton_append, List.cons_append,
          List.nil_append] using this
      · rw [List.getElem?_append_right (by omega)] at hj
        have := headers_dict good htop kvs
          (pre ++ key :: v.records (pos + (string_wire k).length) descriptor_type.dict_value_bit)
          post _ (j - (v.records (pos + (string_wire k).length)
            descriptor_type.dict_value_bit).length) h hj hh
        have e : (pre ++ key :: v.records (pos + (string_wire k).length)
            descriptor_type.dict_value_bit).length +
            (j - (v.records (pos + (string_wire k).length)
              descriptor_type.dict_value_bit).length) = pre.length + (j + 1) := by
          simp only [List.length_append, List.length_cons]
          omega
        rw [e] at this
        simpa only [List.append_assoc, List.cons_append] using this
end

/-! ## Table consistency -/

theorem find_end_scalar (d : descriptor) (rest : List descriptor) (depth : Nat)
    (he : d.type.end_ = false) (hh : d.is_header = false) :
    find_end (d :: rest) depth = (find_end rest depth).map (fun n => n + 1) := by
  simp [find_end, descriptor.is_end, he, hh]

theorem find_end_header (d : descriptor) (rest : List descriptor) (depth : Nat)
    (he : d.type.end_ = false) (hh : d.is_header = true) :
    find_end (d :: rest) depth = (find_end rest (depth + 1)).map (fun n => n + 1) := by
  simp [find_end, descriptor.is_end, he, hh]

theorem find_end_end_succ (d : descriptor) (rest : List descriptor) (depth : Nat)
    (he : d.type.end_ = true) :
    find_end (d :: rest) (depth + 1) = (find_end rest depth).map (fun n => n + 1) := by
  simp [find_end, descriptor.is_end, he]

theorem find_end_end_zero (d : descriptor) (rest : List descriptor)
    (he : d.type.end_ = true) : find_end (d :: rest) 0 = some 0 := by
  simp [find_end, descriptor.is_end, he]

mutual
theorem bvalue_find_end (v : bvalue) (pos : Nat) (m : descriptor_type) (hm : m.end_ = false)
    (rest : List descriptor) (depth : Nat) :
    find_end (v.records pos m ++ rest) depth =
      (find_end rest depth).map (fun n => n + v.count) := by
  cases v with
  | integer i =>
    simp only [bvalue.records, bvalue.count, List.singleton_append]
    exact find_end_scalar _ _ _ (by simp [descriptor_type.or, descriptor_type.integer, hm])
      (not_header_of_scalar _ (Or.inl rfl))
  | string s =>
    simp only [bvalue.records, bvalue.count, List.singleton_append]
    exact find_end_scalar _ _ _ (by simp [descriptor_type.or, descriptor_type.string, hm])
      (not_header_of_scalar _ (Or.inr rfl))
  | list xs =>
    simp only [bvalue.records, bvalue.count, List.cons_append, List.append_assoc,
      List.singleton_append, List.nil_append]
    rw [find_end_header _ _ _ (by simp [descriptor_type.or, descriptor_type.list, hm])
        (is_header_or_list m hm _ _ _),
      blist_find_end xs (pos + 1) _ (depth + 1),
      find_end_end_succ _ _ _ (by simp [descriptor_type.or, descriptor_type.end_bit])]
    cases find_end rest depth with
    | none => rfl
    | some n => simp only [Option.map_some', Option.some.injEq]; omega
  | dict kvs =>
    simp only [bvalue.records, bvalue.count, List.cons_append, List.append_assoc,
      List.singleton_append, List.nil_append]
    rw [find_end_header _ _ _ (by simp [descriptor_type.or, descriptor_type.dict, hm])
        (is_header_or_dict m hm _ _ _),
      bdict_find_end kvs (pos + 1) _ (depth + 1),
      find_end_end_succ _ _ _ (by simp [descriptor_type.or, descriptor_type.end_bit])]
    cases find_end rest depth with
    | none => rfl
    | some n => simp only [Option.map_some', Option.some.injEq]; omega
theorem blist_find_end (xs : blist) (pos : Nat) (rest : List descriptor) (depth : Nat) :
    find_end (xs.records pos ++ rest) depth =
      (find_end rest depth).map (fun n => n + xs.count) := by
  cases xs with
  | nil =>
    simp only [blist.records, blist.count, List.nil_append]
    cases find_end rest depth <;> rfl
  | cons x xs =>
    simp only [blist.records, blist.count, List.append_assoc]
    rw [bvalue_find_end x pos _ rfl, blist_find_end xs _ rest depth]
    cases find_end rest depth with
    | none => rfl
    | some n => simp only [Option.map_some', Option.some.injEq]; omega
theorem bdict_find_end (kvs : bdict) (pos : Nat) (rest : List descriptor) (depth : Nat) :
    find_end (kvs.records pos ++ rest) depth =
      (find_end rest depth).map (fun n => n + kvs.count) := by
  cases kvs with
  | nil =>
    simp only [bdict.records, bdict.count, List.nil_append]
    cases find_end rest depth <;> rfl
  | cons k v kvs =>
    simp only [bdict.records, bdict.count, List.cons_append, List.append_assoc]
    rw [find_end_scalar _ _ _ rfl (not_header_of_scalar _ (Or.inr rfl)),
      bvalue_find_end v _ _ rfl, bdict_find_end kvs _ rest depth]
    cases find_end rest depth with
    | none => rfl
    | some n => simp only [Option.map_some', Option.some.injEq]; omega
end

/-- The part of table consistency that concerns the header at one index. -/
theorem consistent_at_top (v : bvalue) (pre post : List descriptor) (pos : Nat)
    (m : descriptor_type) (h : descriptor)
    (hhead : (v.records pos m).head? = some h) (hh : h.is_header = true) :
    1 ≤ h.offset ∧ h.offset + 1 = v.count ∧
    matching_end (pre ++ v.records pos m ++ post) pre.length = some (pre.length + h.offset) ∧
    ∃ e, (pre ++ v.records pos m ++ post)[pre.length + h.offset]? = some e ∧
      e.is_end = true ∧ e.type.tag = h.type.tag ∧ e.offset = h.offset ∧ e.size = h.size := by
  cases v with
  | integer i =>
    simp only [bvalue.records, List.head?_cons, Option.some.injEq] at hhead
    rw [← hhead, not_header_of_scalar _ (Or.inl rfl)] at hh
    cases hh
  | string s =>
    simp only [bvalue.records, List.head?_cons, Option.some.injEq] at hhead
    rw [← hhead, not_header_of_scalar _ (Or.inr rfl)] at hh
    cases hh
  | list xs =>
    simp only [bvalue.records, List.head?_cons, Option.some.injEq] at hhead
    subst hhead
    refine ⟨by simp, by simp [bvalue.count, blist_records_length], ?_, ?_⟩
    · simp only [matching_end, bvalue.records, List.append_assoc, List.cons_append,
        List.drop_append, List.drop_succ_cons, List.drop_zero, List.singleton_append]
      rw [blist_find_end, find_end_end_zero _ _ (by simp [descriptor_type.or,
        descriptor_type.end_bit])]
      simp [blist_records_length]
      omega
    · obtain ⟨en, hen⟩ : ∃ d : descriptor, d =
          { type := (descriptor_type.or
              (descriptor_type.or descriptor_type.list descriptor_type.end_bit) m),
            position := pos + 1 + xs.wire.length,
            offset := (xs.records (pos + 1)).length + 1, size := xs.length } := ⟨_, rfl⟩
      refine ⟨en, getElem?_append_middle pre _ post _ _ ?_, ?_, ?_, by rw [hen], by rw [hen]⟩
      · simp only [bvalue.records, List.getElem?_cons_succ, ← hen]
        rw [List.getElem?_append_right (le_refl _)]
        simp
      · simp [hen, descriptor.is_end, descriptor_type.or, descriptor_type.end_bit]
      · simp [hen, descriptor_type.or, descriptor_type.list]
  | dict kvs =>
    simp only [bvalue.records, List.head?_cons, Option.some.injEq] at hhead
    subst hhead
    refine ⟨by simp, by simp [bvalue.count, bdict_records_length], ?_, ?_⟩
    · simp only [matching_end, bvalue.records, List.append_assoc, List.cons_append,
        List.drop_append, List.drop_succ_cons, List.drop_zero, List.singleton_append]
      rw [bdict_find_end, find_end_end_zero _ _ (by simp [descriptor_type.or,
        descriptor_type.end_bit])]
      simp [bdict_records_length]
      omega
    · obtain ⟨en, hen⟩ : ∃ d : descriptor, d =
          { type := (descriptor_type.or
              (descriptor_type.or descriptor_type.dict descriptor_type.end_bit) m),
            position := pos + 1 + kvs.wire.length,
            offset := (kvs.records (pos + 1)).length + 1, size := kvs.length } := ⟨_, rfl⟩
      refine ⟨en, getElem?_append_middle pre _ post _ _ ?_, ?_, ?_, by rw [hen], by rw [hen]⟩
      · simp only [bvalue.records, List.getElem?_cons_succ, ← hen]
        rw [List.getElem?_append_right (le_refl _)]
        simp
      · simp [hen, descriptor.is_end, descriptor_type.or, descriptor_type.end_bit]
      · simp [hen, descriptor_type.or, descriptor_type.dict]

theorem unstop_of_no_stop (d : descriptor) (h : d.type.stop = false) : d.unstop = d := by
  obtain ⟨⟨tag, lv, dk, dv, en, st⟩, pos, val, off, sz⟩ := d
  simp only at h
  subst h
  rfl

theorem map_unstop_of_no_stop (ds : List descriptor) (h : ∀ d ∈ ds, d.type.stop = false) :
    ds.map descriptor.unstop = ds := by
  induction ds with
  | nil => rfl
  | cons d ds ih =>
    simp only [List.map_cons]
    rw [unstop_of_no_stop d (h d (by simp)), ih (fun e he => h e (by simp [he]))]

theorem unstop_set_stop_flag (d : descriptor) : d.set_stop_flag.unstop = d.unstop := rfl

theorem mark_stop_map_unstop (ds : List descriptor) :
    (mark_stop ds).map descriptor.unstop = ds.map descriptor.unstop := by
  cases h : ds.getLast? with
  | none => simp [mark_stop, h]
  | some d =>
    rw [mark_stop_eq ds d h]
    have hne : ds ≠ [] := by
      intro hh
      rw [hh] at h
      simp at h
    have hds : ds = ds.dropLast ++ [d] := by
      rw [List.getLast?_eq_getLast ds hne] at h
      simp only [Option.some.injEq] at h
      rw [← h]
      exact (List.dropLast_append_getLast hne).symm
    conv_rhs => rw [hds]
    simp only [List.map_append, List.map_cons, List.map_nil, unstop_set_stop_flag]

theorem find_end_unstop (ds : List descriptor) (depth : Nat) :
    find_end (ds.map descriptor.unstop) depth = find_end ds depth := by
  induction ds generalizing depth with
  | nil => rfl
  | cons d ds ih =>
    have h1 : d.unstop.is_end = d.is_end := rfl
    have h2 : d.unstop.is_header = d.is_header := rfl
    simp only [List.map_cons, find_end, h1, h2, ih]

theorem matching_end_unstop (ds : List descriptor) (i : Nat) :
    matching_end (ds.map descriptor.unstop) i = matching_end ds i := by
  simp only [matching_end, ← List.map_drop, find_end_unstop]

theorem table_consistent_of_unstop (ds : List descriptor)
    (h : table_consistent (ds.map descriptor.unstop)) : table_consistent ds := by
  intro i hd hi hh
  have hi' : (ds.map descriptor.unstop)[i]? = some hd.unstop := by
    rw [List.getElem?_map, hi]
    rfl
  obtain ⟨h1, h2, e, he, h3, h4, h5, h6⟩ := h i hd.unstop hi' hh
  refine ⟨h1, ?_, ?_⟩
  · rw [← matching_end_unstop]
    exact h2
  · rw [List.getElem?_map] at he
    cases hx : ds[i + hd.unstop.offset]? with
    | none =>
      rw [hx] at he
      cases he
    | some x =>
      rw [hx] at he
      simp only [Option.map_some', Option.some.injEq] at he
      subst he
      exact ⟨x, hx, h3, h4, h5, h6⟩

theorem records_consistent (v : bvalue) :
    table_consistent (v.records 0 descriptor_type.empty) := by
  intro i h hi hh
  have := headers_value
    (fun ds i h => 1 ≤ h.offset ∧ matching_end ds i = some (i + h.offset) ∧
      ∃ e, ds[i + h.offset]? = some e ∧ e.is_end = true ∧ e.type.tag = h.type.tag ∧
        e.offset = h.offset ∧ e.size = h.size)
    (fun v pre post pos m h _ hhead hh => by
      obtain ⟨h1, _, h2, h3⟩ := consistent_at_top v pre post pos m h hhead hh
      exact ⟨h1, h2, h3⟩)
    v [] [] 0 descriptor_type.empty i h rfl hi hh
  simpa using this

/-- C2: for every valid input, in the table a fresh parser returns every list or
dict header at index `i` with offset `k` has `k ≥ 1`, the end record that closes
it is the record at `i + k` and no earlier one, and that record has the same
primary type, the same offset and the same size. -/
theorem table_consistency (v : bvalue) (options : parser_options) (h : v.valid_for options) :
    ∃ t p, (bencode.descriptor_parser.create options).parse v.wire = some (some t, p) ∧
      table_consistent t.descriptors := by
  obtain ⟨p, hp, _, _⟩ := parse_valid v options h
  refine ⟨_, p, hp, ?_⟩
  apply table_consistent_of_unstop
  rw [mark_stop_map_unstop, map_unstop_of_no_stop _ (bvalue_records_no_stop v 0 _ rfl)]
  exact records_consistent v

theorem table_consistency_witness :
    sample_nested_list.wire = bytes "li1el3:foo3:baree" ∧
    sample_nested_list.valid_for {} ∧
    ∃ t p, (bencode.descriptor_parser.create {}).parse sample_nested_list.wire =
        some (some t, p) ∧
      table_consistent t.descriptors :=
  ⟨sample_nested_list_wire, sample_nested_list_valid,
    table_consistency sample_nested_list {} sample_nested_list_valid⟩

/-! ## Iteration count -/

theorem next_value_gt (ds : List descriptor) (j : Nat) : j < next_value ds j := by
  unfold next_value
  split
  · split <;> omega
  · omega

theorem walk_succ_right (ds : List descriptor) (n j : Nat) :
    walk ds (n + 1) j = next_value ds (walk ds n j) := by
  induction n generalizing j with
  | zero => rfl
  | succ n ih =>
    show walk ds (n + 1) (next_value ds j) = next_value ds (walk ds n (next_value ds j))
    exact ih (next_value ds j)

theorem walk_lt (ds : List descriptor) (n k j : Nat) (h : n < k) :
    walk ds n j < walk ds k j := by
  induction k with
  | zero => omega
  | succ k ih =>
    rw [walk_succ_right]
    have := next_value_gt ds (walk ds k j)
    by_cases hk : n < k
    · have := ih hk
      omega
    · have : n = k := by omega
      subst this
      exact next_value_gt ds _

theorem walk_add (ds : List descriptor) (a b j : Nat) :
    walk ds (a + b) j = walk ds b (walk ds a j) := by
  induction a generalizing j with
  | zero => simp [walk]
  | succ a ih =>
    rw [Nat.add_right_comm]
    show walk ds (a + b) (next_value ds j) = walk ds b (walk ds a (next_value ds j))
    exact ih _

theorem next_value_at_value (v : bvalue) (pre post : List descriptor) (pos : Nat)
    (m : descriptor_type) (hm : m.end_ = false) :
    next_value (pre ++ v.records pos m ++ post) pre.length = pre.length + v.count := by
  have hpos := bvalue_count_pos v
  have hlen := bvalue_records_length v pos m
  obtain ⟨h, rest, hR⟩ : ∃ h rest, v.records pos m = h :: rest := by
    cases hR : v.records pos m with
    | nil => rw [hR] at hlen; simp at hlen; omega
    | cons h rest => exact ⟨h, rest, rfl⟩
  have hget : (pre ++ v.records pos m ++ post)[pre.length]? = some h := by
    have := getElem?_append_middle pre (v.records pos m) post 0 h (by rw [hR]; simp)
    simpa using this
  unfold next_value
  rw [hget]
  simp only
  by_cases hh : h.is_header = true
  · obtain ⟨_, h2, _, _⟩ := consistent_at_top v pre post pos m h (by rw [hR]; rfl) hh
    rw [if_pos hh]
    omega
  · rw [if_neg hh]
    cases v with
    | integer i => simp [bvalue.count]
    | string s => simp [bvalue.count]
    | list xs =>
      simp only [bvalue.records, List.cons.injEq] at hR
      rw [← hR.1] at hh
      exact absurd (is_header_or_list m hm _ _ _) hh
    | dict kvs =>
      simp only [bvalue.records, List.cons.injEq] at hR
      rw [← hR.1] at hh
      exact absurd (is_header_or_dict m hm _ _ _) hh

theorem walk_one (ds : List descriptor) (j : Nat) : walk ds 1 j = next_value ds j := rfl

theorem walk_list (xs : blist) (pre post : List descriptor) (pos : Nat) :
    walk (pre ++ xs.records pos ++ post) xs.length pre.length = pre.length + xs.count := by
  cases xs with
  | nil => simp [blist.length, blist.count, walk]
  | cons x xs =>
    simp only [blist.length, blist.count, blist.records]
    have h1 := next_value_at_value x pre (xs.records (pos + x.wire.length) ++ post) pos
      descriptor_type.list_value_bit rfl
    have h2 := walk_list xs (pre ++ x.records pos descriptor_type.list_value_bit) post
      (pos + x.wire.length)
    simp only [List.length_append, bvalue_records_length, List.append_assoc] at h1 h2 ⊢
    rw [Nat.add_comm xs.length 1, walk_add, walk_one, h1, h2]
    omega

theorem walk_dict (kvs : bdict) (pre post : List descriptor) (pos : Nat) :
    walk (pre ++ kvs.records pos ++ post) (2 * kvs.length) pre.length =
      pre.length + kvs.count := by
  cases kvs with
  | nil => simp [bdict.length, bdict.count, walk]
  | cons k v kvs =>
    simp only [bdict.length, bdict.count, bdict.records]
    obtain ⟨key, hkey⟩ : ∃ d : descriptor, d =
      { type := (descriptor_type.or descriptor_type.string descriptor_type.dict_key_bit)
        position := pos, offset := (decimal_text k.length).length + 1, size := k.length } :=
      ⟨_, rfl⟩
    rw [← hkey]
    have e : 2 * (kvs.length + 1) = 1 + (1 + 2 * kvs.length) := by omega
    have hk : next_value (pre ++ key :: (v.records (pos + (string_wire k).length)
        descriptor_type.dict_value_bit ++
          kvs.records (pos + (string_wire k).length + v.wire.length)) ++ post) pre.length =
        pre.length + 1 := by
      unfold next_value
      have : (pre ++ key :: (v.records (pos + (string_wire k).length)
        descriptor_type.dict_value_bit ++
          kvs.records (pos + (string_wire k).length + v.wire.length)) ++ post)[pre.length]? =
          some key := by
        rw [List.append_assoc, List.getElem?_append_right (le_refl _)]
        simp
      rw [this]
      simp only
      rw [if_neg]
      rw [hkey, not_header_of_scalar _ (Or.inr rfl)]
      simp
    have h1 := next_value_at_value v (pre ++ [key])
      (kvs.records (pos + (string_wire k).length + v.wire.length) ++ post)
      (pos + (string_wire k).length) descriptor_type.dict_value_bit rfl
    have h2 := walk_dict kvs (pre ++ key :: v.records (pos + (string_wire k).length)
      descriptor_type.dict_value_bit) post (pos + (string_wire k).length + v.wire.length)
    simp only [List.length_append, List.length_cons, List.length_singleton, List.length_nil,
      bvalue_records_length, List.append_assoc, List.cons_append, List.singleton_append,
      List.nil_append] at h1 h2 hk ⊢
    have e2 : pre.length + (v.count + 1) = pre.length + 1 + v.count := by omega
    rw [e2] at h2
    rw [e, walk_add, walk_add, walk_one, walk_one, hk, h1, h2]
    omega

theorem iteration_at_top (v : bvalue) (pre post : List descriptor) (pos : Nat)
    (m : descriptor_type) (h : descriptor)
    (hhead : (v.records pos m).head? = some h) (hh : h.is_header = true) :
    matching_end (pre ++ v.records pos m ++ post) pre.length =
      some (walk (pre ++ v.records pos m ++ post) (header_steps h) (pre.length + 1)) := by
  obtain ⟨_, _, h3, _⟩ := consistent_at_top v pre post pos m h hhead hh
  rw [h3]
  cases v with
  | integer i =>
    simp only [bvalue.records, List.head?_cons, Option.some.injEq] at hhead
    rw [← hhead, not_header_of_scalar _ (Or.inl rfl)] at hh
    cases hh
  | string s =>
    simp only [bvalue.records, List.head?_cons, Option.some.injEq] at hhead
    rw [← hhead, not_header_of_scalar _ (Or.inr rfl)] at hh
    cases hh
  | list xs =>
    simp only [bvalue.records, List.head?_cons, Option.some.injEq] at hhead
    subst hhead
    obtain ⟨hdr, hhdr⟩ : ∃ d : descriptor, d =
      { type := (descriptor_type.or descriptor_type.list m), position := pos,
        offset := (xs.records (pos + 1)).length + 1, size := xs.length } := ⟨_, rfl⟩
    have hs : header_steps hdr = xs.length := by
      rw [hhdr]
      simp [header_steps, descriptor.is_list, descriptor_type.or, descriptor_type.list]
    have ho : hdr.offset = (xs.records (pos + 1)).length + 1 := by rw [hhdr]
    rw [← hhdr, hs, ho]
    have hw := walk_list xs (pre ++ [hdr])
      ([{ type := (descriptor_type.or
            (descriptor_type.or descriptor_type.list descriptor_type.end_bit) m),
          position := pos + 1 + xs.wire.length,
          offset := (xs.records (pos + 1)).length + 1, size := xs.length }] ++ post) (pos + 1)
    simp only [bvalue.records, ← hhdr]
    simp only [List.length_append, List.length_singleton, List.append_assoc,
      List.singleton_append, List.cons_append, List.nil_append] at hw ⊢
    rw [hw, blist_records_length]
    congr 1
    omega
  | dict kvs =>
    simp only [bvalue.records, List.head?_cons, Option.some.injEq] at hhead
    subst hhead
    obtain ⟨hdr, hhdr⟩ : ∃ d : descriptor, d =
      { type := (descriptor_type.or descriptor_type.dict m), position := pos,
        offset := (kvs.records (pos + 1)).length + 1, size := kvs.length } := ⟨_, rfl⟩
    have hs : header_steps hdr = 2 * kvs.length := by
      rw [hhdr]
      simp [header_steps, descriptor.is_list, descriptor_type.or, descriptor_type.dict]
    have ho : hdr.offset = (kvs.records (pos + 1)).length + 1 := by rw [hhdr]
    rw [← hhdr, hs, ho]
    have hw := walk_dict kvs (pre ++ [hdr])
      ([{ type := (descriptor_type.or
            (descriptor_type.or descriptor_type.dict descriptor_type.end_bit) m),
          position := pos + 1 + kvs.wire.length,
          offset := (kvs.records (pos + 1)).length + 1, size := kvs.length }] ++ post) (pos + 1)
    simp only [bvalue.records, ← hhdr]
    simp only [List.length_append, List.length_singleton, List.append_assoc,
      List.singleton_append, List.cons_append, List.nil_append] at hw ⊢
    rw [hw, bdict_records_length]
    congr 1
    omega

theorem next_value_unstop (ds : List descriptor) (j : Nat) :
    next_value (ds.map descriptor.unstop) j = next_value ds j := by
  unfold next_value
  rw [List.getElem?_map]
  cases ds[j]? <;> rfl

theorem walk_unstop (ds : List descriptor) (n j : Nat) :
    walk (ds.map descriptor.unstop) n j = walk ds n j := by
  induction n generalizing j with
  | zero => rfl
  | succ n ih => simp only [walk, next_value_unstop, ih]

theorem iteration_exact_of_unstop (ds : List descriptor)
    (h : iteration_exact (ds.map descriptor.unstop)) : iteration_exact ds := by
  intro i hd hi hh
  have hi' : (ds.map descriptor.unstop)[i]? = some hd.unstop := by
    rw [List.getElem?_map, hi]
    rfl
  have := h i hd.unstop hi' hh
  have hs : header_steps hd.unstop = header_steps hd := rfl
  simpa only [matching_end_unstop, walk_unstop, hs] using this

theorem records_iteration_exact (v : bvalue) :
    iteration_exact (v.records 0 descriptor_type.empty) := by
  intro i h hi hh
  have := headers_value
    (fun ds i h => matching_end ds i = some (walk ds (header_steps h) (i + 1)) ∧
      ∀ n, n < header_steps h → walk ds n (i + 1) < walk ds (header_steps h) (i + 1))
    (fun v pre post pos m h _ hhead hh =>
      ⟨iteration_at_top v pre post pos m h hhead hh, fun n hn => walk_lt _ _ _ _ hn⟩)
    v [] [] 0 descriptor_type.empty i h rfl hi hh
  simpa using this

/-- C8: for every valid input, in the table a fresh parser returns, walking from
the record after a container header and skipping one whole value per step (one
record for an integer or string, offset + 1 records for a nested container)
reaches the matching end record of the header after exactly `size` steps for a
list and `2 * size` steps for a dict, and not before. -/
theorem element_count_and_iteration (v : bvalue) (options : parser_options)
    (h : v.valid_for options) :
    ∃ t p, (bencode.descriptor_parser.create options).parse v.wire = some (some t, p) ∧
      iteration_exact t.descriptors := by
  obtain ⟨p, hp, _, _⟩ := parse_valid v options h
  refine ⟨_, p, hp, ?_⟩
  apply iteration_exact_of_unstop
  rw [mark_stop_map_unstop, map_unstop_of_no_stop _ (bvalue_records_no_stop v 0 _ rfl)]
  exact records_iteration_exact v

theorem element_count_and_iteration_witness :
    sample_dict.wire = bytes "d1:ai-7e1:bl0:ee" ∧
    sample_dict.valid_for {} ∧
    ∃ t p, (bencode.descriptor_parser.create {}).parse sample_dict.wire = some (some t, p) ∧
      iteration_exact t.descriptors :=
  ⟨sample_dict_wire, sample_dict_valid,
    element_count_and_iteration sample_dict {} sample_dict_valid⟩

/-! ## What the token decoders guarantee on success -/

theorem bdecode_integer_ok (r : List Nat) (v : Int) (moved : Nat)
    (h : bdecode_integer r = Except.ok (v, moved)) : 2 ≤ moved ∧ moved ≤ r.length := by
  unfold bdecode_integer at h
  cases r with
  | nil => simp at h
  | cons c r1 =>
    simp only at h
    by_cases hneg : r1.head? = some symbol.minus
    · have hne : r1 ≠ [] := by
        intro hh
        rw [hh] at hneg
        simp at hneg
      have hlen1 := List.length_pos.mpr hne
      have hsplit := congrArg List.length
        (List.takeWhile_append_dropWhile symbol.digit r1.tail)
      simp only [List.length_append, List.length_tail] at hsplit
      simp only [hneg, decide_True, if_true] at h
      split_ifs at h
      cases hr3 : List.dropWhile symbol.digit r1.tail with
      | nil => rw [hr3] at h; simp at h
      | cons c2 rest =>
        rw [hr3] at h hsplit
        simp only at h
        split_ifs at h
        simp only [Except.ok.injEq, Prod.mk.injEq] at h
        obtain ⟨_, hm⟩ := h
        subst hm
        simp only [List.length_cons] at hsplit ⊢
        omega
    · have hsplit := congrArg List.length
        (List.takeWhile_append_dropWhile symbol.digit r1)
      simp only [List.length_append] at hsplit
      simp only [hneg, decide_False, Bool.false_eq_true, if_false] at h
      split_ifs at h
      cases hr3 : List.dropWhile symbol.digit r1 with
      | nil => rw [hr3] at h; simp at h
      | cons c2 rest =>
        rw [hr3] at h hsplit
        simp only at h
        split_ifs at h
        simp only [Except.ok.injEq, Prod.mk.injEq] at h
        obtain ⟨_, hm⟩ := h
        subst hm
        simp only [List.length_cons] at hsplit ⊢
        omega

theorem bdecode_string_token_ok (r : List Nat) (tok : string_token) (moved : Nat)
    (h : bdecode_string_token r = Except.ok (tok, moved)) :
    2 ≤ tok.offset ∧ moved = tok.offset + tok.size ∧ moved ≤ r.length ∧
      tok.size < 4294967296 ∧ r[tok.offset - 1]? = some symbol.colon ∧
      (∀ c ∈ r.take (tok.offset - 1), symbol.digit c = true) ∧
      decimal_value (r.take (tok.offset - 1)) = tok.size := by
  unfold bdecode_string_token at h
  simp only at h
  have hsplit := List.takeWhile_append_dropWhile symbol.digit r
  split_ifs at h with h1 h2 h3 h4
  cases hr1 : List.dropWhile symbol.digit r with
  | nil => rw [hr1] at h; simp at h
  | cons c r2 =>
    rw [hr1] at h hsplit
    simp only at h
    split_ifs at h with hc hl
    simp only [Except.ok.injEq, Prod.mk.injEq] at h
    obtain ⟨htok, hm⟩ := h
    subst htok
    subst hm
    have hc' : c = symbol.colon := by
      by_contra hh
      exact hc hh
    subst hc'
    have hall : ∀ x ∈ List.takeWhile symbol.digit r, symbol.digit x = true :=
      fun x hx => List.mem_takeWhile_imp hx
    generalize List.takeWhile symbol.digit r = digits at *
    subst hsplit
    have hpos : 0 < digits.length := List.length_pos.mpr h1
    simp only [List.length_append, List.length_cons, Nat.add_sub_cancel, List.take_left']
    refine ⟨?_, ?_, ?_, ?_, ?_, hall, ?_⟩
    · omega
    · trivial
    · omega
    · omega
    · rw [List.getElem?_append_right (le_refl _)]
      simp
    · simp

/-! ## Every pass through the loop body is a step of the transition system -/

theorem set_error_step (p q : bencode.descriptor_parser) (ec : parsing_errc)
    (ctx : Option bencode_type) (hi : q.input = p.input) (ho : q.options_ = p.options_)
    (hs : q.stack_ = p.stack_) :
    loop_step p (q.set_error ec ctx) :=
  loop_step.error _ (by simp [bencode.descriptor_parser.set_error]) hi ho hs

theorem handle_value_step (p : bencode.descriptor_parser) (hv : value_stack p.stack_) :
    loop_step p (p.handle_value (stack_context p.stack_)).2 := by
  unfold bencode.descriptor_parser.handle_value
  simp only
  by_cases h1 : p.peek = symbol.begin_integer
  · rw [if_pos h1]
    unfold bencode.descriptor_parser.handle_integer
    cases hdec : bdecode_integer p.remaining with
    | error e =>
      obtain ⟨ec, moved⟩ := e
      simp only [bencode.descriptor_parser.dispatch, Bool.not_false, if_true]
      exact set_error_step p _ ec _ rfl rfl rfl
    | ok r =>
      obtain ⟨v, moved⟩ := r
      have hstep := loop_step.integer v moved hv h1 hdec
      simp only [bencode.descriptor_parser.dispatch, Bool.not_true, Bool.false_eq_true, if_false]
      obtain ⟨input, it, ds, stack, err, opts⟩ := p
      cases stack with
      | nil =>
        simpa [stack_context, stack_counted, descriptor.create, descriptor.set_value,
          bencode.descriptor_parser.current_position] using hstep
      | cons top below =>
        simp only [value_stack] at hv
        rcases hv with hst | hst
        · simpa [stack_context, stack_counted, descriptor.create, descriptor.set_value,
            bencode.descriptor_parser.current_position, hst,
            bencode.descriptor_parser.modify_top] using hstep
        · simpa [stack_context, stack_counted, descriptor.create, descriptor.set_value,
            bencode.descriptor_parser.current_position, hst,
            bencode.descriptor_parser.modify_top] using hstep
  · rw [if_neg h1]
    by_cases h2 : p.peek = symbol.begin_list
    · rw [if_pos h2]
      unfold bencode.descriptor_parser.handle_list_begin
      by_cases hl : p.stack_.length = p.options_.recursion_limit
      · simp only [hl, if_true]
        exact set_error_step p p _ _ rfl rfl rfl
      · simp only [hl, if_false]
        have hstep := loop_step.open_list hv h2 hl
        simpa [descriptor.create, bencode.descriptor_parser.current_position] using hstep
    · rw [if_neg h2]
      by_cases h3 : p.peek = symbol.begin_dict
      · rw [if_pos h3]
        unfold bencode.descriptor_parser.handle_dict_begin
        by_cases hl : p.stack_.length = p.options_.recursion_limit
        · simp only [hl, if_true]
          exact set_error_step p p _ _ rfl rfl rfl
        · simp only [hl, if_false]
          have hstep := loop_step.open_dict hv h3 hl
          simpa [descriptor.create, bencode.descriptor_parser.current_position] using hstep
      · rw [if_neg h3]
        by_cases h4 : symbol.digit p.peek = true
        · rw [if_pos h4]
          unfold bencode.descriptor_parser.handle_string
          cases hdec : bdecode_string_token p.remaining with
          | error e =>
            obtain ⟨ec, moved⟩ := e
            simp only [bencode.descriptor_parser.dispatch, Bool.not_false, if_true]
            exact set_error_step p _ ec _ rfl rfl rfl
          | ok r =>
            obtain ⟨tok, moved⟩ := r
            have hstep := loop_step.string tok moved hv h4 hdec
            simp only [bencode.descriptor_parser.dispatch, Bool.not_true, Bool.false_eq_true,
              if_false]
            obtain ⟨input, it, ds, stack, err, opts⟩ := p
            cases stack with
            | nil =>
              simpa [stack_context, stack_counted, descriptor.create, descriptor.set_offset,
                descriptor.set_size, bencode.descriptor_parser.current_position] using hstep
            | cons top below =>
              simp only [value_stack] at hv
              rcases hv with hst | hst
              · simpa [stack_context, stack_counted, descriptor.create, descriptor.set_offset,
                  descriptor.set_size, bencode.descriptor_parser.current_position, hst,
                  bencode.descriptor_parser.modify_top] using hstep
              · simpa [stack_context, stack_counted, descriptor.create, descriptor.set_offset,
                  descriptor.set_size, bencode.descriptor_parser.current_position, hst,
                  bencode.descriptor_parser.modify_top] using hstep
        · rw [if_neg h4]
          cases stack_context p.stack_ <;> exact set_error_step p p _ _ rfl rfl rfl

theorem handle_dict_key_step (p : bencode.descriptor_parser)
    (top : detail.descriptor_parser_stack_frame)
    (below : List detail.descriptor_parser_stack_frame)
    (hs : p.stack_ = top :: below) (hst : top.state = parser_state.expect_dict_key)
    (hd : symbol.digit p.peek = true) : loop_step p p.handle_dict_key.2 := by
  unfold bencode.descriptor_parser.handle_dict_key
  cases hdec : bdecode_string_token p.remaining with
  | error e =>
    obtain ⟨ec, moved⟩ := e
    exact set_error_step p _ ec _ rfl rfl rfl
  | ok r =>
    obtain ⟨tok, moved⟩ := r
    have hstep := loop_step.dict_key top below tok moved hs hst hd hdec
    obtain ⟨input, it, ds, stack, err, opts⟩ := p
    simp only at hs
    subst hs
    simpa [descriptor.create, descriptor.set_offset, descriptor.set_size,
      bencode.descriptor_parser.current_position, bencode.descriptor_parser.modify_top]
      using hstep

theorem handle_container_end_step (p : bencode.descriptor_parser) (tag : descriptor_type)
    (top : detail.descriptor_parser_stack_frame)
    (below : List detail.descriptor_parser_stack_frame)
    (hs : p.stack_ = top :: below) (hc : p.peek = symbol.end_)
    (hst : top.state = parser_state.expect_list_value ∧ tag = descriptor_type.list ∨
      top.state = parser_state.expect_dict_key ∧ tag = descriptor_type.dict) :
    loop_step p (p.handle_container_end tag).2 := by
  have hstep := loop_step.close top below tag hs hc hst
  obtain ⟨input, it, ds, stack, err, opts⟩ := p
  simp only at hs
  subst hs
  cases below with
  | nil =>
    simpa [bencode.descriptor_parser.handle_container_end,
      bencode.descriptor_parser.handle_nested_structures, stack_after_nested, stack_context,
      detail.descriptor_type_modifier, or_empty, descriptor.create,
      bencode.descriptor_parser.current_position] using hstep
  | cons b bs =>
    simpa [bencode.descriptor_parser.handle_container_end,
      bencode.descriptor_parser.handle_nested_structures, stack_after_nested, stack_context,
      descriptor.create, bencode.descriptor_parser.current_position] using hstep

theorem loop_body_step (p : bencode.descriptor_parser) : loop_step p p.loop_body := by
  unfold bencode.descriptor_parser.loop_body
  simp only
  cases hs : p.stack_ with
  | nil =>
    simp only
    have := handle_value_step p (by simp [value_stack, hs])
    simpa [stack_context, hs] using this
  | cons top below =>
    simp only
    cases hst : top.state with
    | expect_value =>
      simp only
      exact set_error_step p p _ _ rfl rfl rfl
    | expect_list_value =>
      simp only
      by_cases hc : p.peek = symbol.end_
      · rw [if_pos hc]
        exact handle_container_end_step p _ top below hs hc (Or.inl ⟨hst, rfl⟩)
      · rw [if_neg hc]
        have := handle_value_step p (by simp [value_stack, hs, hst])
        simpa [stack_context, hs, hst] using this
    | expect_dict_key =>
      simp only
      by_cases hd : symbol.digit p.peek = true
      · rw [if_pos hd]
        exact handle_dict_key_step p top below hs hst hd
      · rw [if_neg hd]
        by_cases hc : p.peek = symbol.end_
        · rw [if_pos hc]
          exact handle_container_end_step p _ top below hs hc (Or.inr ⟨hst, rfl⟩)
        · rw [if_neg hc]
          exact set_error_step p p _ _ rfl rfl rfl
    | expect_dict_value =>
      simp only
      by_cases hc : p.peek = symbol.end_
      · rw [if_pos hc]
        exact set_error_step p p _ _ rfl rfl rfl
      · rw [if_neg hc]
        have := handle_value_step p (by simp [value_stack, hs, hst])
        simpa [stack_context, hs, hst] using this

/-! ## Invariants of the loop -/

theorem state_after_invariant (I : bencode.descriptor_parser → Prop)
    (hstep : ∀ p q, I p → p.running → loop_step p q → I q)
    (n : Nat) (p : bencode.descriptor_parser) (h0 : I p) :
    I (bencode.descriptor_parser.state_after n p) := by
  induction n generalizing p with
  | zero => exact h0
  | succ n ih =>
    unfold bencode.descriptor_parser.state_after
    by_cases hr : p.running
    · rw [if_pos hr]
      exact ih _ (hstep p _ h0 hr (loop_body_step p))
    · rw [if_neg hr]
      exact h0

theorem parse_loop_fuel_unfold (fuel : Nat) (p : bencode.descriptor_parser) :
    bencode.descriptor_parser.parse_loop_fuel (fuel + 1) p =
      if p.running then bencode.descriptor_parser.parse_loop_fuel fuel p.loop_body
      else some p.exit_result := by
  by_cases hr : p.running
  · rw [if_pos hr, parse_loop_fuel_step fuel p hr]
  · rw [if_neg hr]
    unfold bencode.descriptor_parser.parse_loop_fuel bencode.descriptor_parser.exit_result
    unfold bencode.descriptor_parser.running at hr
    by_cases hc : p.it_ ≠ p.input.length ∧ p.error_ = none
    · have hl : p.descriptors_.length > p.options_.value_limit := by
        by_contra hh
        exact hr ⟨hc.1, hc.2, by omega⟩
      simp only [hc, and_self, if_true, hl, ne_eq, not_false_eq_true]
    · simp only [hc, if_false]

theorem parse_loop_fuel_result (fuel : Nat) (p : bencode.descriptor_parser)
    (r : Bool × bencode.descriptor_parser)
    (h : bencode.descriptor_parser.parse_loop_fuel fuel p = some r) :
    ∃ n, ¬ (bencode.descriptor_parser.state_after n p).running ∧
      r = (bencode.descriptor_parser.state_after n p).exit_result := by
  induction fuel generalizing p with
  | zero => simp [bencode.descriptor_parser.parse_loop_fuel] at h
  | succ fuel ih =>
    rw [parse_loop_fuel_unfold] at h
    by_cases hr : p.running
    · rw [if_pos hr] at h
      obtain ⟨n, hn, hres⟩ := ih _ h
      refine ⟨n + 1, ?_, ?_⟩
      · simpa [bencode.descriptor_parser.state_after, hr] using hn
      · simpa [bencode.descriptor_parser.state_after, hr] using hres
    · rw [if_neg hr] at h
      simp only [Option.some.injEq] at h
      exact ⟨0, hr, h.symm⟩

theorem exit_result_true (p q : bencode.descriptor_parser)
    (h : p.exit_result = (true, q)) :
    p.error_ = none ∧ p.it_ = p.input.length ∧
      q = { p with descriptors_ := mark_stop p.descriptors_ } := by
  unfold bencode.descriptor_parser.exit_result at h
  by_cases hc : p.it_ ≠ p.input.length ∧ p.error_ = none
  · rw [if_pos hc] at h
    simp at h
  · rw [if_neg hc] at h
    by_cases he : p.error_ = none
    · have hit : p.it_ = p.input.length := by
        by_contra hh
        exact hc ⟨hh, he⟩
      rw [finish_eq p he] at h
      simp only [Prod.mk.injEq, true_and] at h
      exact ⟨he, hit, h.symm⟩
    · unfold bencode.descriptor_parser.finish at h
      have : p.error_.isSome = true := by
        cases hh : p.error_ with
        | none => exact absurd hh he
        | some e => rfl
      rw [if_pos this] at h
      simp at h

/-- A table returned by `parse` holds the records of a state the loop reached
from the start state, in which no error is recorded and the cursor is at the end
of the input, with the stop modifier put on the last record. -/
theorem parse_returns_table (p0 : bencode.descriptor_parser) (B : List Nat)
    (t : descriptor_table) (q : bencode.descriptor_parser)
    (h : p0.parse B = some (some t, q)) :
    ∃ n, (bencode.descriptor_parser.state_after n (p0.start B)).error_ = none ∧
      (bencode.descriptor_parser.state_after n (p0.start B)).it_ =
        (bencode.descriptor_parser.state_after n (p0.start B)).input.length ∧
      t = { descriptors :=
              mark_stop (bencode.descriptor_parser.state_after n (p0.start B)).descriptors_
            data := B } := by
  unfold bencode.descriptor_parser.parse at h
  simp only at h
  cases hl : (bencode.descriptor_parser.parse_loop
      { p0 with input := B, it_ := 0, descriptors_ := [], error_ := none }) with
  | none => rw [hl] at h; simp at h
  | some r =>
    obtain ⟨success, p2⟩ := r
    rw [hl] at h
    simp only at h
    cases success with
    | false => simp at h
    | true =>
      simp only [Bool.not_true, Bool.false_eq_true, if_false, Option.some.injEq,
        Prod.mk.injEq] at h
      obtain ⟨n, _, hres⟩ := parse_loop_fuel_result _ _ _ hl
      obtain ⟨he, hit, hq⟩ := exit_result_true _ _ hres.symm
      refine ⟨n, he, hit, ?_⟩
      rw [← h.1, hq]
      rfl

/-! ## The records fit the input -/

theorem records_ok_append (B : List Nat) (it it2 : Nat) (ds : List descriptor)
    (stack stack2 : List detail.descriptor_parser_stack_frame) (d : descriptor)
    (h : records_ok B it ds stack) (hit : it < it2) (hpos : d.position = it)
    (hbyte : byte_matches B d) (hstr : d.is_string = true → string_inside B d)
    (hstack : ∀ f ∈ stack2, (∃ g ∈ stack, f.position = g.position) ∨
      (f.position = ds.length ∧ d.is_string = false)) :
    records_ok B it2 (ds ++ [d]) stack2 := by
  obtain ⟨h1, h2, h3, h4⟩ := h
  refine ⟨by simp; omega, ?_, ?_, ?_⟩
  · intro e he
    rw [List.mem_append, List.mem_singleton] at he
    rcases he with he | he
    · obtain ⟨a, b, c⟩ := h2 e he
      exact ⟨by omega, b, c⟩
    · subst he
      exact ⟨by omega, hbyte, hstr⟩
  · rw [List.pairwise_append]
    refine ⟨h3, List.pairwise_singleton _ _, ?_⟩
    intro a ha b hb
    rw [List.mem_singleton] at hb
    subst hb
    have := (h2 a ha).1
    omega
  · intro f hf
    rcases hstack f hf with ⟨g, hg, hfg⟩ | ⟨hfl, hns⟩
    · obtain ⟨x, hx, hxs⟩ := h4 g hg
      refine ⟨x, ?_, hxs⟩
      rw [hfg]
      have hlt : g.position < ds.length := (List.getElem?_eq_some.mp hx).1
      rw [List.getElem?_append_left hlt]
      exact hx
    · refine ⟨d, ?_, hns⟩
      rw [hfl, List.getElem?_append_right (le_refl _)]
      simp

theorem records_ok_patch (B : List Nat) (it : Nat) (ds : List descriptor)
    (stack : List detail.descriptor_parser_stack_frame) (i a b : Nat) (d : descriptor)
    (h : records_ok B it ds stack) (hi : ds[i]? = some d) (hd : d.is_string = false) :
    records_ok B it (ds.set i ((d.set_offset a).set_size b)) stack := by
  obtain ⟨h1, h2, h3, h4⟩ := h
  have hmem : d ∈ ds := List.getElem?_mem hi
  have hlt : i < ds.length := (List.getElem?_eq_some.mp hi).1
  refine ⟨by simpa using h1, ?_, ?_, ?_⟩
  · intro e he
    rcases List.mem_or_eq_of_mem_set he with he | he
    · exact h2 e he
    · subst he
      obtain ⟨x, y, _⟩ := h2 d hmem
      refine ⟨x, y, ?_⟩
      intro hs
      have : d.is_string = true := hs
      rw [hd] at this
      cases this
  · have hmap : (ds.set i ((d.set_offset a).set_size b)).map descriptor.position =
        ds.map descriptor.position := by
      rw [List.map_set]
      apply List.ext_getElem?
      intro j
      rw [List.getElem?_set]
      by_cases hij : i = j
      · subst hij
        obtain ⟨_, hget⟩ := List.getElem?_eq_some.mp hi
        simp [hlt, hget, descriptor.set_offset, descriptor.set_size]
      · simp [hij]
    have h3' : List.Pairwise (fun x y => x < y) (ds.map descriptor.position) :=
      List.pairwise_map.mpr h3
    rw [← hmap] at h3'
    exact List.pairwise_map.mp h3'
  · intro f hf
    obtain ⟨x, hx, hxs⟩ := h4 f hf
    rw [List.getElem?_set]
    by_cases hij : i = f.position
    · rw [if_pos hij, if_pos hlt]
      exact ⟨_, rfl, hd⟩
    · rw [if_neg hij]
      exact ⟨x, hx, hxs⟩

theorem modify_descriptor_of_getElem? (p : bencode.descriptor_parser) (i : Nat)
    (f : descriptor → descriptor) (d : descriptor) (h : p.descriptors_[i]? = some d) :
    p.modify_descriptor i f = { p with descriptors_ := p.descriptors_.set i (f d) } := by
  simp only [bencode.descriptor_parser.modify_descriptor, h]

theorem peek_eq_getElem? (p : bencode.descriptor_parser) (h : p.it_ < p.input.length) :
    p.input[p.it_]? = some p.peek := by
  unfold bencode.descriptor_parser.peek bencode.descriptor_parser.remaining
  rw [List.getElem?_eq_getElem h]
  have : List.drop p.it_ p.input = p.input[p.it_] :: List.drop (p.it_ + 1) p.input :=
    List.drop_eq_getElem_cons h
  rw [this]
  rfl

theorem remaining_length_eq (p : bencode.descriptor_parser) :
    p.remaining.length = p.input.length - p.it_ := by
  simp [bencode.descriptor_parser.remaining]

theorem modifier_end (st : parser_state) : (detail.descriptor_type_modifier st).end_ = false := by
  cases st <;> rfl

theorem modifier_tag (st : parser_state) :
    (detail.descriptor_type_modifier st).tag = descriptor_tag.none := by
  cases st <;> rfl

theorem stack_counted_positions (s : List detail.descriptor_parser_stack_frame) :
    ∀ f ∈ stack_counted s, ∃ g ∈ s, f.position = g.position := by
  cases s with
  | nil => simp [stack_counted]
  | cons top below =>
    intro f hf
    simp only [stack_counted, List.mem_cons] at hf
    rcases hf with hf | hf
    · exact ⟨top, by simp, by rw [hf]⟩
    · exact ⟨f, by simp [hf], rfl⟩

theorem stack_after_nested_positions (s : List detail.descriptor_parser_stack_frame) :
    ∀ f ∈ stack_after_nested s, ∃ g ∈ s, f.position = g.position := by
  cases s with
  | nil => simp [stack_after_nested]
  | cons top below =>
    intro f hf
    simp only [stack_after_nested, List.mem_cons] at hf
    rcases hf with hf | hf
    · exact ⟨top, by simp, by rw [hf]⟩
    · exact ⟨f, by simp [hf], rfl⟩

theorem byte_matches_integer (B : List Nat) (pos : Nat) (m : descriptor_type) (v : Int)
    (hm : m.end_ = false) (hb : B[pos]? = some symbol.begin_integer) :
    byte_matches B { type := descriptor_type.or descriptor_type.integer m, position := pos
                     value := v } := by
  refine ⟨_, hb, fun _ => rfl, ?_, ?_, ?_, ?_⟩ <;>
    simp [descriptor.is_string, descriptor.is_list, descriptor.is_dict, descriptor.is_end,
      descriptor_type.or, descriptor_type.integer, hm]

theorem byte_matches_string (B : List Nat) (pos off sz c : Nat) (m : descriptor_type)
    (hm : m.end_ = false) (hb : B[pos]? = some c) (hc : symbol.digit c = true) :
    byte_matches B { type := descriptor_type.or descriptor_type.string m, position := pos
                     offset := off, size := sz } := by
  refine ⟨_, hb, ?_, fun _ => hc, ?_, ?_, ?_⟩ <;>
    simp [descriptor.is_integer, descriptor.is_list, descriptor.is_dict, descriptor.is_end,
      descriptor_type.or, descriptor_type.string, hm]

theorem byte_matches_list (B : List Nat) (pos : Nat) (m : descriptor_type)
    (hm : m.end_ = false) (hb : B[pos]? = some symbol.begin_list) :
    byte_matches B { type := descriptor_type.or descriptor_type.list m, position := pos } := by
  refine ⟨_, hb, ?_, ?_, fun _ _ => rfl, ?_, ?_⟩ <;>
    simp [descriptor.is_integer, descriptor.is_string, descriptor.is_dict, descriptor.is_end,
      descriptor_type.or, descriptor_type.list, hm]

theorem byte_matches_dict (B : List Nat) (pos : Nat) (m : descriptor_type)
    (hm : m.end_ = false) (hb : B[pos]? = some symbol.begin_dict) :
    byte_matches B { type := descriptor_type.or descriptor_type.dict m, position := pos } := by
  refine ⟨_, hb, ?_, ?_, ?_, fun _ _ => rfl, ?_⟩ <;>
    simp [descriptor.is_integer, descriptor.is_string, descriptor.is_list, descriptor.is_end,
      descriptor_type.or, descriptor_type.dict, hm]

theorem byte_matches_end (B : List Nat) (pos : Nat) (tag m : descriptor_type)
    (ht : tag = descriptor_type.list ∨ tag = descriptor_type.dict)
    (hb : B[pos]? = some symbol.end_) :
    byte_matches B { type := descriptor_type.or (descriptor_type.or tag descriptor_type.end_bit) m
                     position := pos } := by
  rcases ht with ht | ht <;> subst ht <;>
  · refine ⟨_, hb, ?_, ?_, ?_, ?_, fun _ => rfl⟩ <;>
      simp [descriptor.is_integer, descriptor.is_string, descriptor.is_list, descriptor.is_dict,
        descriptor.is_end, descriptor_type.or, descriptor_type.list, descriptor_type.dict,
        descriptor_type.end_bit]

theorem string_inside_token (p : bencode.descriptor_parser) (tok : string_token) (moved : Nat)
    (t : descriptor_type)
    (hlen : p.input.length < 4294967296) (hlt : p.it_ < p.input.length)
    (hdec : bdecode_string_token p.remaining = Except.ok (tok, moved)) :
    p.it_ + moved ≤ p.input.length ∧ 1 ≤ moved ∧
    string_inside p.input { type := t, position := u32 p.it_, offset := u32 tok.offset
                            size := u32 tok.size } := by
  obtain ⟨h1, h2, h3, h4, h5, h6, h7⟩ := bdecode_string_token_ok _ _ _ hdec
  rw [remaining_length_eq] at h3
  have hu1 : u32 p.it_ = p.it_ := u32_of_lt (by omega)
  have hu2 : u32 tok.offset = tok.offset := u32_of_lt (by omega)
  have hu3 : u32 tok.size = tok.size := u32_of_lt h4
  refine ⟨by omega, by omega, ?_⟩
  simp only [string_inside, hu1, hu2, hu3]
  refine ⟨by omega, h1, ?_, h6, h7⟩
  unfold bencode.descriptor_parser.remaining at h5
  rw [List.getElem?_drop] at h5
  have e : p.it_ + tok.offset - 1 = p.it_ + (tok.offset - 1) := by omega
  rw [e]
  exact h5

theorem record_invariant_step (B : List Nat) (hB : B.length < 4294967296)
    (p q : bencode.descriptor_parser) (hI : record_invariant B p) (hr : p.running)
    (hs : loop_step p q) : record_invariant B q := by
  obtain ⟨hin, hinv⟩ := hI
  obtain ⟨hne, herr, _⟩ := hr
  obtain ⟨hle, hok⟩ := hinv herr
  subst hin
  have hlt : p.it_ < p.input.length := by omega
  have hpk := peek_eq_getElem? p hlt
  have hu : u32 p.it_ = p.it_ := u32_of_lt (by omega)
  cases hs with
  | error q2 hq hi ho hst =>
    refine ⟨hi, fun h => absurd h hq⟩
  | integer v moved hv hc hdec =>
    obtain ⟨hm2, hmr⟩ := bdecode_integer_ok _ _ _ hdec
    rw [remaining_length_eq] at hmr
    refine ⟨rfl, fun _ => ⟨by simp only; omega, ?_⟩⟩
    refine records_ok_append _ p.it_ (p.it_ + moved) _ _ _ _ hok (by omega) hu ?_ ?_ ?_
    · rw [hc] at hpk
      rw [hu]
      exact byte_matches_integer _ _ _ _ (modifier_end _) hpk
    · intro h
      simp [descriptor.is_string, descriptor_type.or, descriptor_type.integer] at h
    · intro f hf
      exact Or.inl (stack_counted_positions _ f hf)
  | string tok moved hv hc hdec =>
    obtain ⟨h1, h2, h3⟩ := string_inside_token p tok moved
      (descriptor_type.or descriptor_type.string
        (detail.descriptor_type_modifier (stack_context p.stack_))) hB hlt hdec
    refine ⟨rfl, fun _ => ⟨by simp only; omega, ?_⟩⟩
    refine records_ok_append _ p.it_ (p.it_ + moved) _ _ _ _ hok (by omega) hu ?_ (fun _ => h3) ?_
    · rw [hu]
      exact byte_matches_string _ _ _ _ _ _ (modifier_end _) hpk hc
    · intro f hf
      exact Or.inl (stack_counted_positions _ f hf)
  | dict_key top below tok moved hst hstate hc hdec =>
    obtain ⟨h1, h2, h3⟩ := string_inside_token p tok moved
      (descriptor_type.or descriptor_type.string descriptor_type.dict_key_bit) hB hlt hdec
    refine ⟨rfl, fun _ => ⟨by simp only; omega, ?_⟩⟩
    refine records_ok_append _ p.it_ (p.it_ + moved) _ _ _ _ hok (by omega) hu ?_ (fun _ => h3) ?_
    · rw [hu]
      exact byte_matches_string _ _ _ _ _ _ rfl hpk hc
    · intro f hf
      left
      simp only [List.mem_cons] at hf
      rcases hf with hf | hf
      · exact ⟨top, by rw [hst]; simp, by rw [hf]⟩
      · exact ⟨f, by rw [hst]; simp [hf], rfl⟩
  | open_list hv hc hl =>
    refine ⟨rfl, fun _ => ⟨by simp only; omega, ?_⟩⟩
    refine records_ok_append _ p.it_ (p.it_ + 1) _ _ _ _ hok (by omega) hu ?_ ?_ ?_
    · rw [hc] at hpk
      rw [hu]
      exact byte_matches_list _ _ _ (modifier_end _) hpk
    · intro h
      simp [descriptor.is_string, descriptor_type.or, descriptor_type.list] at h
    · intro f hf
      simp only [List.mem_cons] at hf
      rcases hf with hf | hf
      · right
        have : u32 p.descriptors_.length = p.descriptors_.length :=
          u32_of_lt (by have := hok.1; omega)
        rw [hf]
        exact ⟨this, by simp [descriptor.is_string, descriptor_type.or, descriptor_type.list]⟩
      · exact Or.inl ⟨f, hf, rfl⟩
  | open_dict hv hc hl =>
    refine ⟨rfl, fun _ => ⟨by simp only; omega, ?_⟩⟩
    refine records_ok_append _ p.it_ (p.it_ + 1) _ _ _ _ hok (by omega) hu ?_ ?_ ?_
    · rw [hc] at hpk
      rw [hu]
      exact byte_matches_dict _ _ _ (modifier_end _) hpk
    · intro h
      simp [descriptor.is_string, descriptor_type.or, descriptor_type.dict] at h
    · intro f hf
      simp only [List.mem_cons] at hf
      rcases hf with hf | hf
      · right
        have : u32 p.descriptors_.length = p.descriptors_.length :=
          u32_of_lt (by have := hok.1; omega)
        rw [hf]
        exact ⟨this, by simp [descriptor.is_string, descriptor_type.or, descriptor_type.dict]⟩
      · exact Or.inl ⟨f, hf, rfl⟩
  | close top below tag hst hc htag =>
    have htag' : tag = descriptor_type.list ∨ tag = descriptor_type.dict := by
      rcases htag with h | h
      · exact Or.inl h.2
      · exact Or.inr h.2
    obtain ⟨en, hen⟩ : ∃ d : descriptor, d =
      { type := (descriptor_type.or (descriptor_type.or tag descriptor_type.end_bit)
          (detail.descriptor_type_modifier (stack_context below))),
        position := u32 p.it_ } := ⟨_, rfl⟩
    have hens : en.is_string = false := by
      rw [hen]
      rcases htag' with h | h <;> subst h <;>
        simp [descriptor.is_string, descriptor_type.or, descriptor_type.list,
          descriptor_type.dict]
    have h0 : records_ok p.input (p.it_ + 1) (p.descriptors_ ++ [en]) (stack_after_nested below) := by
      refine records_ok_append _ p.it_ (p.it_ + 1) _ _ _ _ hok (by omega) (by rw [hen]; exact hu) ?_ ?_ ?_
      · rw [hc] at hpk
        rw [hen, hu]
        exact byte_matches_end _ _ _ _ htag' hpk
      · intro h
        rw [hens] at h
        cases h
      · intro f hf
        obtain ⟨g, hg, hfg⟩ := stack_after_nested_positions _ f hf
        exact Or.inl ⟨g, by rw [hst]; simp [hg], hfg⟩
    obtain ⟨h, hh, hhs⟩ := hok.2.2.2 top (by rw [hst]; simp)
    have hhlt : top.position < p.descriptors_.length := (List.getElem?_eq_some.mp hh).1
    have hh' : (p.descriptors_ ++ [en])[top.position]? = some h := by
      rw [List.getElem?_append_left hhlt]
      exact hh
    rw [← hen]
    rw [modify_descriptor_of_getElem? _ top.position _ h hh']
    have h1 := records_ok_patch _ _ _ _ top.position
      (p.descriptors_.length - top.position) top.size h h0 hh' hhs
    have hlast : ((p.descriptors_ ++ [en]).set top.position
        ((h.set_offset (p.descriptors_.length - top.position)).set_size top.size))[
          p.descriptors_.length]? = some en := by
      rw [List.getElem?_set_ne (by omega), List.getElem?_append_right (le_refl _)]
      simp
    rw [modify_descriptor_of_getElem? _ p.descriptors_.length _ en hlast]
    have h2 := records_ok_patch _ _ _ _ p.descriptors_.length
      (p.descriptors_.length - top.position) top.size en h1 hlast hens
    exact ⟨rfl, fun _ => ⟨by simp only; omega, h2⟩⟩

theorem mem_mark_stop (ds : List descriptor) (d : descriptor) (h : d ∈ mark_stop ds) :
    ∃ e ∈ ds, d = e ∨ d = e.set_stop_flag := by
  cases hl : ds.getLast? with
  | none =>
    simp only [mark_stop, hl] at h
    exact ⟨d, h, Or.inl rfl⟩
  | some x =>
    rw [mark_stop_eq ds x hl, List.mem_append, List.mem_singleton] at h
    rcases h with h | h
    · exact ⟨d, List.dropLast_subset ds h, Or.inl rfl⟩
    · exact ⟨x, List.mem_of_getLast?_eq_some hl, Or.inr h⟩

theorem mark_stop_map_position (ds : List descriptor) :
    (mark_stop ds).map descriptor.position = ds.map descriptor.position := by
  have h := congrArg (List.map descriptor.position) (mark_stop_map_unstop ds)
  simp only [List.map_map] at h
  exact h

theorem fresh_record_invariant (options : parser_options) (B : List Nat) (n : Nat)
    (hB : B.length < 4294967296) :
    record_invariant B (bencode.descriptor_parser.state_after n
      ((bencode.descriptor_parser.create options).start B)) := by
  apply state_after_invariant (record_invariant B)
    (fun p q hI hr hs => record_invariant_step B hB p q hI hr hs)
  refine ⟨rfl, fun _ => ⟨Nat.zero_le _, ?_⟩⟩
  refine ⟨Nat.le_refl _, ?_, List.Pairwise.nil, ?_⟩
  · intro d hd
    simp [bencode.descriptor_parser.start] at hd
  · intro f hf
    simp [bencode.descriptor_parser.start, bencode.descriptor_parser.create] at hf

theorem table_records_ok (options : parser_options) (B : List Nat) (t : descriptor_table)
    (q : bencode.descriptor_parser) (hB : B.length < 4294967296)
    (h : (bencode.descriptor_parser.create options).parse B = some (some t, q)) :
    ∃ ds stack, t.descriptors = mark_stop ds ∧ records_ok B B.length ds stack := by
  obtain ⟨n, he, hit, ht⟩ := parse_returns_table _ B t q h
  obtain ⟨hin, hinv⟩ := fresh_record_invariant options B n hB
  obtain ⟨_, hok⟩ := hinv he
  rw [hin] at hit
  rw [hit] at hok
  exact ⟨_, _, by rw [ht], hok⟩

/-- C9: for every input shorter than 2^32 bytes on which a fresh parser returns
a table, the positions of the records strictly increase with the index, every
position is smaller than the length of the input, and the byte at the position
is `i` for an integer, a digit for a string, `l` or `d` for a list or dict
header, and `e` for an end record. -/
theorem lexical_order_of_table (options : parser_options) (B : List Nat)
    (t : descriptor_table) (q : bencode.descriptor_parser) (hB : B.length < 4294967296)
    (h : (bencode.descriptor_parser.create options).parse B = some (some t, q)) :
    lexical_order B t.descriptors := by
  obtain ⟨ds, stack, ht, _, h2, h3, _⟩ := table_records_ok options B t q hB h
  rw [ht]
  constructor
  · have hp : List.Pairwise (fun x y => x < y) ((mark_stop ds).map descriptor.position) := by
      rw [mark_stop_map_position]
      exact List.pairwise_map.mpr h3
    have hp' := List.pairwise_map.mp hp
    rw [List.pairwise_iff_getElem] at hp'
    intro i j a b hij ha hb
    obtain ⟨hi, hai⟩ := List.getElem?_eq_some.mp ha
    obtain ⟨hj, hbj⟩ := List.getElem?_eq_some.mp hb
    have := hp' i j hi hj hij
    rw [hai, hbj] at this
    exact this
  · intro d hd
    obtain ⟨e, he, hde⟩ := mem_mark_stop ds d hd
    obtain ⟨x, y, _⟩ := h2 e he
    rcases hde with hde | hde <;> subst hde
    · exact ⟨x, y⟩
    · exact ⟨x, y⟩

theorem lexical_order_of_table_witness :
    ∃ t q, (bencode.descriptor_parser.create {}).parse (bytes "d3:keyli1e0:ee") =
        some (some t, q) ∧
      lexical_order (bytes "d3:keyli1e0:ee") t.descriptors :=
  ⟨_, _, rfl, lexical_order_of_table {} _ _ _ (by decide) rfl⟩

/-- C10: for every input shorter than 2^32 bytes on which a fresh parser returns
a table, every string record (dict keys included) has
`position + offset + size ≤ length`, the byte at `position + offset - 1` is `:`,
and the bytes from `position` up to that colon are decimal digits whose value
is `size`. -/
theorem string_payload_inside_input (options : parser_options) (B : List Nat)
    (t : descriptor_table) (q : bencode.descriptor_parser) (hB : B.length < 4294967296)
    (h : (bencode.descriptor_parser.create options).parse B = some (some t, q)) :
    strings_inside B t.descriptors := by
  obtain ⟨ds, stack, ht, _, h2, _, _⟩ := table_records_ok options B t q hB h
  rw [ht]
  intro d hd hs
  obtain ⟨e, he, hde⟩ := mem_mark_stop ds d hd
  obtain ⟨_, _, z⟩ := h2 e he
  rcases hde with hde | hde <;> subst hde
  · exact z hs
  · exact z hs

theorem string_payload_inside_input_witness :
    ∃ t q, (bencode.descriptor_parser.create {}).parse (bytes "d3:key5:valuee") =
        some (some t, q) ∧
      strings_inside (bytes "d3:key5:valuee") t.descriptors :=
  ⟨_, _, rfl, string_payload_inside_input {} _ _ _ (by decide) rfl⟩

/-! ## Progress and termination of the loop -/

theorem modify_descriptor_fields (p : bencode.descriptor_parser) (i : Nat)
    (f : descriptor → descriptor) :
    (p.modify_descriptor i f).input = p.input ∧ (p.modify_descriptor i f).it_ = p.it_ ∧
    (p.modify_descriptor i f).stack_ = p.stack_ ∧ (p.modify_descriptor i f).error_ = p.error_ ∧
    (p.modify_descriptor i f).options_ = p.options_ ∧
    (p.modify_descriptor i f).descriptors_.length = p.descriptors_.length := by
  unfold bencode.descriptor_parser.modify_descriptor
  cases p.descriptors_[i]? <;> simp

theorem loop_step_fields (p q : bencode.descriptor_parser) (hs : loop_step p q) :
    q.input = p.input ∧ q.options_ = p.options_ := by
  cases hs with
  | error q2 hq hi ho hst => exact ⟨hi, ho⟩
  | integer v moved hv hc hdec => exact ⟨rfl, rfl⟩
  | string tok moved hv hc hdec => exact ⟨rfl, rfl⟩
  | dict_key top below tok moved hst hstate hc hdec => exact ⟨rfl, rfl⟩
  | open_list hv hc hl => exact ⟨rfl, rfl⟩
  | open_dict hv hc hl => exact ⟨rfl, rfl⟩
  | close top below tag hst hc htag =>
    obtain ⟨a1, _, _, _, a5, _⟩ := modify_descriptor_fields
      (bencode.descriptor_parser.modify_descriptor top.position
        (fun d => (d.set_offset (p.descriptors_.length - top.position)).set_size top.size)
        { p with
          it_ := p.it_ + 1
          descriptors_ := p.descriptors_ ++
            [{ type := descriptor_type.or (descriptor_type.or tag descriptor_type.end_bit)
                  (detail.descriptor_type_modifier (stack_context below))
               position := u32 p.it_ }]
          stack_ := stack_after_nested below }) p.descriptors_.length
      (fun t => (t.set_offset (p.descriptors_.length - top.position)).set_size top.size)
    obtain ⟨b1, _, _, _, b5, _⟩ := modify_descriptor_fields
        { p with
          it_ := p.it_ + 1
          descriptors_ := p.descriptors_ ++
            [{ type := descriptor_type.or (descriptor_type.or tag descriptor_type.end_bit)
                  (detail.descriptor_type_modifier (stack_context below))
               position := u32 p.it_ }]
          stack_ := stack_after_nested below } top.position
        (fun d => (d.set_offset (p.descriptors_.length - top.position)).set_size top.size)
    exact ⟨by rw [a1, b1], by rw [a5, b5]⟩

theorem loop_step_progress (p q : bencode.descriptor_parser) (hr : p.running)
    (hle : p.it_ ≤ p.input.length) (hs : loop_step p q) :
    q.error_ ≠ none ∨ (p.it_ < q.it_ ∧ q.it_ ≤ q.input.length) := by
  obtain ⟨hne, herr, _⟩ := hr
  have hlt : p.it_ < p.input.length := by omega
  cases hs with
  | error q2 hq hi ho hst => exact Or.inl hq
  | integer v moved hv hc hdec =>
    obtain ⟨hm2, hmr⟩ := bdecode_integer_ok _ _ _ hdec
    rw [remaining_length_eq] at hmr
    right
    simp only
    omega
  | string tok moved hv hc hdec =>
    obtain ⟨h1, h2, h3, _⟩ := bdecode_string_token_ok _ _ _ hdec
    rw [remaining_length_eq] at h3
    right
    simp only
    omega
  | dict_key top below tok moved hst hstate hc hdec =>
    obtain ⟨h1, h2, h3, _⟩ := bdecode_string_token_ok _ _ _ hdec
    rw [remaining_length_eq] at h3
    right
    simp only
    omega
  | open_list hv hc hl =>
    right
    simp only
    omega
  | open_dict hv hc hl =>
    right
    simp only
    omega
  | close top below tag hst hc htag =>
    obtain ⟨a1, a2, _, _, _, _⟩ := modify_descriptor_fields
      (bencode.descriptor_parser.modify_descriptor top.position
        (fun d => (d.set_offset (p.descriptors_.length - top.position)).set_size top.size)
        { p with
          it_ := p.it_ + 1
          descriptors_ := p.descriptors_ ++
            [{ type := descriptor_type.or (descriptor_type.or tag descriptor_type.end_bit)
                  (detail.descriptor_type_modifier (stack_context below))
               position := u32 p.it_ }]
          stack_ := stack_after_nested below }) p.descriptors_.length
      (fun t => (t.set_offset (p.descriptors_.length - top.position)).set_size top.size)
    obtain ⟨b1, b2, _, _, _, _⟩ := modify_descriptor_fields
        { p with
          it_ := p.it_ + 1
          descriptors_ := p.descriptors_ ++
            [{ type := descriptor_type.or (descriptor_type.or tag descriptor_type.end_bit)
                  (detail.descriptor_type_modifier (stack_context below))
               position := u32 p.it_ }]
          stack_ := stack_after_nested below } top.position
        (fun d => (d.set_offset (p.descriptors_.length - top.position)).set_size top.size)
    right
    rw [a1, a2, b1, b2]
    simp only
    omega

theorem work_left_decreases (p : bencode.descriptor_parser) (hr : p.running)
    (hle : p.error_ = none → p.it_ ≤ p.input.length) :
    (p.loop_body.error_ = none → p.loop_body.it_ ≤ p.loop_body.input.length) ∧
      p.loop_body.work_left < p.work_left := by
  have herr := hr.2.1
  have hne := hr.1
  have hle' := hle herr
  have hs := loop_body_step p
  obtain ⟨hin, _⟩ := loop_step_fields p _ hs
  have hw : p.work_left = p.input.length - p.it_ := by
    simp [bencode.descriptor_parser.work_left, herr]
  rcases loop_step_progress p _ hr hle' hs with h | ⟨h1, h2⟩
  · refine ⟨fun h0 => absurd h0 h, ?_⟩
    rw [hw]
    simp only [bencode.descriptor_parser.work_left, h, if_false]
    omega
  · refine ⟨fun _ => h2, ?_⟩
    rw [hw]
    unfold bencode.descriptor_parser.work_left
    split
    · rw [hin] at h2 ⊢
      omega
    · omega

/-- With more fuel than work left the loop returns. -/
theorem parse_loop_fuel_total (fuel : Nat) (p : bencode.descriptor_parser)
    (hle : p.error_ = none → p.it_ ≤ p.input.length) (hf : p.work_left < fuel) :
    ∃ r, bencode.descriptor_parser.parse_loop_fuel fuel p = some r := by
  induction fuel generalizing p with
  | zero => omega
  | succ fuel ih =>
    rw [parse_loop_fuel_unfold]
    by_cases hr : p.running
    · rw [if_pos hr]
      obtain ⟨h1, h2⟩ := work_left_decreases p hr hle
      exact ih _ h1 (by omega)
    · rw [if_neg hr]
      exact ⟨_, rfl⟩

theorem parse_loop_total (p : bencode.descriptor_parser)
    (hle : p.it_ ≤ p.input.length) : ∃ r, p.parse_loop = some r := by
  apply parse_loop_fuel_total _ p (fun _ => hle)
  unfold bencode.descriptor_parser.work_left
  split <;> omega

theorem state_after_not_running (n : Nat) (p : bencode.descriptor_parser) (h : ¬ p.running) :
    bencode.descriptor_parser.state_after n p = p := by
  cases n with
  | zero => rfl
  | succ n => simp [bencode.descriptor_parser.state_after, h]

theorem state_after_add (n m : Nat) (p : bencode.descriptor_parser) :
    bencode.descriptor_parser.state_after (n + m) p =
      bencode.descriptor_parser.state_after m (bencode.descriptor_parser.state_after n p) := by
  induction n generalizing p with
  | zero => simp [bencode.descriptor_parser.state_after]
  | succ n ih =>
    rw [Nat.add_right_comm]
    by_cases hr : p.running
    · simp only [bencode.descriptor_parser.state_after, hr, if_true]
      exact ih _
    · simp only [bencode.descriptor_parser.state_after, hr, if_false]
      exact (state_after_not_running m p hr).symm

theorem final_state_unique (n m : Nat) (p : bencode.descriptor_parser)
    (hn : ¬ (bencode.descriptor_parser.state_after n p).running)
    (hm : ¬ (bencode.descriptor_parser.state_after m p).running) :
    bencode.descriptor_parser.state_after n p = bencode.descriptor_parser.state_after m p := by
  rcases Nat.le_total n m with h | h
  · obtain ⟨k, rfl⟩ := Nat.exists_eq_add_of_le h
    rw [state_after_add, state_after_not_running k _ hn]
  · obtain ⟨k, rfl⟩ := Nat.exists_eq_add_of_le h
    rw [state_after_add, state_after_not_running k _ hm]

/-- The loop returns what the exit code makes of the state in which it stopped. -/
theorem parse_loop_of_final_state (p : bencode.descriptor_parser) (n : Nat)
    (hle : p.it_ ≤ p.input.length)
    (hn : ¬ (bencode.descriptor_parser.state_after n p).running) :
    p.parse_loop = some (bencode.descriptor_parser.state_after n p).exit_result := by
  obtain ⟨r, hr⟩ := parse_loop_total p hle
  obtain ⟨m, hm, hres⟩ := parse_loop_fuel_result _ _ _ hr
  rw [hr, hres, final_state_unique n m p hn hm]

/-! ## The recursion limit -/

theorem stack_depth_step (L : Nat) (p q : bencode.descriptor_parser)
    (hI : p.options_.recursion_limit = L ∧ p.stack_.length ≤ L) (hs : loop_step p q) :
    q.options_.recursion_limit = L ∧ q.stack_.length ≤ L := by
  obtain ⟨hL, hlen⟩ := hI
  obtain ⟨_, ho⟩ := loop_step_fields p q hs
  refine ⟨by rw [ho]; exact hL, ?_⟩
  cases hs with
  | error q2 hq hi ho hst => rw [hst]; exact hlen
  | integer v moved hv hc hdec =>
    simp only
    cases hst : p.stack_ with
    | nil => simp [stack_counted]
    | cons top below => rw [hst] at hlen; simpa [stack_counted] using hlen
  | string tok moved hv hc hdec =>
    simp only
    cases hst : p.stack_ with
    | nil => simp [stack_counted]
    | cons top below => rw [hst] at hlen; simpa [stack_counted] using hlen
  | dict_key top below tok moved hst hstate hc hdec =>
    rw [hst] at hlen
    simpa using hlen
  | open_list hv hc hl =>
    simp only [List.length_cons]
    omega
  | open_dict hv hc hl =>
    simp only [List.length_cons]
    omega
  | close top below tag hst hc htag =>
    obtain ⟨_, _, a3, _, _, _⟩ := modify_descriptor_fields
      (bencode.descriptor_parser.modify_descriptor top.position
        (fun d => (d.set_offset (p.descriptors_.length - top.position)).set_size top.size)
        { p with
          it_ := p.it_ + 1
          descriptors_ := p.descriptors_ ++
            [{ type := descriptor_type.or (descriptor_type.or tag descriptor_type.end_bit)
                  (detail.descriptor_type_modifier (stack_context below))
               position := u32 p.it_ }]
          stack_ := stack_after_nested below }) p.descriptors_.length
      (fun t => (t.set_offset (p.descriptors_.length - top.position)).set_size top.size)
    obtain ⟨_, _, b3, _, _, _⟩ := modify_descriptor_fields
        { p with
          it_ := p.it_ + 1
          descriptors_ := p.descriptors_ ++
            [{ type := descriptor_type.or (descriptor_type.or tag descriptor_type.end_bit)
                  (detail.descriptor_type_modifier (stack_context below))
               position := u32 p.it_ }]
          stack_ := stack_after_nested below } top.position
        (fun d => (d.set_offset (p.descriptors_.length - top.position)).set_size top.size)
    rw [a3, b3]
    rw [hst] at hlen
    simp only [List.length_cons] at hlen
    cases below with
    | nil => simp [stack_after_nested]
    | cons b bs =>
      simp only [stack_after_nested, List.length_cons] at hlen ⊢
      omega

theorem opener_at_limit (p : bencode.descriptor_parser) (hv : value_stack p.stack_)
    (hc : p.peek = symbol.begin_list ∨ p.peek = symbol.begin_dict)
    (hl : p.stack_.length = p.options_.recursion_limit) :
    p.loop_body = p.set_error parsing_errc.recursion_depth_exceeded none := by
  have hi : p.peek ≠ symbol.begin_integer := by
    rcases hc with h | h <;> rw [h] <;> decide
  have he : p.peek ≠ symbol.end_ := by
    rcases hc with h | h <;> rw [h] <;> decide
  unfold bencode.descriptor_parser.loop_body
  cases hs : p.stack_ with
  | nil =>
    rcases hc with h | h
    · simp [bencode.descriptor_parser.handle_value, h, symbol.begin_integer, symbol.begin_list,
        bencode.descriptor_parser.handle_list_begin, hl]
    · simp [bencode.descriptor_parser.handle_value, h, symbol.begin_integer, symbol.begin_list,
        symbol.begin_dict, bencode.descriptor_parser.handle_dict_begin, hl]
  | cons top below =>
    simp only [value_stack, hs] at hv
    rcases hv with hst | hst <;> rcases hc with h | h <;>
      simp [hst, h, bencode.descriptor_parser.handle_value, symbol.begin_integer,
        symbol.begin_list, symbol.begin_dict, symbol.end_,
        bencode.descriptor_parser.handle_list_begin,
        bencode.descriptor_parser.handle_dict_begin, hl]

theorem fresh_stack_depth (options : parser_options) (B : List Nat) (n : Nat) :
    (bencode.descriptor_parser.state_after n
      ((bencode.descriptor_parser.create options).start B)).options_.recursion_limit =
        options.recursion_limit ∧
    (bencode.descriptor_parser.state_after n
      ((bencode.descriptor_parser.create options).start B)).stack_.length ≤
        options.recursion_limit :=
  state_after_invariant
    (fun p => p.options_.recursion_limit = options.recursion_limit ∧
      p.stack_.length ≤ options.recursion_limit)
    (fun p q hI _ hs => stack_depth_step options.recursion_limit p q hI hs) n _
    ⟨rfl, Nat.zero_le _⟩

theorem parse_of_error_state (p0 : bencode.descriptor_parser) (B : List Nat) (n : Nat)
    (q : bencode.descriptor_parser)
    (hq : bencode.descriptor_parser.state_after n (p0.start B) = q) (he : q.error_ ≠ none) :
    p0.parse B = some (none, q) := by
  have hnr : ¬ (bencode.descriptor_parser.state_after n (p0.start B)).running := by
    rw [hq]
    intro h
    exact he h.2.1
  have hl := parse_loop_of_final_state (p0.start B) n (Nat.zero_le _) hnr
  rw [hq] at hl
  have hex : q.exit_result = (false, q) := by
    unfold bencode.descriptor_parser.exit_result bencode.descriptor_parser.finish
    have h1 : ¬ (q.it_ ≠ q.input.length ∧ q.error_ = none) := fun h => he h.2
    have h2 : q.error_.isSome = true := by
      cases hh : q.error_ with
      | none => exact absurd hh he
      | some e => rfl
    rw [if_neg h1, if_pos h2]
  rw [hex] at hl
  unfold bencode.descriptor_parser.parse
  unfold bencode.descriptor_parser.start at hl
  simp only [hl, Bool.not_false, if_true]

/-- C4: with recursion limit `L`, (1) in every state the loop of a fresh parser
reaches on any input at most `L` containers are open; (2) a valid input, whose
nesting depth is therefore at most `L`, is parsed into a table and no error is
recorded; (3) when the loop reaches, with `L` containers open, a byte `l` or `d`
at a place where a value may start, `parse` returns no table, the error is
`recursion_depth_exceeded` at the position of that byte, and no record was
appended for it. -/
theorem recursion_limit_enforced :
    (∀ (options : parser_options) (B : List Nat) (n : Nat),
      (bencode.descriptor_parser.state_after n
        ((bencode.descriptor_parser.create options).start B)).stack_.length ≤
          options.recursion_limit) ∧
    (∀ (v : bvalue) (options : parser_options), v.valid_for options →
      ∃ t q, (bencode.descriptor_parser.create options).parse v.wire = some (some t, q) ∧
        q.error_ = none) ∧
    (∀ (options : parser_options) (B : List Nat) (n : Nat) (p : bencode.descriptor_parser),
      p = bencode.descriptor_parser.state_after n
        ((bencode.descriptor_parser.create options).start B) →
      p.running → value_stack p.stack_ →
      (p.peek = symbol.begin_list ∨ p.peek = symbol.begin_dict) →
      p.stack_.length = options.recursion_limit →
      ∃ q, (bencode.descriptor_parser.create options).parse B = some (none, q) ∧
        q.error_ = some { errc := parsing_errc.recursion_depth_exceeded, position := p.it_
                          context := none } ∧
        q.descriptors_ = p.descriptors_) := by
  refine ⟨fun options B n => (fresh_stack_depth options B n).2, ?_, ?_⟩
  · intro v options h
    obtain ⟨q, hq, he, _⟩ := parse_valid v options h
    exact ⟨_, q, hq, he⟩
  · intro options B n p hp hr hv hc hl
    have hopt := (fresh_stack_depth options B n).1
    rw [← hp] at hopt
    have hbody := opener_at_limit p hv hc (by rw [hl, hopt])
    refine ⟨p.set_error parsing_errc.recursion_depth_exceeded none, ?_, rfl, rfl⟩
    apply parse_of_error_state _ B (n + 1)
    · rw [state_after_add, ← hp]
      simp [bencode.descriptor_parser.state_after, hr, hbody]
    · simp [bencode.descriptor_parser.set_error]

theorem recursion_limit_enforced_witness :
    (bencode.descriptor_parser.state_after 2
      ((bencode.descriptor_parser.create { recursion_limit := 2 }).start
        (bytes "llleee"))).stack_.length ≤ 2 ∧
    (sample_nested_list.valid_for {} ∧
      ∃ t q, (bencode.descriptor_parser.create {}).parse sample_nested_list.wire =
        some (some t, q) ∧ q.error_ = none) ∧
    ∃ q, (bencode.descriptor_parser.create { recursion_limit := 2 }).parse (bytes "llleee") =
        some (none, q) ∧
      q.error_ = some { errc := parsing_errc.recursion_depth_exceeded, position := 2
                        context := none } ∧
      q.descriptors_.length = 2 :=
  ⟨recursion_limit_enforced.1 { recursion_limit := 2 } (bytes "llleee") 2,
    ⟨sample_nested_list_valid,
      recursion_limit_enforced.2.1 sample_nested_list {} sample_nested_list_valid⟩,
    by
      obtain ⟨q, h1, h2, h3⟩ := recursion_limit_enforced.2.2 { recursion_limit := 2 }
        (bytes "llleee") 2 _ rfl (by decide) (by decide) (by decide) (by decide)
      exact ⟨q, h1, h2, by rw [h3]; decide⟩⟩

/-! ## Errors raised by the dispatch of the loop -/

theorem fresh_fields (options : parser_options) (B : List Nat) (n : Nat) :
    (bencode.descriptor_parser.state_after n
      ((bencode.descriptor_parser.create options).start B)).input = B ∧
    (bencode.descriptor_parser.state_after n
      ((bencode.descriptor_parser.create options).start B)).options_ = options :=
  state_after_invariant (fun p => p.input = B ∧ p.options_ = options)
    (fun p q hI _ hs => by
      obtain ⟨h1, h2⟩ := loop_step_fields p q hs
      exact ⟨by rw [h1]; exact hI.1, by rw [h2]; exact hI.2⟩) n _ ⟨rfl, rfl⟩

theorem reads_byte_running (options : parser_options) (B : List Nat) (n : Nat)
    (p : bencode.descriptor_parser) (c : Nat) (h : reads_byte options B n p c) :
    p.running ∧ p.peek = c ∧ p.input = B ∧ p.options_ = options ∧ p.remaining = B.drop p.it_ := by
  obtain ⟨hp, he, hl, hc⟩ := h
  obtain ⟨hin, hopt⟩ := fresh_fields options B n
  rw [← hp] at hin hopt
  have hlt : p.it_ < B.length := (List.getElem?_eq_some.mp hc).1
  have hpk := peek_eq_getElem? p (by rw [hin]; exact hlt)
  rw [hin, hc] at hpk
  refine ⟨⟨by rw [hin]; omega, he, by rw [hopt]; exact hl⟩, ?_, hin, hopt, ?_⟩
  · exact (Option.some.inj hpk).symm
  · rw [bencode.descriptor_parser.remaining, hin]

theorem parse_of_failing_pass (options : parser_options) (B : List Nat) (n : Nat)
    (p : bencode.descriptor_parser)
    (hp : p = bencode.descriptor_parser.state_after n
      ((bencode.descriptor_parser.create options).start B))
    (hr : p.running) (he : p.loop_body.error_ ≠ none) :
    (bencode.descriptor_parser.create options).parse B = some (none, p.loop_body) := by
  apply parse_of_error_state _ B (n + 1) _ _ he
  rw [state_after_add, ← hp]
  simp [bencode.descriptor_parser.state_after, hr]

theorem no_error_before (n m : Nat) (p0 : bencode.descriptor_parser) (hm : m ≤ n)
    (h : (bencode.descriptor_parser.state_after n p0).error_ = none) :
    (bencode.descriptor_parser.state_after m p0).error_ = none := by
  obtain ⟨k, rfl⟩ := Nat.exists_eq_add_of_le hm
  by_contra hne
  have hnr : ¬ (bencode.descriptor_parser.state_after m p0).running := fun hr => hne hr.2.1
  rw [state_after_add, state_after_not_running k _ hnr] at h
  exact hne h

theorem expect_dict_key_other_byte (p : bencode.descriptor_parser)
    (top : detail.descriptor_parser_stack_frame)
    (below : List detail.descriptor_parser_stack_frame)
    (hs : p.stack_ = top :: below) (hst : top.state = parser_state.expect_dict_key)
    (hd : symbol.digit p.peek = false) (he : p.peek ≠ symbol.end_) :
    p.loop_body =
      p.set_error parsing_errc.expected_dict_key_or_end (some bencode_type.dict) := by
  simp [bencode.descriptor_parser.loop_body, hs, hst, hd, he]

theorem expect_dict_value_end_byte (p : bencode.descriptor_parser)
    (top : detail.descriptor_parser_stack_frame)
    (below : List detail.descriptor_parser_stack_frame)
    (hs : p.stack_ = top :: below) (hst : top.state = parser_state.expect_dict_value)
    (he : p.peek = symbol.end_) :
    p.loop_body = p.set_error parsing_errc.expected_dict_value (some bencode_type.dict) := by
  simp [bencode.descriptor_parser.loop_body, hs, hst, he]

theorem handle_value_other_byte (p : bencode.descriptor_parser) (st : parser_state)
    (hi : p.peek ≠ symbol.begin_integer) (hl : p.peek ≠ symbol.begin_list)
    (hd : p.peek ≠ symbol.begin_dict) (hg : symbol.digit p.peek = false) :
    (p.handle_value st).2 = p.set_error parsing_errc.expected_value
      (match st with
        | parser_state.expect_list_value => some bencode_type.list
        | parser_state.expect_dict_value => some bencode_type.dict
        | _ => none) := by
  cases st <;> simp [bencode.descriptor_parser.handle_value, hi, hl, hd, hg]

theorem expect_value_other_byte (p : bencode.descriptor_parser) (hv : value_stack p.stack_)
    (hi : p.peek ≠ symbol.begin_integer) (hl : p.peek ≠ symbol.begin_list)
    (hd : p.peek ≠ symbol.begin_dict) (hg : symbol.digit p.peek = false)
    (he : p.stack_ ≠ [] → p.peek ≠ symbol.end_) :
    p.loop_body = p.set_error parsing_errc.expected_value (value_error_context p.stack_) := by
  cases hs : p.stack_ with
  | nil =>
    have := handle_value_other_byte p parser_state.expect_value hi hl hd hg
    simp only [bencode.descriptor_parser.loop_body, hs, this, value_error_context, stack_context]
  | cons top below =>
    have hne : p.peek ≠ symbol.end_ := he (by rw [hs]; simp)
    simp only [value_stack, hs] at hv
    rcases hv with hst | hst
    · have := handle_value_other_byte p parser_state.expect_list_value hi hl hd hg
      simp only [bencode.descriptor_parser.loop_body, hs, hst, hne, if_false, this,
        value_error_context, stack_context]
    · have := handle_value_other_byte p parser_state.expect_dict_value hi hl hd hg
      simp only [bencode.descriptor_parser.loop_body, hs, hst, hne, if_false, this,
        value_error_context, stack_context]

theorem integer_token_failure (p : bencode.descriptor_parser) (hv : value_stack p.stack_)
    (hc : p.peek = symbol.begin_integer) (ec : parsing_errc) (moved : Nat)
    (hdec : bdecode_integer p.remaining = Except.error (ec, moved)) :
    p.loop_body.error_ =
      some { errc := ec, position := p.it_ + moved, context := some bencode_type.integer } := by
  have he : p.peek ≠ symbol.end_ := by rw [hc]; decide
  cases hs : p.stack_ with
  | nil =>
    simp [bencode.descriptor_parser.loop_body, hs, bencode.descriptor_parser.handle_value, hc,
      bencode.descriptor_parser.handle_integer, hdec, bencode.descriptor_parser.dispatch,
      bencode.descriptor_parser.set_error, bencode.descriptor_parser.current_position]
  | cons top below =>
    simp only [value_stack, hs] at hv
    rcases hv with hst | hst <;>
      simp [bencode.descriptor_parser.loop_body, hs, hst, he, symbol.begin_integer, symbol.end_,
        bencode.descriptor_parser.handle_value, hc,
        bencode.descriptor_parser.handle_integer, hdec, bencode.descriptor_parser.dispatch,
        bencode.descriptor_parser.set_error, bencode.descriptor_parser.current_position]

theorem digit_not_opener (c : Nat) (h : symbol.digit c = true) :
    c ≠ symbol.begin_integer ∧ c ≠ symbol.begin_list ∧ c ≠ symbol.begin_dict ∧
      c ≠ symbol.end_ := by
  simp only [symbol.digit, Bool.and_eq_true, decide_eq_true_eq] at h
  simp only [symbol.begin_integer, symbol.begin_list, symbol.begin_dict, symbol.end_]
  omega

theorem string_token_failure (p : bencode.descriptor_parser) (hv : value_stack p.stack_)
    (hc : symbol.digit p.peek = true) (ec : parsing_errc) (moved : Nat)
    (hdec : bdecode_string_token p.remaining = Except.error (ec, moved)) :
    p.loop_body.error_ =
      some { errc := ec, position := p.it_ + moved, context := some bencode_type.string } := by
  obtain ⟨h1, h2, h3, h4⟩ := digit_not_opener _ hc
  cases hs : p.stack_ with
  | nil =>
    simp [bencode.descriptor_parser.loop_body, hs, bencode.descriptor_parser.handle_value, hc,
      h1, h2, h3,
      bencode.descriptor_parser.handle_string, hdec, bencode.descriptor_parser.dispatch,
      bencode.descriptor_parser.set_error, bencode.descriptor_parser.current_position]
  | cons top below =>
    simp only [value_stack, hs] at hv
    rcases hv with hst | hst <;>
      simp [bencode.descriptor_parser.loop_body, hs, hst, h4,
        bencode.descriptor_parser.handle_value, hc, h1, h2, h3,
        bencode.descriptor_parser.handle_string, hdec, bencode.descriptor_parser.dispatch,
        bencode.descriptor_parser.set_error, bencode.descriptor_parser.current_position]

theorem dict_key_token_failure (p : bencode.descriptor_parser)
    (top : detail.descriptor_parser_stack_frame)
    (below : List detail.descriptor_parser_stack_frame)
    (hs : p.stack_ = top :: below) (hst : top.state = parser_state.expect_dict_key)
    (hc : symbol.digit p.peek = true) (ec : parsing_errc) (moved : Nat)
    (hdec : bdecode_string_token p.remaining = Except.error (ec, moved)) :
    p.loop_body.error_ =
      some { errc := ec, position := p.it_ + moved, context := some bencode_type.string } := by
  simp [bencode.descriptor_parser.loop_body, hs, hst, hc,
    bencode.descriptor_parser.handle_dict_key, hdec,
    bencode.descriptor_parser.set_error, bencode.descriptor_parser.current_position]

/-! ## Records with the `dict_key` modifier -/

theorem value_stack_modifier_key (s : List detail.descriptor_parser_stack_frame)
    (hv : value_stack s) :
    (detail.descriptor_type_modifier (stack_context s)).dict_key = false := by
  cases s with
  | nil => rfl
  | cons top below =>
    simp only [value_stack] at hv
    rcases hv with h | h <;> simp [stack_context, h, detail.descriptor_type_modifier,
      descriptor_type.list_value_bit, descriptor_type.dict_value_bit]

theorem dict_keys_are_strings_append (ds : List descriptor) (r : descriptor)
    (h : dict_keys_are_strings ds) (hr : r.type.dict_key = true → r.type.tag = descriptor_tag.string) :
    dict_keys_are_strings (ds ++ [r]) := by
  intro d hd
  rw [List.mem_append, List.mem_singleton] at hd
  rcases hd with hd | hd
  · exact h d hd
  · subst hd
    exact hr

theorem modify_descriptor_types (p : bencode.descriptor_parser) (i : Nat)
    (f : descriptor → descriptor) (hf : ∀ d, (f d).type = d.type) :
    ∀ d ∈ (p.modify_descriptor i f).descriptors_, ∃ e ∈ p.descriptors_, d.type = e.type := by
  intro d hd
  unfold bencode.descriptor_parser.modify_descriptor at hd
  cases hg : p.descriptors_[i]? with
  | none =>
    rw [hg] at hd
    exact ⟨d, hd, rfl⟩
  | some x =>
    rw [hg] at hd
    simp only at hd
    obtain ⟨j, hj, hjd⟩ := List.getElem_of_mem hd
    rw [List.length_set] at hj
    rw [List.getElem_set] at hjd
    by_cases hij : i = j
    · rw [if_pos hij] at hjd
      refine ⟨x, List.getElem?_mem hg, ?_⟩
      rw [← hjd]
      exact hf x
    · rw [if_neg hij] at hjd
      exact ⟨p.descriptors_[j], List.getElem_mem hj, by rw [hjd]⟩

theorem dict_keys_are_strings_of_types (ds es : List descriptor)
    (h : dict_keys_are_strings es) (ht : ∀ d ∈ ds, ∃ e ∈ es, d.type = e.type) :
    dict_keys_are_strings ds := by
  intro d hd hk
  obtain ⟨e, he, hde⟩ := ht d hd
  rw [hde] at hk ⊢
  exact h e he hk

theorem dict_key_invariant_step (p q : bencode.descriptor_parser)
    (hI : p.error_ = none →
      inner_frames_expect_values p.stack_ ∧ dict_keys_are_strings p.descriptors_)
    (hr : p.running) (hs : loop_step p q) :
    q.error_ = none →
      inner_frames_expect_values q.stack_ ∧ dict_keys_are_strings q.descriptors_ := by
  obtain ⟨hin, hkeys⟩ := hI hr.2.1
  have hcounted : inner_frames_expect_values (stack_counted p.stack_) := by
    cases hst : p.stack_ with
    | nil => simp [stack_counted, inner_frames_expect_values]
    | cons top below =>
      rw [hst] at hin
      simpa [stack_counted, inner_frames_expect_values] using hin
  cases hs with
  | error q2 hq hi ho hst => exact fun h => absurd h hq
  | integer v moved hv hc hdec =>
    intro _
    refine ⟨hcounted, dict_keys_are_strings_append _ _ hkeys ?_⟩
    intro hk
    simp [descriptor_type.or, descriptor_type.integer, value_stack_modifier_key _ hv] at hk
  | string tok moved hv hc hdec =>
    intro _
    refine ⟨hcounted, dict_keys_are_strings_append _ _ hkeys ?_⟩
    intro _
    simp [descriptor_type.or, descriptor_type.string]
  | dict_key top below tok moved hst hstate hc hdec =>
    intro _
    refine ⟨?_, dict_keys_are_strings_append _ _ hkeys ?_⟩
    · rw [hst] at hin
      simpa [inner_frames_expect_values] using hin
    · intro _
      simp [descriptor_type.or, descriptor_type.string]
  | open_list hv hc hl =>
    intro _
    refine ⟨?_, dict_keys_are_strings_append _ _ hkeys ?_⟩
    · intro f hf
      simp only [List.tail_cons] at hf
      cases hst : p.stack_ with
      | nil => rw [hst] at hf; simp at hf
      | cons top below =>
        rw [hst] at hf hv hin
        simp only [value_stack] at hv
        rcases List.mem_cons.mp hf with h | h
        · rw [h]; exact hv
        · exact hin f (by simpa using h)
    · intro hk
      simp [descriptor_type.or, descriptor_type.list, value_stack_modifier_key _ hv] at hk
  | open_dict hv hc hl =>
    intro _
    refine ⟨?_, dict_keys_are_strings_append _ _ hkeys ?_⟩
    · intro f hf
      simp only [List.tail_cons] at hf
      cases hst : p.stack_ with
      | nil => rw [hst] at hf; simp at hf
      | cons top below =>
        rw [hst] at hf hv hin
        simp only [value_stack] at hv
        rcases List.mem_cons.mp hf with h | h
        · rw [h]; exact hv
        · exact hin f (by simpa using h)
    · intro hk
      simp [descriptor_type.or, descriptor_type.dict, value_stack_modifier_key _ hv] at hk
  | close top below tag hst hc htag =>
    intro _
    rw [hst] at hin
    have hbelow : value_stack below := by
      cases hb : below with
      | nil => trivial
      | cons b bs =>
        rw [hb] at hin
        exact hin b (by simp)
    obtain ⟨_, _, a3, _, _, _⟩ := modify_descriptor_fields
      (bencode.descriptor_parser.modify_descriptor top.position
        (fun d => (d.set_offset (p.descriptors_.length - top.position)).set_size top.size)
        { p with
          it_ := p.it_ + 1
          descriptors_ := p.descriptors_ ++
            [{ type := descriptor_type.or (descriptor_type.or tag descriptor_type.end_bit)
                  (detail.descriptor_type_modifier (stack_context below))
               position := u32 p.it_ }]
          stack_ := stack_after_nested below }) p.descriptors_.length
      (fun t => (t.set_offset (p.descriptors_.length - top.position)).set_size top.size)
    obtain ⟨_, _, b3, _, _, _⟩ := modify_descriptor_fields
        { p with
          it_ := p.it_ + 1
          descriptors_ := p.descriptors_ ++
            [{ type := descriptor_type.or (descriptor_type.or tag descriptor_type.end_bit)
                  (detail.descriptor_type_modifier (stack_context below))
               position := u32 p.it_ }]
          stack_ := stack_after_nested below } top.position
        (fun d => (d.set_offset (p.descriptors_.length - top.position)).set_size top.size)
    refine ⟨?_, ?_⟩
    · rw [a3, b3]
      cases hb : below with
      | nil => simp [stack_after_nested, inner_frames_expect_values]
      | cons b bs =>
        rw [hb] at hin
        intro f hf
        simp only [stack_after_nested, List.tail_cons] at hf
        exact hin f (by simp [hf])
    · refine dict_keys_are_strings_of_types _ _ ?_ (modify_descriptor_types _ _ _ ?_)
      swap
      · intro d; rfl
      refine dict_keys_are_strings_of_types _ _ ?_ (modify_descriptor_types _ _ _ ?_)
      swap
      · intro d; rfl
      apply dict_keys_are_strings_append _ _ hkeys
      intro hk
      rcases htag with ⟨_, ht⟩ | ⟨_, ht⟩ <;>
        simp [ht, descriptor_type.or, descriptor_type.list, descriptor_type.dict,
          descriptor_type.end_bit, value_stack_modifier_key _ hbelow] at hk

theorem fresh_dict_key_invariant (options : parser_options) (B : List Nat) (n : Nat) :
    (bencode.descriptor_parser.state_after n
      ((bencode.descriptor_parser.create options).start B)).error_ = none →
    dict_keys_are_strings (bencode.descriptor_parser.state_after n
      ((bencode.descriptor_parser.create options).start B)).descriptors_ := by
  intro he
  have := state_after_invariant
    (fun p => p.error_ = none →
      inner_frames_expect_values p.stack_ ∧ dict_keys_are_strings p.descriptors_)
    (fun p q hI hr hs => dict_key_invariant_step p q hI hr hs) n
    ((bencode.descriptor_parser.create options).start B)
    (fun _ => ⟨by simp [bencode.descriptor_parser.start, bencode.descriptor_parser.create,
        inner_frames_expect_values],
      by simp [bencode.descriptor_parser.start, dict_keys_are_strings]⟩)
  exact (this he).2

theorem dict_keys_are_strings_mark_stop (ds : List descriptor)
    (h : dict_keys_are_strings ds) : dict_keys_are_strings (mark_stop ds) := by
  intro d hd hk
  obtain ⟨e, he, hde⟩ := mem_mark_stop ds d hd
  rcases hde with hde | hde
  · rw [hde] at hk ⊢; exact h e he hk
  · rw [hde] at hk ⊢; exact h e he hk

/-! ## Grammar errors and token errors -/

/-- C11: (1) when the loop of a fresh parser comes, with no error recorded and
the value-limit check passed, to a byte `c` at offset `p.it_` while the top
frame expects a dict key, and `c` is neither a decimal digit nor `e`, then
`parse` returns no table and the error is `expected_dict_key_or_end` with
context dict at the offset of that byte; (2) in every table a fresh parser
returns, every record with the `dict_key` modifier has primary type string. -/
theorem dict_key_errors :
    (∀ (options : parser_options) (B : List Nat) (n : Nat) (p : bencode.descriptor_parser)
        (c : Nat),
      reads_byte options B n p c →
      stack_context p.stack_ = parser_state.expect_dict_key →
      symbol.digit c = false → c ≠ symbol.end_ →
      ∃ q, (bencode.descriptor_parser.create options).parse B = some (none, q) ∧
        q.error_ = some { errc := parsing_errc.expected_dict_key_or_end, position := p.it_
                          context := some bencode_type.dict }) ∧
    (∀ (options : parser_options) (B : List Nat) (t : descriptor_table)
        (q : bencode.descriptor_parser),
      (bencode.descriptor_parser.create options).parse B = some (some t, q) →
      dict_keys_are_strings t.descriptors) := by
  constructor
  · intro options B n p c hrb hctx hd he
    obtain ⟨hr, hpk, _, _, _⟩ := reads_byte_running options B n p c hrb
    obtain ⟨top, below, hs⟩ : ∃ top below, p.stack_ = top :: below := by
      cases hs : p.stack_ with
      | nil => rw [hs] at hctx; cases hctx
      | cons top below => exact ⟨top, below, rfl⟩
    have hst : top.state = parser_state.expect_dict_key := by
      rw [hs] at hctx
      exact hctx
    have hbody := expect_dict_key_other_byte p top below hs hst (by rw [hpk]; exact hd)
      (by rw [hpk]; exact he)
    refine ⟨p.loop_body, parse_of_failing_pass options B n p hrb.1 hr ?_, ?_⟩
    · rw [hbody]
      simp [bencode.descriptor_parser.set_error]
    · rw [hbody]
      rfl
  · intro options B t q h
    obtain ⟨n, he, _, ht⟩ := parse_returns_table _ B t q h
    rw [ht]
    exact dict_keys_are_strings_mark_stop _ (fresh_dict_key_invariant options B n he)

theorem dict_key_errors_witness :
    (∃ q, (bencode.descriptor_parser.create {}).parse (bytes "d3:fooi1ei2ee") = some (none, q) ∧
      q.error_ = some { errc := parsing_errc.expected_dict_key_or_end, position := 9
                        context := some bencode_type.dict }) ∧
    ∃ t q, (bencode.descriptor_parser.create {}).parse (bytes "d3:fooli1eee") =
        some (some t, q) ∧ dict_keys_are_strings t.descriptors :=
  ⟨dict_key_errors.1 {} (bytes "d3:fooi1ei2ee") 3
      (bencode.descriptor_parser.state_after 3
        ((bencode.descriptor_parser.create {}).start (bytes "d3:fooi1ei2ee"))) 105
      ⟨rfl, rfl, by decide, rfl⟩ rfl rfl (by decide),
    ⟨_, _, rfl, dict_key_errors.2 {} (bytes "d3:fooli1eee") _ _ rfl⟩⟩

theorem dict_key_pass (p : bencode.descriptor_parser)
    (top : detail.descriptor_parser_stack_frame)
    (below : List detail.descriptor_parser_stack_frame)
    (hs : p.stack_ = top :: below) (hst : top.state = parser_state.expect_dict_key)
    (hc : symbol.digit p.peek = true) (tok : string_token) (moved : Nat)
    (hdec : bdecode_string_token p.remaining = Except.ok (tok, moved)) :
    p.loop_body.it_ = p.it_ + moved ∧ p.loop_body.error_ = p.error_ ∧
      p.loop_body.descriptors_.length = p.descriptors_.length + 1 ∧
      stack_context p.loop_body.stack_ = parser_state.expect_dict_value := by
  simp [bencode.descriptor_parser.loop_body, hs, hst, hc,
    bencode.descriptor_parser.handle_dict_key, hdec, bencode.descriptor_parser.modify_top,
    stack_context]

/-- C12: (1) when the loop of a fresh parser comes, with no error recorded and
the value-limit check passed, to a byte `e` while the top frame expects a dict
value, `parse` returns no table and the error is `expected_dict_value` with
context dict at the offset of that `e`; (2) in particular, when the loop reads a
dict key at offset `p.it_` (the top frame expects a key, the string token
decodes and takes `moved` bytes) and the byte right after the key is `e`, the
error is `expected_dict_value` with context dict at the offset `p.it_ + moved`
of that `e`. -/
theorem missing_dict_value :
    (∀ (options : parser_options) (B : List Nat) (n : Nat) (p : bencode.descriptor_parser),
      reads_byte options B n p symbol.end_ →
      stack_context p.stack_ = parser_state.expect_dict_value →
      ∃ q, (bencode.descriptor_parser.create options).parse B = some (none, q) ∧
        q.error_ = some { errc := parsing_errc.expected_dict_value, position := p.it_
                          context := some bencode_type.dict }) ∧
    (∀ (options : parser_options) (B : List Nat) (n : Nat) (p : bencode.descriptor_parser)
        (c : Nat) (tok : string_token) (moved : Nat),
      reads_byte options B n p c →
      stack_context p.stack_ = parser_state.expect_dict_key →
      symbol.digit c = true →
      bdecode_string_token (B.drop p.it_) = Except.ok (tok, moved) →
      B[p.it_ + moved]? = some symbol.end_ →
      p.descriptors_.length + 1 ≤ options.value_limit →
      ∃ q, (bencode.descriptor_parser.create options).parse B = some (none, q) ∧
        q.error_ = some { errc := parsing_errc.expected_dict_value, position := p.it_ + moved
                          context := some bencode_type.dict }) := by
  have part1 : ∀ (options : parser_options) (B : List Nat) (n : Nat)
      (p : bencode.descriptor_parser),
      reads_byte options B n p symbol.end_ →
      stack_context p.stack_ = parser_state.expect_dict_value →
      ∃ q, (bencode.descriptor_parser.create options).parse B = some (none, q) ∧
        q.error_ = some { errc := parsing_errc.expected_dict_value, position := p.it_
                          context := some bencode_type.dict } := by
    intro options B n p hrb hctx
    obtain ⟨hr, hpk, _, _, _⟩ := reads_byte_running options B n p _ hrb
    obtain ⟨top, below, hs⟩ : ∃ top below, p.stack_ = top :: below := by
      cases hs : p.stack_ with
      | nil => rw [hs] at hctx; cases hctx
      | cons top below => exact ⟨top, below, rfl⟩
    have hst : top.state = parser_state.expect_dict_value := by
      rw [hs] at hctx
      exact hctx
    have hbody := expect_dict_value_end_byte p top below hs hst hpk
    refine ⟨p.loop_body, parse_of_failing_pass options B n p hrb.1 hr ?_, ?_⟩
    · rw [hbody]
      simp [bencode.descriptor_parser.set_error]
    · rw [hbody]
      rfl
  refine ⟨part1, ?_⟩
  intro options B n p c tok moved hrb hctx hd hdec hnext hlim
  obtain ⟨hr, hpk, _, _, hrem⟩ := reads_byte_running options B n p c hrb
  obtain ⟨top, below, hs⟩ : ∃ top below, p.stack_ = top :: below := by
    cases hs : p.stack_ with
    | nil => rw [hs] at hctx; cases hctx
    | cons top below => exact ⟨top, below, rfl⟩
  have hst : top.state = parser_state.expect_dict_key := by
    rw [hs] at hctx
    exact hctx
  obtain ⟨h1, h2, h3, h4⟩ := dict_key_pass p top below hs hst (by rw [hpk]; exact hd) tok moved
    (by rw [hrem]; exact hdec)
  have hnext2 : reads_byte options B (n + 1) p.loop_body symbol.end_ := by
    refine ⟨?_, ?_, ?_, ?_⟩
    · rw [state_after_add, ← hrb.1]
      simp [bencode.descriptor_parser.state_after, hr]
    · rw [h2]; exact hrb.2.1
    · rw [h3]; exact hlim
    · rw [h1]; exact hnext
  obtain ⟨q, hq1, hq2⟩ := part1 options B (n + 1) p.loop_body hnext2 h4
  rw [h1] at hq2
  exact ⟨q, hq1, hq2⟩

theorem missing_dict_value_witness :
    (∃ q, (bencode.descriptor_parser.create {}).parse (bytes "d3:fooe") = some (none, q) ∧
      q.error_ = some { errc := parsing_errc.expected_dict_value, position := 6
                        context := some bencode_type.dict }) ∧
    ∃ q, (bencode.descriptor_parser.create {}).parse (bytes "ld1:ai1e1:bee") = some (none, q) ∧
      q.error_ = some { errc := parsing_errc.expected_dict_value, position := 11
                        context := some bencode_type.dict } :=
  ⟨missing_dict_value.1 {} (bytes "d3:fooe") 2
      (bencode.descriptor_parser.state_after 2
        ((bencode.descriptor_parser.create {}).start (bytes "d3:fooe")))
      ⟨rfl, rfl, by decide, rfl⟩ rfl,
    missing_dict_value.2 {} (bytes "ld1:ai1e1:bee") 4
      (bencode.descriptor_parser.state_after 4
        ((bencode.descriptor_parser.create {}).start (bytes "ld1:ai1e1:bee"))) 49
      { offset := 2, size := 1 } 3
      ⟨rfl, rfl, by decide, rfl⟩ rfl rfl rfl rfl (by decide)⟩

/-- C13 (as amended): when the loop of a fresh parser comes, with no error
recorded and the value-limit check passed, to a byte `c` at offset `p.it_` where
a value is expected (no container open, or the top frame expects a list value or
a dict value), and `c` is not `i`, `l`, `d` or a decimal digit and, inside a
list or a dict, not `e`, then `parse` returns no table and the error is
`expected_value` at the offset of that byte, with context list inside a list,
dict inside a dict and no context at top level. -/
theorem missing_value (options : parser_options) (B : List Nat) (n : Nat)
    (p : bencode.descriptor_parser) (c : Nat)
    (hrb : reads_byte options B n p c) (hv : value_stack p.stack_)
    (hi : c ≠ symbol.begin_integer) (hl : c ≠ symbol.begin_list) (hd : c ≠ symbol.begin_dict)
    (hg : symbol.digit c = false) (he : p.stack_ ≠ [] → c ≠ symbol.end_) :
    ∃ q, (bencode.descriptor_parser.create options).parse B = some (none, q) ∧
      q.error_ = some { errc := parsing_errc.expected_value, position := p.it_
                        context := value_error_context p.stack_ } := by
  obtain ⟨hr, hpk, _, _, _⟩ := reads_byte_running options B n p c hrb
  have hbody := expect_value_other_byte p hv (by rw [hpk]; exact hi) (by rw [hpk]; exact hl)
    (by rw [hpk]; exact hd) (by rw [hpk]; exact hg) (by rw [hpk]; exact he)
  refine ⟨p.loop_body, parse_of_failing_pass options B n p hrb.1 hr ?_, ?_⟩
  · rw [hbody]
    simp [bencode.descriptor_parser.set_error]
  · rw [hbody]
    rfl

theorem missing_value_witness :
    (∃ q, (bencode.descriptor_parser.create {}).parse (bytes "i1ex") = some (none, q) ∧
      q.error_ = some { errc := parsing_errc.expected_value, position := 3, context := none }) ∧
    (∃ q, (bencode.descriptor_parser.create {}).parse (bytes "e") = some (none, q) ∧
      q.error_ = some { errc := parsing_errc.expected_value, position := 0, context := none }) ∧
    (∃ q, (bencode.descriptor_parser.create {}).parse (bytes "li1exe") = some (none, q) ∧
      q.error_ = some { errc := parsing_errc.expected_value, position := 4
                        context := some bencode_type.list }) ∧
    ∃ q, (bencode.descriptor_parser.create {}).parse (bytes "d1:axe") = some (none, q) ∧
      q.error_ = some { errc := parsing_errc.expected_value, position := 4
                        context := some bencode_type.dict } :=
  ⟨missing_value {} (bytes "i1ex") 1
      (bencode.descriptor_parser.state_after 1
        ((bencode.descriptor_parser.create {}).start (bytes "i1ex"))) 120
      ⟨rfl, rfl, by decide, rfl⟩ (by decide) (by decide) (by decide) (by decide) rfl
      (by decide),
    missing_value {} (bytes "e") 0
      (bencode.descriptor_parser.state_after 0
        ((bencode.descriptor_parser.create {}).start (bytes "e"))) 101
      ⟨rfl, rfl, by decide, rfl⟩ (by decide) (by decide) (by decide) (by decide) rfl
      (by decide),
    missing_value {} (bytes "li1exe") 2
      (bencode.descriptor_parser.state_after 2
        ((bencode.descriptor_parser.create {}).start (bytes "li1exe"))) 120
      ⟨rfl, rfl, by decide, rfl⟩ (by decide) (by decide) (by decide) (by decide) rfl
      (by decide),
    missing_value {} (bytes "d1:axe") 2
      (bencode.descriptor_parser.state_after 2
        ((bencode.descriptor_parser.create {}).start (bytes "d1:axe"))) 120
      ⟨rfl, rfl, by decide, rfl⟩ (by decide) (by decide) (by decide) (by decide) rfl
      (by decide)⟩

/-- C13 (counterexample): on the input `d1:ae` the loop of a fresh parser comes
to the byte `e` at offset 4 where a dict value is expected; `e` is not `i`, `l`,
`d` or a decimal digit, yet the error `parse` records is `expected_dict_value`
and not `expected_value`. -/
theorem missing_value_fails_for_end_in_dict :
    ∃ p q, reads_byte {} (bytes "d1:ae") 2 p symbol.end_ ∧
      stack_context p.stack_ = parser_state.expect_dict_value ∧ value_stack p.stack_ ∧
      symbol.end_ ≠ symbol.begin_integer ∧ symbol.end_ ≠ symbol.begin_list ∧
      symbol.end_ ≠ symbol.begin_dict ∧ symbol.digit symbol.end_ = false ∧
      (bencode.descriptor_parser.create {}).parse (bytes "d1:ae") = some (none, q) ∧
      q.error_ = some { errc := parsing_errc.expected_dict_value, position := 4
                        context := some bencode_type.dict } ∧
      q.error_ ≠ some { errc := parsing_errc.expected_value, position := 4
                        context := some bencode_type.dict } :=
  ⟨bencode.descriptor_parser.state_after 2
      ((bencode.descriptor_parser.create {}).start (bytes "d1:ae")), _,
    ⟨rfl, rfl, by decide, rfl⟩, rfl, by decide, by decide, by decide, by decide, rfl, rfl, rfl,
    by decide⟩

/-- C14: when the loop of a fresh parser comes, with no error recorded in any
earlier pass and the value-limit check passed, to (1) a byte `i` where a value is
expected and the integer token decoder fails with kind `E`, then `parse` returns
no table and the error has kind `E` and context integer; (2) a decimal digit
where a value is expected and the string token decoder fails with kind `E`, or
(3) a decimal digit where a dict key is expected and the string token decoder
fails with kind `E`, then `parse` returns no table and the error has kind `E` and
context string.  The position is where the decoder left the cursor. -/
theorem token_errors_surface_unchanged :
    (∀ (options : parser_options) (B : List Nat) (n : Nat) (p : bencode.descriptor_parser)
        (E : parsing_errc) (moved : Nat),
      reads_byte options B n p symbol.begin_integer → value_stack p.stack_ →
      bdecode_integer (B.drop p.it_) = Except.error (E, moved) →
      (∀ m, m ≤ n → (bencode.descriptor_parser.state_after m
        ((bencode.descriptor_parser.create options).start B)).error_ = none) ∧
      ∃ q, (bencode.descriptor_parser.create options).parse B = some (none, q) ∧
        q.error = some { errc := E, position := p.it_ + moved
                         context := some bencode_type.integer }) ∧
    (∀ (options : parser_options) (B : List Nat) (n : Nat) (p : bencode.descriptor_parser)
        (c : Nat) (E : parsing_errc) (moved : Nat),
      reads_byte options B n p c → symbol.digit c = true →
      (value_stack p.stack_ ∨ stack_context p.stack_ = parser_state.expect_dict_key) →
      bdecode_string_token (B.drop p.it_) = Except.error (E, moved) →
      (∀ m, m ≤ n → (bencode.descriptor_parser.state_after m
        ((bencode.descriptor_parser.create options).start B)).error_ = none) ∧
      ∃ q, (bencode.descriptor_parser.create options).parse B = some (none, q) ∧
        q.error = some { errc := E, position := p.it_ + moved
                         context := some bencode_type.string }) := by
  constructor
  · intro options B n p E moved hrb hv hdec
    obtain ⟨hr, hpk, _, _, hrem⟩ := reads_byte_running options B n p _ hrb
    have herr := integer_token_failure p hv hpk E moved (by rw [hrem]; exact hdec)
    refine ⟨fun m hm => no_error_before n m _ hm (by rw [← hrb.1]; exact hrb.2.1), ?_⟩
    exact ⟨p.loop_body, parse_of_failing_pass options B n p hrb.1 hr (by rw [herr]; simp), herr⟩
  · intro options B n p c E moved hrb hd hctx hdec
    obtain ⟨hr, hpk, _, _, hrem⟩ := reads_byte_running options B n p c hrb
    refine ⟨fun m hm => no_error_before n m _ hm (by rw [← hrb.1]; exact hrb.2.1), ?_⟩
    rcases hctx with hv | hk
    · have herr := string_token_failure p hv (by rw [hpk]; exact hd) E moved
        (by rw [hrem]; exact hdec)
      exact ⟨p.loop_body, parse_of_failing_pass options B n p hrb.1 hr (by rw [herr]; simp),
        herr⟩
    · obtain ⟨top, below, hs⟩ : ∃ top below, p.stack_ = top :: below := by
        cases hs : p.stack_ with
        | nil => rw [hs] at hk; cases hk
        | cons top below => exact ⟨top, below, rfl⟩
      have hst : top.state = parser_state.expect_dict_key := by
        rw [hs] at hk
        exact hk
      have herr := dict_key_token_failure p top below hs hst (by rw [hpk]; exact hd) E moved
        (by rw [hrem]; exact hdec)
      exact ⟨p.loop_body, parse_of_failing_pass options B n p hrb.1 hr (by rw [herr]; simp),
        herr⟩

theorem token_errors_surface_unchanged_witness :
    (∃ q, (bencode.descriptor_parser.create {}).parse (bytes "i00e") = some (none, q) ∧
      q.error = some { errc := parsing_errc.leading_zero, position := 1
                       context := some bencode_type.integer }) ∧
    (∃ q, (bencode.descriptor_parser.create {}).parse (bytes "3:ab") = some (none, q) ∧
      q.error = some { errc := parsing_errc.unexpected_eof, position := 2
                       context := some bencode_type.string }) ∧
    ∃ q, (bencode.descriptor_parser.create {}).parse (bytes "d3abci1ee") = some (none, q) ∧
      q.error = some { errc := parsing_errc.expected_colon, position := 2
                       context := some bencode_type.string } :=
  ⟨(token_errors_surface_unchanged.1 {} (bytes "i00e") 0
      (bencode.descriptor_parser.state_after 0
        ((bencode.descriptor_parser.create {}).start (bytes "i00e")))
      parsing_errc.leading_zero 1 ⟨rfl, rfl, by decide, rfl⟩ (by decide) rfl).2,
    (token_errors_surface_unchanged.2 {} (bytes "3:ab") 0
      (bencode.descriptor_parser.state_after 0
        ((bencode.descriptor_parser.create {}).start (bytes "3:ab"))) 51
      parsing_errc.unexpected_eof 2 ⟨rfl, rfl, by decide, rfl⟩ rfl (Or.inl (by decide)) rfl).2,
    (token_errors_surface_unchanged.2 {} (bytes "d3abci1ee") 1
      (bencode.descriptor_parser.state_after 1
        ((bencode.descriptor_parser.create {}).start (bytes "d3abci1ee"))) 51
      parsing_errc.expected_colon 1 ⟨rfl, rfl, by decide, rfl⟩ rfl (Or.inr rfl) rfl).2⟩

/-! ## Output of the encoder -/

theorem feed_out (e : encode_to) (ev : event) : (e.feed ev).out_ = e.out_ ++ event_text ev := by
  cases ev with
  | integer value =>
    by_cases h : value < 0
    · simp [encode_to.feed, encode_to.integer, event_text, itoa.to_buffer, h]
    · have : value.toNat = value.natAbs := by omega
      simp [encode_to.feed, encode_to.integer, event_text, itoa.to_buffer, h, this]
  | string value =>
    simp [encode_to.feed, encode_to.string, event_text, itoa.to_buffer_unsigned]
  | begin_list size => simp [encode_to.feed, encode_to.begin_list, event_text]
  | list_item => simp [encode_to.feed, encode_to.list_item, event_text]
  | end_list size => simp [encode_to.feed, encode_to.end_list, event_text]
  | begin_dict size => simp [encode_to.feed, encode_to.begin_dict, event_text]
  | dict_key => simp [encode_to.feed, encode_to.dict_key, event_text]
  | dict_value => simp [encode_to.feed, encode_to.dict_value, event_text]
  | end_dict size => simp [encode_to.feed, encode_to.end_dict, event_text]

theorem feed_all_out (e : encode_to) (events : List event) :
    (e.feed_all events).out_ = e.out_ ++ events_text events := by
  induction events generalizing e with
  | nil => simp [encode_to.feed_all, events_text]
  | cons ev rest ih =>
    have := ih (e.feed ev)
    simp only [encode_to.feed_all, List.foldl_cons] at this ⊢
    rw [this, feed_out, events_text, List.append_assoc]

/-- C15: for every sequence of events fed to a fresh encoder, the bytes written
are the texts of the events in call order: `i`, a `-` for a negative value only,
the decimal text of the magnitude, `e` for `integer`; the decimal text of the
length, `:` and the bytes for `string`; `l`, `d`, `e`, `e` for `begin_list`,
`begin_dict`, `end_list`, `end_dict` whatever the size hint; nothing for
`list_item`, `dict_key`, `dict_value`.  The decimal text of a number consists of
decimal digits, denotes the number and has no leading zero. -/
theorem encoder_output :
    (∀ events : List event,
      (encode_to.feed_all {} events).out_ = events_text events) ∧
    (∀ n : Nat, decimal_text n ≠ [] ∧ (∀ c ∈ decimal_text n, symbol.digit c = true) ∧
      decimal_value (decimal_text n) = n ∧
      (2 ≤ (decimal_text n).length → (decimal_text n).head? ≠ some 48)) := by
  constructor
  · intro events
    rw [feed_all_out]
    rfl
  · intro n
    refine ⟨decimal_text_ne_nil n, decimal_text_digit n, decimal_value_text n, ?_⟩
    intro h2 h48
    have := decimal_text_no_leading_zero n
    simp [h2, h48] at this

/-! ## Integers through the encoder and the parser -/

theorem decimal_digits_length_le (fuel n k : Nat) (hk : 1 ≤ k) (h : n < 10 ^ k) :
    (decimal_digits fuel n).length ≤ k := by
  induction fuel generalizing n k with
  | zero => simp [decimal_digits]
  | succ f ih =>
    unfold decimal_digits
    split
    · simpa using hk
    · rename_i h10
      have hk2 : 2 ≤ k := by
        by_contra hlt
        have : k = 1 := by omega
        subst this
        simp at h
        omega
      obtain ⟨j, rfl⟩ : ∃ j, k = j + 1 := ⟨k - 1, by omega⟩
      have hdiv : n / 10 < 10 ^ j := by
        rw [Nat.div_lt_iff_lt_mul (by decide)]
        rw [pow_succ] at h
        exact h
      have := ih (n / 10) j (by omega) hdiv
      simp only [List.length_append, List.length_singleton]
      omega

theorem decimal_text_length_le (n k : Nat) (hk : 1 ≤ k) (h : n < 10 ^ k) :
    (decimal_text n).length ≤ k :=
  decimal_digits_length_le (n + 1) n k hk h

theorem encode_integer_out (v : Int) : (encode_to.integer {} v).out_ = integer_wire v := by
  simp [encode_to.integer, itoa.to_buffer, integer_wire]

/-- C16: for every signed 64-bit value `v` and every options, the bytes that
`encode_to::integer(v)` writes are parsed by a fresh parser into a table of
exactly one record, of type integer with the stop modifier and no other
modifier, at position 0 and with stored value `v`; no error is recorded. -/
theorem integer_round_trip (v : Int) (options : parser_options)
    (h1 : -9223372036854775808 ≤ v) (h2 : v ≤ 9223372036854775807) :
    ∃ d q, (bencode.descriptor_parser.create options).parse (encode_to.integer {} v).out_ =
        some (some { descriptors := [d], data := (encode_to.integer {} v).out_ }, q) ∧
      d.type = { tag := descriptor_tag.integer, stop := true } ∧ d.position = 0 ∧
      d.value = v ∧ q.has_error = false := by
  have hlen : (bvalue.integer v).wire.length < 4294967296 := by
    have hb : v.natAbs < 10 ^ 20 := by omega
    have := decimal_text_length_le v.natAbs 20 (by decide) hb
    simp only [bvalue.wire, integer_wire_length]
    split <;> omega
  have hp := parse_wire (bvalue.integer v) options ⟨h1, h2⟩ hlen
    (by simp [bvalue.count]) (by simp [bvalue.depth])
  rw [encode_integer_out]
  refine ⟨_, _, hp, ?_, ?_, ?_, rfl⟩ <;> rfl

theorem integer_round_trip_witness :
    (∃ d q, (bencode.descriptor_parser.create {}).parse (encode_to.integer {} 0).out_ =
        some (some { descriptors := [d], data := (encode_to.integer {} 0).out_ }, q) ∧
      d.type = { tag := descriptor_tag.integer, stop := true } ∧ d.position = 0 ∧
      d.value = 0 ∧ q.has_error = false) ∧
    (∃ d q, (bencode.descriptor_parser.create {}).parse (encode_to.integer {} (-1)).out_ =
        some (some { descriptors := [d], data := (encode_to.integer {} (-1)).out_ }, q) ∧
      d.type = { tag := descriptor_tag.integer, stop := true } ∧ d.position = 0 ∧
      d.value = -1 ∧ q.has_error = false) ∧
    (∃ d q, (bencode.descriptor_parser.create {}).parse
        (encode_to.integer {} 9223372036854775807).out_ =
        some (some { descriptors := [d]
                     data := (encode_to.integer {} 9223372036854775807).out_ }, q) ∧
      d.type = { tag := descriptor_tag.integer, stop := true } ∧ d.position = 0 ∧
      d.value = 9223372036854775807 ∧ q.has_error = false) ∧
    ∃ d q, (bencode.descriptor_parser.create {}).parse
        (encode_to.integer {} (-9223372036854775808)).out_ =
        some (some { descriptors := [d]
                     data := (encode_to.integer {} (-9223372036854775808)).out_ }, q) ∧
      d.type = { tag := descriptor_tag.integer, stop := true } ∧ d.position = 0 ∧
      d.value = -9223372036854775808 ∧ q.has_error = false :=
  ⟨integer_round_trip 0 {} (by decide) (by decide),
    integer_round_trip (-1) {} (by decide) (by decide),
    integer_round_trip 9223372036854775807 {} (by decide) (by decide),
    integer_round_trip (-9223372036854775808) {} (by decide) (by decide)⟩

/-! ## A top-level integer in JSON -/

/-- C19: for every integer `v` (so for every signed 64-bit one) and every indent
setting, a fresh pretty-printer fed the single event `integer(v)` has written
exactly the decimal text of `v` as `itoa::to_buffer` gives it: no comma, no
newline and no space before or after; for 63, the value a fresh parser stores
for `i63e`, the output is `63`. -/
theorem json_top_level_integer :
    (∀ (v : Int) (indent : Nat),
      ((format_json_to.create indent).feed_all [event.integer v]).out_ = itoa.to_buffer v ∧
      ((format_json_to.create indent).feed_all [event.integer v]).out_ =
        (if v < 0 then [symbol.minus] else []) ++ decimal_text v.natAbs) ∧
    ((format_json_to.create 4).feed_all [event.integer 63]).out_ = bytes "63" ∧
    ∃ d q, (bencode.descriptor_parser.create {}).parse (bytes "i63e") =
        some (some { descriptors := [d], data := bytes "i63e" }, q) ∧ d.value = 63 := by
  refine ⟨?_, by decide, ⟨_, _, rfl, rfl⟩⟩
  intro v indent
  have h : ((format_json_to.create indent).feed_all [event.integer v]).out_ =
      itoa.to_buffer v := by
    simp [format_json_to.feed_all, format_json_to.feed, format_json_to.integer,
      format_json_to.next, format_json_to.create]
  refine ⟨h, ?_⟩
  rw [h]
  by_cases hv : v < 0
  · simp [itoa.to_buffer, hv]
  · have : v.toNat = v.natAbs := by omega
    simp [itoa.to_buffer, hv, this]

/-! ## Termination -/

theorem exit_result_cases (p : bencode.descriptor_parser) :
    (p.exit_result.1 = false → p.exit_result.2.error_ ≠ none) ∧
    (p.exit_result.1 = true → p.exit_result.2.error_ = none ∧
      p.exit_result.2.it_ = p.exit_result.2.input.length) := by
  unfold bencode.descriptor_parser.exit_result
  by_cases hc : p.it_ ≠ p.input.length ∧ p.error_ = none
  · rw [if_pos hc]
    simp [bencode.descriptor_parser.set_error]
  · rw [if_neg hc]
    by_cases he : p.error_ = none
    · have hit : p.it_ = p.input.length := by
        by_contra hh
        exact hc ⟨hh, he⟩
      rw [finish_eq p he]
      simp [he, hit]
    · have hs : p.error_.isSome = true := by
        cases hh : p.error_ with
        | none => exact absurd hh he
        | some e => rfl
      simp [bencode.descriptor_parser.finish, hs, he]

/-- C20: (1) for every parser state whose cursor is inside the range, so for
every input and every options, `parse_loop` returns: it returns `false` with an
error recorded, or `true` with no error recorded and the cursor at the end of
the input; (2) `parse` returns on every input; (3) every pass through the loop
body records an error or moves the cursor forward by at least one byte, staying
inside the range; (4) the token decoders, when they succeed, move the cursor
forward by at least one byte and not past the end; (5) the bound on the number
of passes in the model of the loop plays no part: whenever the loop returns
within some bound, that is the result of `parse_loop`. -/
theorem parse_loop_terminates :
    (∀ p : bencode.descriptor_parser, p.it_ ≤ p.input.length →
      ∃ r, p.parse_loop = some r ∧
        (r.1 = false → r.2.error_ ≠ none) ∧
        (r.1 = true → r.2.error_ = none ∧ r.2.it_ = r.2.input.length)) ∧
    (∀ (p0 : bencode.descriptor_parser) (B : List Nat), ∃ res, p0.parse B = some res) ∧
    (∀ p : bencode.descriptor_parser, p.running → p.it_ ≤ p.input.length →
      p.loop_body.error_ ≠ none ∨
        (p.it_ + 1 ≤ p.loop_body.it_ ∧ p.loop_body.it_ ≤ p.loop_body.input.length)) ∧
    (∀ (r : List Nat) (v : Int) (moved : Nat),
      bdecode_integer r = Except.ok (v, moved) → 1 ≤ moved ∧ moved ≤ r.length) ∧
    (∀ (r : List Nat) (tok : string_token) (moved : Nat),
      bdecode_string_token r = Except.ok (tok, moved) → 1 ≤ moved ∧ moved ≤ r.length) ∧
    (∀ (p : bencode.descriptor_parser) (fuel : Nat) (r : Bool × bencode.descriptor_parser),
      p.it_ ≤ p.input.length →
      bencode.descriptor_parser.parse_loop_fuel fuel p = some r → p.parse_loop = some r) := by
  refine ⟨?_, ?_, ?_, ?_, ?_, ?_⟩
  · intro p hle
    obtain ⟨r, hr⟩ := parse_loop_total p hle
    obtain ⟨n, _, hres⟩ := parse_loop_fuel_result _ _ _ hr
    refine ⟨r, hr, ?_⟩
    rw [hres]
    exact exit_result_cases _
  · intro p0 B
    obtain ⟨r, hr⟩ := parse_loop_total (p0.start B) (Nat.zero_le _)
    unfold bencode.descriptor_parser.start at hr
    unfold bencode.descriptor_parser.parse
    simp only [hr]
    split <;> exact ⟨_, rfl⟩
  · intro p hr hle
    rcases loop_step_progress p _ hr hle (loop_body_step p) with h | ⟨h1, h2⟩
    · exact Or.inl h
    · exact Or.inr ⟨h1, h2⟩
  · intro r v moved h
    obtain ⟨h1, h2⟩ := bdecode_integer_ok r v moved h
    exact ⟨by omega, h2⟩
  · intro r tok moved h
    obtain ⟨h1, h2, h3, _⟩ := bdecode_string_token_ok r tok moved h
    exact ⟨by omega, by omega⟩
  · intro p fuel r hle h
    obtain ⟨n, hn, hres⟩ := parse_loop_fuel_result fuel p r h
    rw [hres]
    exact parse_loop_of_final_state p n hle hn

/-! ## The nested-list scenario -/

/-- C18 (as amended): a fresh parser returns for `li1el3:foo3:baree` a table
whose first record is a list header of size 2; the first element, the record
after the header, is the integer 1; the second element, one record further, is a
list header of size 2 whose elements are the strings `foo` and `bar` in that
order, followed by the end record of the inner list and then, where the second
element ends, the end record of the outer list. -/
theorem nested_list_scenario :
    ∃ t q h0 e1 h2 s3 s4 c5 c6,
      (bencode.descriptor_parser.create {}).parse (bytes "li1el3:foo3:baree") =
        some (some t, q) ∧
      t.descriptors = [h0, e1, h2, s3, s4, c5, c6] ∧
      (h0.is_header = true ∧ h0.is_list = true ∧ h0.size = 2 ∧ h0.position = 0) ∧
      (e1.is_integer = true ∧ e1.value = 1 ∧ next_value t.descriptors 1 = 2) ∧
      (h2.is_header = true ∧ h2.is_list = true ∧ h2.size = 2 ∧
        next_value t.descriptors 2 = 6) ∧
      (s3.is_string = true ∧ string_value t s3 = bytes "foo" ∧
        next_value t.descriptors 3 = 4) ∧
      (s4.is_string = true ∧ string_value t s4 = bytes "bar" ∧
        next_value t.descriptors 4 = 5) ∧
      (c5.is_end = true ∧ matching_end t.descriptors 2 = some 5) ∧
      (c6.is_end = true ∧ matching_end t.descriptors 0 = some 6) :=
  ⟨_, _, _, _, _, _, _, _, _, rfl, rfl, by decide, by decide, by decide, by decide, by decide,
    by decide, by decide⟩

/-- C18 (counterexample): for the input as the claim writes it,
`lie1l3:foo3:baree`, a fresh parser returns no table: the second byte opens an
integer token that has no digits, and the error recorded has context integer. -/
theorem nested_list_scenario_as_written_is_rejected :
    ∃ q e, (bencode.descriptor_parser.create {}).parse (bytes "lie1l3:foo3:baree") =
        some (none, q) ∧
      q.error = some e ∧ e.context = some bencode_type.integer :=
  ⟨_, _, rfl, rfl, rfl⟩

/-! ## Role modifiers of the expected records -/

theorem records_head (v : bvalue) (pos : Nat) (m : descriptor_type) :
    ∃ h rest, v.records pos m = h :: rest ∧ has_role h m ∧ h.type.end_ = m.end_ := by
  cases v <;>
    exact ⟨_, _, rfl, by
      simp [has_role, descriptor_type.or, descriptor_type.integer, descriptor_type.string,
        descriptor_type.list, descriptor_type.dict]⟩

theorem getElem?_at_value (v : bvalue) (pre post : List descriptor) (pos : Nat)
    (m : descriptor_type) (he : m.end_ = false) :
    ∃ c, (pre ++ v.records pos m ++ post)[pre.length]? = some c ∧ c.is_end = false ∧
      has_role c m := by
  obtain ⟨h, rest, hR, hrole, hend⟩ := records_head v pos m
  refine ⟨h, ?_, ?_, hrole⟩
  · have := getElem?_append_middle pre (v.records pos m) post 0 h (by rw [hR]; simp)
    simpa using this
  · rw [descriptor.is_end, hend, he]

theorem list_children (xs : blist) (pre post : List descriptor) (pos k : Nat)
    (hk : k < xs.length) :
    ∃ c, (pre ++ xs.records pos ++ post)[walk (pre ++ xs.records pos ++ post) k pre.length]? =
        some c ∧ c.is_end = false ∧ has_role c descriptor_type.list_value_bit := by
  cases xs with
  | nil => simp [blist.length] at hk
  | cons x xs =>
    simp only [blist.length] at hk
    simp only [blist.records]
    cases k with
    | zero =>
      have := getElem?_at_value x pre (xs.records (pos + x.wire.length) ++ post) pos
        descriptor_type.list_value_bit rfl
      simpa only [walk, List.append_assoc] using this
    | succ k =>
      have h1 := next_value_at_value x pre (xs.records (pos + x.wire.length) ++ post) pos
        descriptor_type.list_value_bit rfl
      have h2 := list_children xs (pre ++ x.records pos descriptor_type.list_value_bit) post
        (pos + x.wire.length) k (by omega)
      simp only [List.length_append, bvalue_records_length, List.append_assoc] at h1 h2 ⊢
      rw [Nat.add_comm k 1, walk_add, walk_one, h1]
      exact h2

theorem dict_children (kvs : bdict) (pre post : List descriptor) (pos k : Nat)
    (hk : k < 2 * kvs.length) :
    ∃ c, (pre ++ kvs.records pos ++ post)[walk (pre ++ kvs.records pos ++ post) k pre.length]? =
        some c ∧ c.is_end = false ∧
      has_role c (if k % 2 = 0 then descriptor_type.dict_key_bit
        else descriptor_type.dict_value_bit) := by
  cases kvs with
  | nil => simp [bdict.length] at hk
  | cons key v kvs =>
    simp only [bdict.length] at hk
    simp only [bdict.records]
    obtain ⟨kr, hkr⟩ : ∃ d : descriptor, d =
      { type := (descriptor_type.or descriptor_type.string descriptor_type.dict_key_bit)
        position := pos, offset := (decimal_text key.length).length + 1, size := key.length } :=
      ⟨_, rfl⟩
    rw [← hkr]
    have hget : (pre ++ kr :: (v.records (pos + (string_wire key).length)
        descriptor_type.dict_value_bit ++
          kvs.records (pos + (string_wire key).length + v.wire.length)) ++ post)[pre.length]? =
        some kr := by
      rw [List.append_assoc, List.getElem?_append_right (le_refl _)]
      simp
    have hk1 : next_value (pre ++ kr :: (v.records (pos + (string_wire key).length)
        descriptor_type.dict_value_bit ++
          kvs.records (pos + (string_wire key).length + v.wire.length)) ++ post) pre.length =
        pre.length + 1 := by
      unfold next_value
      rw [hget]
      simp only
      rw [if_neg]
      rw [hkr, not_header_of_scalar _ (Or.inr rfl)]
      simp
    cases k with
    | zero =>
      refine ⟨kr, by simpa only [walk] using hget, ?_, ?_⟩
      · rw [hkr]; rfl
      · rw [hkr]
        simp [has_role, descriptor_type.or, descriptor_type.string, descriptor_type.dict_key_bit]
    | succ k =>
      have hv := getElem?_at_value v (pre ++ [kr])
        (kvs.records (pos + (string_wire key).length + v.wire.length) ++ post)
        (pos + (string_wire key).length) descriptor_type.dict_value_bit rfl
      have h1 := next_value_at_value v (pre ++ [kr])
        (kvs.records (pos + (string_wire key).length + v.wire.length) ++ post)
        (pos + (string_wire key).length) descriptor_type.dict_value_bit rfl
      cases k with
      | zero =>
        simp only [List.length_append, List.length_singleton, List.append_assoc,
          List.singleton_append, List.cons_append, List.nil_append] at hv hk1 ⊢
        rw [walk_one, hk1]
        simpa using hv
      | succ k =>
        have h2 := dict_children kvs (pre ++ kr :: v.records (pos + (string_wire key).length)
          descriptor_type.dict_value_bit) post (pos + (string_wire key).length + v.wire.length)
          k (by omega)
        simp only [List.length_append, List.length_cons, List.length_singleton, List.length_nil,
          bvalue_records_length, List.append_assoc, List.cons_append, List.singleton_append,
          List.nil_append] at h1 h2 hk1 ⊢
        have e : k + 1 + 1 = 1 + (1 + k) := by omega
        have e2 : pre.length + (v.count + 1) = pre.length + 1 + v.count := by omega
        have e3 : (k + 1 + 1) % 2 = k % 2 := by omega
        rw [e2] at h2
        rw [e3, e, walk_add, walk_add, walk_one, walk_one, hk1, h1]
        exact h2

theorem roles_at_top (v : bvalue) (pre post : List descriptor) (pos : Nat)
    (m : descriptor_type) (h : descriptor)
    (hhead : (v.records pos m).head? = some h) (hh : h.is_header = true) :
    (∀ k, k < header_steps h →
      ∃ c, (pre ++ v.records pos m ++ post)[walk (pre ++ v.records pos m ++ post) k
          (pre.length + 1)]? = some c ∧ c.is_end = false ∧ has_role c (child_role h k)) ∧
    ∃ e, (pre ++ v.records pos m ++ post)[pre.length + h.offset]? = some e ∧
      e.is_end = true ∧ has_role e h.type := by
  cases v with
  | integer i =>
    simp only [bvalue.records, List.head?_cons, Option.some.injEq] at hhead
    rw [← hhead, not_header_of_scalar _ (Or.inl rfl)] at hh
    cases hh
  | string s =>
    simp only [bvalue.records, List.head?_cons, Option.some.injEq] at hhead
    rw [← hhead, not_header_of_scalar _ (Or.inr rfl)] at hh
    cases hh
  | list xs =>
    simp only [bvalue.records, List.head?_cons, Option.some.injEq] at hhead
    subst hhead
    obtain ⟨hdr, hhdr⟩ : ∃ d : descriptor, d =
      { type := (descriptor_type.or descriptor_type.list m), position := pos,
        offset := (xs.records (pos + 1)).length + 1, size := xs.length } := ⟨_, rfl⟩
    obtain ⟨en, hen⟩ : ∃ d : descriptor, d =
      { type := (descriptor_type.or
          (descriptor_type.or descriptor_type.list descriptor_type.end_bit) m),
        position := pos + 1 + xs.wire.length,
        offset := (xs.records (pos + 1)).length + 1, size := xs.length } := ⟨_, rfl⟩
    have hs : header_steps hdr = xs.length := by
      rw [hhdr]
      simp [header_steps, descriptor.is_list, descriptor_type.or, descriptor_type.list]
    have hl : hdr.is_list = true := by
      rw [hhdr]
      simp [descriptor.is_list, descriptor_type.or, descriptor_type.list]
    have ho : hdr.offset = (xs.records (pos + 1)).length + 1 := by rw [hhdr]
    simp only [bvalue.records]
    rw [← hhdr, ← hen]
    constructor
    · intro k hk
      rw [hs] at hk
      have := list_children xs (pre ++ [hdr]) ([en] ++ post) (pos + 1) k hk
      simp only [child_role, hl, if_true]
      simpa only [List.length_append, List.length_singleton, List.append_assoc,
        List.singleton_append, List.cons_append, List.nil_append] using this
    · refine ⟨en, ?_, ?_, ?_⟩
      · apply getElem?_append_middle
        rw [List.getElem?_cons_succ, List.getElem?_append_right (le_refl _)]
        simp
      · rw [hen]
        simp [descriptor.is_end, descriptor_type.or, descriptor_type.end_bit]
      · subst hen
        simp [has_role, descriptor_type.or, descriptor_type.list, descriptor_type.end_bit]
  | dict kvs =>
    simp only [bvalue.records, List.head?_cons, Option.some.injEq] at hhead
    subst hhead
    obtain ⟨hdr, hhdr⟩ : ∃ d : descriptor, d =
      { type := (descriptor_type.or descriptor_type.dict m), position := pos,
        offset := (kvs.records (pos + 1)).length + 1, size := kvs.length } := ⟨_, rfl⟩
    obtain ⟨en, hen⟩ : ∃ d : descriptor, d =
      { type := (descriptor_type.or
          (descriptor_type.or descriptor_type.dict descriptor_type.end_bit) m),
        position := pos + 1 + kvs.wire.length,
        offset := (kvs.records (pos + 1)).length + 1, size := kvs.length } := ⟨_, rfl⟩
    have hs : header_steps hdr = 2 * kvs.length := by
      rw [hhdr]
      simp [header_steps, descriptor.is_list, descriptor_type.or, descriptor_type.dict]
    have hl : hdr.is_list = false := by
      rw [hhdr]
      simp [descriptor.is_list, descriptor_type.or, descriptor_type.dict]
    have ho : hdr.offset = (kvs.records (pos + 1)).length + 1 := by rw [hhdr]
    simp only [bvalue.records]
    rw [← hhdr, ← hen]
    constructor
    · intro k hk
      rw [hs] at hk
      have := dict_children kvs (pre ++ [hdr]) ([en] ++ post) (pos + 1) k hk
      simp only [child_role, hl, Bool.false_eq_true, if_false]
      simpa only [List.length_append, List.length_singleton, List.append_assoc,
        List.singleton_append, List.cons_append, List.nil_append] using this
    · refine ⟨en, ?_, ?_, ?_⟩
      · apply getElem?_append_middle
        rw [List.getElem?_cons_succ, List.getElem?_append_right (le_refl _)]
        simp
      · rw [hen]
        simp [descriptor.is_end, descriptor_type.or, descriptor_type.end_bit]
      · subst hen
        simp [has_role, descriptor_type.or, descriptor_type.dict, descriptor_type.end_bit]

theorem next_value_at_scalar (ds : List descriptor) (j : Nat) (d : descriptor)
    (hj : ds[j]? = some d) (hd : d.is_header = false) : next_value ds j = j + 1 := by
  unfold next_value
  rw [hj]
  simp [hd]

mutual
/-- Every record of a value that opens a value is the first record of the value
or a value directly inside a container, with the role of its place there. -/
theorem covered_value (v : bvalue) (pre post : List descriptor) (pos : Nat)
    (m : descriptor_type) (hm : m.end_ = false) (ds : List descriptor)
    (hds : ds = pre ++ v.records pos m ++ post) (j : Nat) (d : descriptor)
    (hj : (v.records pos m)[j]? = some d) (hd : d.is_end = false) :
    j = 0 ∨ child_with_role ds (pre.length + j) d := by
  cases j with
  | zero => exact Or.inl rfl
  | succ j =>
    right
    cases v with
    | integer i => simp [bvalue.records] at hj
    | string s => simp [bvalue.records] at hj
    | list xs =>
      simp only [bvalue.records, List.getElem?_cons_succ] at hj
      obtain ⟨hdr, hhdr⟩ : ∃ d : descriptor, d =
        { type := (descriptor_type.or descriptor_type.list m), position := pos,
          offset := (xs.records (pos + 1)).length + 1, size := xs.length } := ⟨_, rfl⟩
      obtain ⟨en, hen⟩ : ∃ d : descriptor, d =
        { type := (descriptor_type.or
            (descriptor_type.or descriptor_type.list descriptor_type.end_bit) m),
          position := pos + 1 + xs.wire.length,
          offset := (xs.records (pos + 1)).length + 1, size := xs.length } := ⟨_, rfl⟩
      simp only [bvalue.records] at hds
      rw [← hhdr, ← hen] at hds
      by_cases hlt : j < (xs.records (pos + 1)).length
      · rw [List.getElem?_append_left hlt] at hj
        have hget : ds[pre.length]? = some hdr := by
          rw [hds, List.append_assoc, List.getElem?_append_right (le_refl _)]
          simp
        have := covered_list xs (pre ++ [hdr]) ([en] ++ post) (pos + 1) ds
          (by rw [hds]; simp) pre.length hdr 0 hget
          (by rw [hhdr]; exact is_header_or_list m hm _ _ _)
          (by rw [hhdr]; simp [descriptor.is_list, descriptor_type.or, descriptor_type.list])
          (by rw [hhdr]
              simp [header_steps, descriptor.is_list, descriptor_type.or, descriptor_type.list])
          (by simp [walk]) j d hj hd
        have e1 : (pre ++ [hdr]).length + j = pre.length + (j + 1) := by
          simp only [List.length_append, List.length_singleton]
          omega
        rw [e1] at this
        exact this
      · rw [List.getElem?_append_right (by omega)] at hj
        have hj0 : j - (xs.records (pos + 1)).length = 0 := by
          by_contra hne
          obtain ⟨k, hk⟩ := Nat.exists_eq_succ_of_ne_zero hne
          rw [hk] at hj
          simp at hj
        rw [hj0] at hj
        simp only [List.getElem?_cons_zero, Option.some.injEq] at hj
        rw [← hj] at hd
        simp [descriptor.is_end, descriptor_type.or, descriptor_type.end_bit] at hd
    | dict kvs =>
      simp only [bvalue.records, List.getElem?_cons_succ] at hj
      obtain ⟨hdr, hhdr⟩ : ∃ d : descriptor, d =
        { type := (descriptor_type.or descriptor_type.dict m), position := pos,
          offset := (kvs.records (pos + 1)).length + 1, size := kvs.length } := ⟨_, rfl⟩
      obtain ⟨en, hen⟩ : ∃ d : descriptor, d =
        { type := (descriptor_type.or
            (descriptor_type.or descriptor_type.dict descriptor_type.end_bit) m),
          position := pos + 1 + kvs.wire.length,
          offset := (kvs.records (pos + 1)).length + 1, size := kvs.length } := ⟨_, rfl⟩
      simp only [bvalue.records] at hds
      rw [← hhdr, ← hen] at hds
      by_cases hlt : j < (kvs.records (pos + 1)).length
      · rw [List.getElem?_append_left hlt] at hj
        have hget : ds[pre.length]? = some hdr := by
          rw [hds, List.append_assoc, List.getElem?_append_right (le_refl _)]
          simp
        have := covered_dict kvs (pre ++ [hdr]) ([en] ++ post) (pos + 1) ds
          (by rw [hds]; simp) pre.length hdr 0 hget
          (by rw [hhdr]; exact is_header_or_dict m hm _ _ _)
          (by rw [hhdr]; simp [descriptor.is_list, descriptor_type.or, descriptor_type.dict])
          (by rw [hhdr]
              simp [header_steps, descriptor.is_list, descriptor_type.or, descriptor_type.dict])
          rfl (by simp [walk]) j d hj hd
        have e1 : (pre ++ [hdr]).length + j = pre.length + (j + 1) := by
          simp only [List.length_append, List.length_singleton]
          omega
        rw [e1] at this
        exact this
      · rw [List.getElem?_append_right (by omega)] at hj
        have hj0 : j - (kvs.records (pos + 1)).length = 0 := by
          by_contra hne
          obtain ⟨k, hk⟩ := Nat.exists_eq_succ_of_ne_zero hne
          rw [hk] at hj
          simp at hj
        rw [hj0] at hj
        simp only [List.getElem?_cons_zero, Option.some.injEq] at hj
        rw [← hj] at hd
        simp [descriptor.is_end, descriptor_type.or, descriptor_type.end_bit] at hd
/-- The records of the elements of a list from the element number `k0` on, where
walking `k0` values from the record after the header `h0` leads to them. -/
theorem covered_list (xs : blist) (pre post : List descriptor) (pos : Nat)
    (ds : List descriptor) (hds : ds = pre ++ xs.records pos ++ post)
    (i0 : Nat) (h0 : descriptor) (k0 : Nat) (hh0 : ds[i0]? = some h0)
    (hhdr : h0.is_header = true) (hl : h0.is_list = true)
    (hsteps : header_steps h0 = k0 + xs.length) (hwalk : walk ds k0 (i0 + 1) = pre.length)
    (j : Nat) (d : descriptor) (hj : (xs.records pos)[j]? = some d) (hd : d.is_end = false) :
    child_with_role ds (pre.length + j) d := by
  cases xs with
  | nil => simp [blist.records] at hj
  | cons x xs =>
    simp only [blist.records] at hj hds
    simp only [blist.length] at hsteps
    have hds1 : ds = pre ++ x.records pos descriptor_type.list_value_bit ++
        (xs.records (pos + x.wire.length) ++ post) := by
      rw [hds]; simp
    by_cases hlt : j < (x.records pos descriptor_type.list_value_bit).length
    · rw [List.getElem?_append_left hlt] at hj
      rcases covered_value x pre (xs.records (pos + x.wire.length) ++ post) pos
        descriptor_type.list_value_bit rfl ds hds1 j d hj hd with h | h
      · subst h
        obtain ⟨hd0, rest, hR, hrole, _⟩ := records_head x pos descriptor_type.list_value_bit
        rw [hR] at hj
        simp only [List.getElem?_cons_zero, Option.some.injEq] at hj
        subst hj
        refine ⟨i0, h0, k0, hh0, hhdr, by omega, by simpa using hwalk, ?_⟩
        simpa only [child_role, hl, if_true] using hrole
      · exact h
    · rw [List.getElem?_append_right (by omega)] at hj
      have hnv := next_value_at_value x pre (xs.records (pos + x.wire.length) ++ post) pos
        descriptor_type.list_value_bit rfl
      rw [← hds1] at hnv
      have := covered_list xs (pre ++ x.records pos descriptor_type.list_value_bit) post
        (pos + x.wire.length) ds (by rw [hds]; simp) i0 h0 (k0 + 1) hh0 hhdr hl (by omega)
        (by rw [walk_succ_right, hwalk, hnv, List.length_append, bvalue_records_length])
        (j - (x.records pos descriptor_type.list_value_bit).length) d hj hd
      have e : (pre ++ x.records pos descriptor_type.list_value_bit).length +
          (j - (x.records pos descriptor_type.list_value_bit).length) = pre.length + j := by
        simp only [List.length_append]
        omega
      rw [e] at this
      exact this
/-- The records of the entries of a dict from the value number `k0` on, an even
number, where walking `k0` values from the record after the header `h0` leads
to them. -/
theorem covered_dict (kvs : bdict) (pre post : List descriptor) (pos : Nat)
    (ds : List descriptor) (hds : ds = pre ++ kvs.records pos ++ post)
    (i0 : Nat) (h0 : descriptor) (k0 : Nat) (hh0 : ds[i0]? = some h0)
    (hhdr : h0.is_header = true) (hl : h0.is_list = false)
    (hsteps : header_steps h0 = k0 + 2 * kvs.length) (hk0 : k0 % 2 = 0)
    (hwalk : walk ds k0 (i0 + 1) = pre.length)
    (j : Nat) (d : descriptor) (hj : (kvs.records pos)[j]? = some d) (hd : d.is_end = false) :
    child_with_role ds (pre.length + j) d := by
  cases kvs with
  | nil => simp [bdict.records] at hj
  | cons key v kvs =>
    simp only [bdict.records] at hj hds
    simp only [bdict.length] at hsteps
    obtain ⟨kr, hkr⟩ : ∃ d : descriptor, d =
      { type := (descriptor_type.or descriptor_type.string descriptor_type.dict_key_bit)
        position := pos, offset := (decimal_text key.length).length + 1, size := key.length } :=
      ⟨_, rfl⟩
    rw [← hkr] at hj hds
    have hget : ds[pre.length]? = some kr := by
      rw [hds, List.append_assoc, List.getElem?_append_right (le_refl _)]
      simp
    have hk1 : walk ds (k0 + 1) (i0 + 1) = pre.length + 1 := by
      rw [walk_succ_right, hwalk]
      exact next_value_at_scalar ds _ kr hget
        (by rw [hkr]; exact not_header_of_scalar _ (Or.inr rfl))
    have hds1 : ds = (pre ++ [kr]) ++ v.records (pos + (string_wire key).length)
        descriptor_type.dict_value_bit ++
        (kvs.records (pos + (string_wire key).length + v.wire.length) ++ post) := by
      rw [hds]; simp
    cases j with
    | zero =>
      simp only [List.getElem?_cons_zero, Option.some.injEq] at hj
      subst hj
      refine ⟨i0, h0, k0, hh0, hhdr, by omega, by simpa using hwalk, ?_⟩
      rw [hkr]
      simp [child_role, hl, hk0, has_role, descriptor_type.or, descriptor_type.string,
        descriptor_type.dict_key_bit]
    | succ j =>
      simp only [List.getElem?_cons_succ] at hj
      by_cases hlt : j < (v.records (pos + (string_wire key).length)
          descriptor_type.dict_value_bit).length
      · rw [List.getElem?_append_left hlt] at hj
        have e1 : (pre ++ [kr]).length + j = pre.length + (j + 1) := by
          simp only [List.length_append, List.length_singleton]
          omega
        rcases covered_value v (pre ++ [kr])
          (kvs.records (pos + (string_wire key).length + v.wire.length) ++ post)
          (pos + (string_wire key).length) descriptor_type.dict_value_bit rfl ds hds1 j d hj hd
          with h | h
        · subst h
          obtain ⟨hd0, rest, hR, hrole, _⟩ := records_head v (pos + (string_wire key).length)
            descriptor_type.dict_value_bit
          rw [hR] at hj
          simp only [List.getElem?_cons_zero, Option.some.injEq] at hj
          subst hj
          refine ⟨i0, h0, k0 + 1, hh0, hhdr, by omega, by simpa using hk1, ?_⟩
          have hodd : (k0 + 1) % 2 ≠ 0 := by omega
          simpa only [child_role, hl, Bool.false_eq_true, if_false, hodd] using hrole
        · rw [e1] at h
          exact h
      · rw [List.getElem?_append_right (by omega)] at hj
        have hnv := next_value_at_value v (pre ++ [kr])
          (kvs.records (pos + (string_wire key).length + v.wire.length) ++ post)
          (pos + (string_wire key).length) descriptor_type.dict_value_bit rfl
        rw [← hds1] at hnv
        simp only [List.length_append, List.length_singleton] at hnv
        have := covered_dict kvs
          (pre ++ kr :: v.records (pos + (string_wire key).length) descriptor_type.dict_value_bit)
          post (pos + (string_wire key).length + v.wire.length) ds (by rw [hds]; simp)
          i0 h0 (k0 + 2) hh0 hhdr hl (by omega) (by omega)
          (by rw [walk_succ_right, hk1, hnv, List.length_append, List.length_cons,
                bvalue_records_length]
              omega)
          (j - (v.records (pos + (string_wire key).length)
            descriptor_type.dict_value_bit).length) d hj hd
        have e : (pre ++ kr :: v.records (pos + (string_wire key).length)
            descriptor_type.dict_value_bit).length +
            (j - (v.records (pos + (string_wire key).length)
              descriptor_type.dict_value_bit).length) = pre.length + (j + 1) := by
          simp only [List.length_append, List.length_cons]
          omega
        rw [e] at this
        exact this
end

theorem getElem?_map_unstop (ds : List descriptor) (i : Nat) (h : descriptor)
    (hi : (ds.map descriptor.unstop)[i]? = some h) :
    ∃ h0, ds[i]? = some h0 ∧ h = h0.unstop := by
  rw [List.getElem?_map] at hi
  cases hx : ds[i]? with
  | none => rw [hx] at hi; cases hi
  | some x =>
    rw [hx] at hi
    simp only [Option.map_some', Option.some.injEq] at hi
    exact ⟨x, rfl, hi.symm⟩

theorem roles_exact_of_unstop (ds : List descriptor)
    (h : roles_exact (ds.map descriptor.unstop)) : roles_exact ds := by
  obtain ⟨hA, hB⟩ := h
  constructor
  · intro j d hj hd
    have hj' : (ds.map descriptor.unstop)[j]? = some d.unstop := by
      rw [List.getElem?_map, hj]
      rfl
    rcases hA j d.unstop hj' hd with h0 | ⟨hpos, i, hh, k, hi, hhh, hk, hw, hr⟩
    · exact Or.inl h0
    · right
      obtain ⟨h1, hi1, rfl⟩ := getElem?_map_unstop ds i hh hi
      rw [walk_unstop] at hw
      exact ⟨hpos, i, h1, k, hi1, hhh, hk, hw, hr⟩
  · intro i hh hi hhh
    have hi' : (ds.map descriptor.unstop)[i]? = some hh.unstop := by
      rw [List.getElem?_map, hi]
      rfl
    obtain ⟨hc, e, he, hee, her⟩ := hB i hh.unstop hi' hhh
    constructor
    · intro k hk
      obtain ⟨c, hc1, hc2, hc3⟩ := hc k hk
      rw [walk_unstop] at hc1
      obtain ⟨c0, hc0, rfl⟩ := getElem?_map_unstop ds _ c hc1
      exact ⟨c0, hc0, hc2, hc3⟩
    · obtain ⟨e0, he0, rfl⟩ := getElem?_map_unstop ds _ e he
      exact ⟨e0, he0, hee, her⟩

theorem records_roles_exact (v : bvalue) : roles_exact (v.records 0 descriptor_type.empty) := by
  constructor
  · intro j d hj hd
    rcases covered_value v [] [] 0 descriptor_type.empty rfl _ rfl j d hj hd with h | h
    · left
      subst h
      obtain ⟨h0, rest, hR, hrole, _⟩ := records_head v 0 descriptor_type.empty
      rw [hR] at hj
      simp only [List.getElem?_cons_zero, Option.some.injEq] at hj
      subst hj
      exact ⟨rfl, hrole⟩
    · by_cases hj0 : j = 0
      · left
        subst hj0
        obtain ⟨h0, rest, hR, hrole, _⟩ := records_head v 0 descriptor_type.empty
        rw [hR] at hj
        simp only [List.getElem?_cons_zero, Option.some.injEq] at hj
        subst hj
        exact ⟨rfl, hrole⟩
      · right
        refine ⟨by omega, ?_⟩
        simpa using h
  · intro i h hi hh
    have := headers_value
      (fun ds i h => (∀ k, k < header_steps h →
          ∃ c, ds[walk ds k (i + 1)]? = some c ∧ c.is_end = false ∧
            has_role c (child_role h k)) ∧
        ∃ e, ds[i + h.offset]? = some e ∧ e.is_end = true ∧ has_role e h.type)
      (fun v pre post pos m h _ hhead hh => roles_at_top v pre post pos m h hhead hh)
      v [] [] 0 descriptor_type.empty i h rfl hi hh
    simpa using this

/-- C17: for every valid input, in the table a fresh parser returns (1) every
record that opens a value (integer, string, list header, dict header) is the
first record, at top level, and carries no role modifier, or is a value directly
inside a container and carries exactly the role of its place there:
`list_value` inside a list; inside a dict `dict_key` for the values number 0, 2,
4, .. and `dict_value` for the values number 1, 3, 5, ..; (2) each of the direct
values of every container has that role; (3) the end record of every container
carries, besides `end`, the same role modifier as its header. -/
theorem role_modifiers (v : bvalue) (options : parser_options) (h : v.valid_for options) :
    ∃ t p, (bencode.descriptor_parser.create options).parse v.wire = some (some t, p) ∧
      roles_exact t.descriptors := by
  obtain ⟨p, hp, _, _⟩ := parse_valid v options h
  refine ⟨_, p, hp, ?_⟩
  apply roles_exact_of_unstop
  rw [mark_stop_map_unstop, map_unstop_of_no_stop _ (bvalue_records_no_stop v 0 _ rfl)]
  exact records_roles_exact v

theorem role_modifiers_witness :
    sample_dict.wire = bytes "d1:ai-7e1:bl0:ee" ∧
    sample_dict.valid_for {} ∧
    ∃ t p, (bencode.descriptor_parser.create {}).parse sample_dict.wire = some (some t, p) ∧
      roles_exact t.descriptors :=
  ⟨sample_dict_wire, sample_dict_valid, role_modifiers sample_dict {} sample_dict_valid⟩

/-! ## The postconditions of `parse_loop` -/

/-- C23: the condition asserted by `Ensures(stack_.empty())` at the successful
end of `parse_loop` does not hold on the inputs `l` and `d1:a` (nor on `li1e`):
a fresh parser reaches the end of the input with no error recorded and a frame
still on the stack, and `parse` returns a table.  The other asserted condition,
cursor at the end of the input, holds there. -/
theorem ensures_stack_empty_fails :
    (∃ t p, (bencode.descriptor_parser.create {}).parse (bytes "l") = some (some t, p) ∧
      p.error_ = none ∧ p.stack_.isEmpty = false ∧ p.it_ = p.input.length ∧
      p.ensures_hold = false) ∧
    (∃ t p, (bencode.descriptor_parser.create {}).parse (bytes "d1:a") = some (some t, p) ∧
      p.error_ = none ∧ p.stack_.isEmpty = false ∧ p.it_ = p.input.length ∧
      p.ensures_hold = false) ∧
    ∃ t p, (bencode.descriptor_parser.create {}).parse (bytes "li1e") = some (some t, p) ∧
      p.error_ = none ∧ p.stack_.isEmpty = false ∧ p.it_ = p.input.length ∧
      p.ensures_hold = false :=
  ⟨⟨_, _, rfl, rfl, rfl, rfl, rfl⟩, ⟨_, _, rfl, rfl, rfl, rfl, rfl⟩,
    ⟨_, _, rfl, rfl, rfl, rfl, rfl⟩⟩

/-! ## The byte count of the encoder -/

theorem event_text_length (ev : event) : (event_text ev).length = event_size ev := by
  cases ev with
  | integer value =>
    by_cases h : value < 0
    · simp [event_text, event_size, h]
      omega
    · simp [event_text, event_size, h]
      omega
  | string value =>
    simp [event_text, event_size]
    omega
  | begin_list size => rfl
  | list_item => rfl
  | end_list size => rfl
  | begin_dict size => rfl
  | dict_key => rfl
  | dict_value => rfl
  | end_dict size => rfl

theorem feed_size (e : encode_to) (ev : event) :
    (e.feed ev).size_ = e.size_ + event_size ev := by
  cases ev with
  | integer value =>
    by_cases h : value < 0
    · simp [encode_to.feed, encode_to.integer, event_size, itoa.to_buffer, h]
      omega
    · have : value.toNat = value.natAbs := by omega
      simp [encode_to.feed, encode_to.integer, event_size, itoa.to_buffer, h, this]
  | string value =>
    simp [encode_to.feed, encode_to.string, event_size, itoa.to_buffer_unsigned]
  | begin_list size => rfl
  | list_item => rfl
  | end_list size => rfl
  | begin_dict size => rfl
  | dict_key => rfl
  | dict_value => rfl
  | end_dict size => rfl

theorem feed_all_size (e : encode_to) (events : List event) :
    (e.feed_all events).size_ = e.size_ + events_size events := by
  induction events generalizing e with
  | nil => simp [encode_to.feed_all, events_size]
  | cons ev rest ih =>
    have := ih (e.feed ev)
    simp only [encode_to.feed_all, List.foldl_cons] at this ⊢
    rw [this, feed_size, events_size, Nat.add_assoc]

theorem events_text_length (events : List event) :
    (events_text events).length = events_size events := by
  induction events with
  | nil => rfl
  | cons ev rest ih => simp [events_text, events_size, event_text_length, ih]

/-- C24: after any sequence of events fed to a fresh encoder, `count()` is the
number of bytes written so far, and it is the sum over the events of: 2 and the
number of characters of the decimal text for an integer, the number of digits
of the length, 1 and the length of the payload for a string, 1 for each begin
and end event, 0 for each role marker. -/
theorem count_is_exact (events : List event) :
    (encode_to.feed_all {} events).count = (encode_to.feed_all {} events).out_.length ∧
    (encode_to.feed_all {} events).count = events_size events := by
  have h1 := feed_all_size {} events
  have h2 := feed_all_out {} events
  simp only [encode_to.count]
  rw [h1, h2]
  simp [events_text_length]

/-! ## The empty input -/

/-- C25: for the empty byte range and any options, `parse` of a fresh parser
returns a table with no records, so with no record that carries the stop
modifier, and records no error. -/
theorem empty_input (options : parser_options) :
    ∃ t q, (bencode.descriptor_parser.create options).parse [] = some (some t, q) ∧
      t.descriptors = [] ∧ (∀ d ∈ t.descriptors, d.is_stop = false) ∧
      q.has_error = false ∧ q.error_ = none :=
  ⟨_, _, rfl, rfl, by simp, rfl, rfl⟩

/-! ## The conversion buffer of the encoder -/

/-- C26: the text that `itoa::to_buffer` writes into the 20 bytes of `buffer_`
has at most 20 characters, sign included, for every signed 64-bit value, and at
most 20 characters for every unsigned 64-bit length; both bounds are reached. -/
theorem conversion_buffer_not_overrun :
    (∀ v : Int, -9223372036854775808 ≤ v → v ≤ 9223372036854775807 →
      (itoa.to_buffer v).length ≤ 20) ∧
    (∀ n : Nat, n < 18446744073709551616 → (itoa.to_buffer_unsigned n).length ≤ 20) ∧
    (itoa.to_buffer (-9223372036854775808)).length = 20 ∧
    (itoa.to_buffer_unsigned 18446744073709551615).length = 20 := by
  refine ⟨?_, ?_, by decide, by decide⟩
  · intro v h1 h2
    have hb : v.natAbs < 10 ^ 19 := by omega
    have := decimal_text_length_le v.natAbs 19 (by decide) hb
    unfold itoa.to_buffer
    split
    · simp only [List.length_cons]
      omega
    · have e : v.toNat = v.natAbs := by omega
      rw [e]
      omega
  · intro n hn
    have hb : n < 10 ^ 20 := by omega
    exact decimal_text_length_le n 20 (by decide) hb

theorem conversion_buffer_not_overrun_witness :
    (itoa.to_buffer 9223372036854775807).length ≤ 20 ∧
    (itoa.to_buffer_unsigned 4294967295).length ≤ 20 :=
  ⟨conversion_buffer_not_overrun.1 9223372036854775807 (by decide) (by decide),
    conversion_buffer_not_overrun.2.1 4294967295 (by decide)⟩

/-! ## Several top-level values -/

mutual
theorem bvalue_records_shift (v : bvalue) (pos n : Nat) (m : descriptor_type) :
    v.records (pos + n) m = (v.records pos m).map (descriptor.shift n) := by
  cases v with
  | integer i => simp [bvalue.records, descriptor.shift]
  | string s => simp [bvalue.records, descriptor.shift]
  | list xs =>
    have e : pos + n + 1 = pos + 1 + n := by omega
    simp only [bvalue.records, List.map_cons, List.map_append, List.map_nil, descriptor.shift,
      blist_records_length, e, ← blist_records_shift xs (pos + 1) n]
    have e2 : pos + 1 + n + xs.wire.length = pos + 1 + xs.wire.length + n := by omega
    rw [e2]
  | dict kvs =>
    have e : pos + n + 1 = pos + 1 + n := by omega
    simp only [bvalue.records, List.map_cons, List.map_append, List.map_nil, descriptor.shift,
      bdict_records_length, e, ← bdict_records_shift kvs (pos + 1) n]
    have e2 : pos + 1 + n + kvs.wire.length = pos + 1 + kvs.wire.length + n := by omega
    rw [e2]
theorem blist_records_shift (xs : blist) (pos n : Nat) :
    xs.records (pos + n) = (xs.records pos).map (descriptor.shift n) := by
  cases xs with
  | nil => simp [blist.records]
  | cons x xs =>
    have e : pos + n + x.wire.length = pos + x.wire.length + n := by omega
    simp only [blist.records, List.map_append, e, ← bvalue_records_shift x pos n,
      ← blist_records_shift xs (pos + x.wire.length) n]
theorem bdict_records_shift (kvs : bdict) (pos n : Nat) :
    kvs.records (pos + n) = (kvs.records pos).map (descriptor.shift n) := by
  cases kvs with
  | nil => simp [bdict.records]
  | cons k v kvs =>
    have e1 : pos + n + (string_wire k).length = pos + (string_wire k).length + n := by omega
    have e2 : pos + n + (string_wire k).length + v.wire.length =
        pos + (string_wire k).length + v.wire.length + n := by omega
    have e3 : pos + (string_wire k).length + n + v.wire.length =
        pos + (string_wire k).length + v.wire.length + n := by omega
    simp only [bdict.records, List.map_cons, List.map_append, descriptor.shift, e1, e2,
      ← bvalue_records_shift v (pos + (string_wire k).length) n,
      ← bdict_records_shift kvs (pos + (string_wire k).length + v.wire.length) n]
    rw [e3]
end

/-- After the first of several top-level values the loop is at the head of a
pass with the records of that value, an empty stack and no error. -/
theorem run_first_value (v : bvalue) (options : parser_options) (post : List Nat) (fuel : Nat)
    (hwf : v.wf) (hlen : (v.wire ++ post).length < 4294967296)
    (hlim : v.count ≤ options.value_limit + 1) (hrec : v.depth ≤ options.recursion_limit) :
    bencode.descriptor_parser.parse_loop_fuel (fuel + v.count)
        ((bencode.descriptor_parser.create options).start (v.wire ++ post)) =
      bencode.descriptor_parser.parse_loop_fuel fuel
        { input := v.wire ++ post, it_ := v.wire.length
          descriptors_ := v.records 0 descriptor_type.empty, stack_ := [], error_ := none
          options_ := options } := by
  rw [run_value v _ post fuel hwf rfl
    (by simp [bencode.descriptor_parser.remaining, bencode.descriptor_parser.start])
    (by simpa [bencode.descriptor_parser.start] using hlen)
    (by simp [bencode.descriptor_parser.start])
    (by simp [bencode.descriptor_parser.start, bencode.descriptor_parser.create])
    (by simp [bencode.descriptor_parser.value_context, value_stack,
      bencode.descriptor_parser.start, bencode.descriptor_parser.create])
    (by simpa [bencode.descriptor_parser.start, bencode.descriptor_parser.create] using hlim)
    (by simpa [bencode.descriptor_parser.start, bencode.descriptor_parser.create] using hrec)]
  simp [bencode.descriptor_parser.after_value, bencode.descriptor_parser.start,
    bencode.descriptor_parser.create, bencode.descriptor_parser.context, stack_context,
    detail.descriptor_type_modifier, stack_after_value]

theorem parse_two_values (v w : bvalue) (options : parser_options)
    (hv : v.wf) (hw : w.wf) (hlen : (v.wire ++ w.wire).length < 4294967296)
    (hlim : v.count + w.count ≤ options.value_limit + 1)
    (hrv : v.depth ≤ options.recursion_limit) (hrw : w.depth ≤ options.recursion_limit) :
    (bencode.descriptor_parser.create options).parse (v.wire ++ w.wire) =
      some (some { descriptors := mark_stop (v.records 0 descriptor_type.empty ++
                      w.records v.wire.length descriptor_type.empty)
                   data := v.wire ++ w.wire },
        { input := v.wire ++ w.wire, it_ := v.wire.length + w.wire.length, descriptors_ := []
          stack_ := [], error_ := none, options_ := options }) := by
  have hcv := bvalue_count_le_wire v
  have hcw := bvalue_count_le_wire w
  have hfuel : (v.wire ++ w.wire).length - 0 + 1 =
      ((v.wire.length + w.wire.length - v.count - w.count) + 1 + w.count) + v.count := by
    simp only [List.length_append]
    omega
  have h1 := run_first_value v options w.wire
    ((v.wire.length + w.wire.length - v.count - w.count) + 1 + w.count) hv hlen (by omega) hrv
  have h2 := run_value w
    { input := v.wire ++ w.wire, it_ := v.wire.length
      descriptors_ := v.records 0 descriptor_type.empty, stack_ := [], error_ := none
      options_ := options } [] (v.wire.length + w.wire.length - v.count - w.count + 1) hw rfl
    (by simp [bencode.descriptor_parser.remaining])
    (by simpa using hlen)
    (by simp [bvalue_records_length]; exact hcv)
    (by simp)
    (by simp [bencode.descriptor_parser.value_context, value_stack])
    (by simpa [bvalue_records_length] using hlim)
    (by simpa using hrw)
  have hst : (bencode.descriptor_parser.create options).start (v.wire ++ w.wire) =
      { bencode.descriptor_parser.create options with
        input := v.wire ++ w.wire, it_ := 0, descriptors_ := [], error_ := none } := rfl
  simp only [bencode.descriptor_parser.parse, bencode.descriptor_parser.parse_loop]
  rw [← hst]
  simp only [bencode.descriptor_parser.start]
  rw [hfuel]
  rw [hst] at h1
  rw [h1, h2, parse_loop_fuel_done _ _ (by simp [bencode.descriptor_parser.after_value]),
    finish_eq _ (by simp [bencode.descriptor_parser.after_value])]
  simp [bencode.descriptor_parser.after_value, bencode.descriptor_parser.context, stack_context,
    detail.descriptor_type_modifier, stack_after_value]

theorem moves_forward_set_error (p : bencode.descriptor_parser) (ec : parsing_errc)
    (ctx : Option bencode_type) : moves_forward p (p.set_error ec ctx) := by
  refine ⟨Nat.le_refl _, ?_⟩
  intro e he
  simp only [bencode.descriptor_parser.set_error, Option.some.injEq,
    bencode.descriptor_parser.current_position] at he
  right
  rw [← he]

theorem moves_forward_modify_top (p q : bencode.descriptor_parser)
    (f : detail.descriptor_parser_stack_frame → detail.descriptor_parser_stack_frame)
    (h : moves_forward p q) : moves_forward p (bencode.descriptor_parser.modify_top f q) := by
  unfold bencode.descriptor_parser.modify_top
  cases q.stack_ <;> exact h

theorem moves_forward_dispatch (p : bencode.descriptor_parser) (st : parser_state)
    (r : Bool × bencode.descriptor_parser) (h : moves_forward p r.2) :
    moves_forward p (bencode.descriptor_parser.dispatch st r).2 := by
  unfold bencode.descriptor_parser.dispatch
  cases r.1
  · simpa using h
  · cases st <;> simp only [Bool.not_true, Bool.false_eq_true, if_false]
    · exact h
    · exact moves_forward_modify_top p _ _ h
    · exact h
    · exact moves_forward_modify_top p _ _ h

theorem moves_forward_handle_integer (p : bencode.descriptor_parser) (m : descriptor_type) :
    moves_forward p (p.handle_integer m).2 := by
  unfold bencode.descriptor_parser.handle_integer
  cases bdecode_integer p.remaining with
  | error e =>
    obtain ⟨ec, moved⟩ := e
    refine ⟨by simp [bencode.descriptor_parser.set_error], ?_⟩
    intro e he
    simp only [bencode.descriptor_parser.set_error, Option.some.injEq,
      bencode.descriptor_parser.current_position] at he
    right
    rw [← he]
    simp
  | ok r =>
    obtain ⟨v, moved⟩ := r
    exact ⟨by simp, fun e he => Or.inl he⟩

theorem moves_forward_handle_string (p : bencode.descriptor_parser) (m : descriptor_type) :
    moves_forward p (p.handle_string m).2 := by
  unfold bencode.descriptor_parser.handle_string
  cases bdecode_string_token p.remaining with
  | error e =>
    obtain ⟨ec, moved⟩ := e
    refine ⟨by simp [bencode.descriptor_parser.set_error], ?_⟩
    intro e he
    simp only [bencode.descriptor_parser.set_error, Option.some.injEq,
      bencode.descriptor_parser.current_position] at he
    right
    rw [← he]
    simp
  | ok r =>
    obtain ⟨tok, moved⟩ := r
    exact ⟨by simp, fun e he => Or.inl he⟩

theorem moves_forward_handle_dict_key (p : bencode.descriptor_parser) :
    moves_forward p p.handle_dict_key.2 := by
  unfold bencode.descriptor_parser.handle_dict_key
  cases bdecode_string_token p.remaining with
  | error e =>
    obtain ⟨ec, moved⟩ := e
    refine ⟨by simp [bencode.descriptor_parser.set_error], ?_⟩
    intro e he
    simp only [bencode.descriptor_parser.set_error, Option.some.injEq,
      bencode.descriptor_parser.current_position] at he
    right
    rw [← he]
    simp
  | ok r =>
    obtain ⟨tok, moved⟩ := r
    simp only
    have h0 : moves_forward p { p with it_ := p.it_ + moved } :=
      ⟨by simp, fun e he => Or.inl he⟩
    have h1 := moves_forward_modify_top p _
      (fun f => { f with state := parser_state.expect_dict_value }) h0
    exact ⟨h1.1, h1.2⟩

theorem moves_forward_handle_list_begin (p : bencode.descriptor_parser) (m : descriptor_type) :
    moves_forward p (p.handle_list_begin m).2 := by
  unfold bencode.descriptor_parser.handle_list_begin
  simp only
  split
  · exact moves_forward_set_error p _ _
  · exact ⟨by simp, fun e he => Or.inl he⟩

theorem moves_forward_handle_dict_begin (p : bencode.descriptor_parser) (m : descriptor_type) :
    moves_forward p (p.handle_dict_begin m).2 := by
  unfold bencode.descriptor_parser.handle_dict_begin
  simp only
  split
  · exact moves_forward_set_error p _ _
  · exact ⟨by simp, fun e he => Or.inl he⟩

theorem moves_forward_handle_value (p : bencode.descriptor_parser) (st : parser_state) :
    moves_forward p (p.handle_value st).2 := by
  unfold bencode.descriptor_parser.handle_value
  simp only
  split
  · exact moves_forward_dispatch p st _ (moves_forward_handle_integer p _)
  · split
    · exact moves_forward_handle_list_begin p _
    · split
      · exact moves_forward_handle_dict_begin p _
      · split
        · exact moves_forward_dispatch p st _ (moves_forward_handle_string p _)
        · cases st <;> exact moves_forward_set_error p _ _

theorem moves_forward_modify_descriptor (p q : bencode.descriptor_parser) (i : Nat)
    (f : descriptor → descriptor) (h : moves_forward p q) :
    moves_forward p (q.modify_descriptor i f) := by
  unfold bencode.descriptor_parser.modify_descriptor
  cases q.descriptors_[i]? <;> exact h

theorem moves_forward_nested (p q : bencode.descriptor_parser) (h : moves_forward p q) :
    moves_forward p q.handle_nested_structures.2 := by
  unfold bencode.descriptor_parser.handle_nested_structures
  cases q.stack_ <;> exact h

theorem moves_forward_handle_container_end (p : bencode.descriptor_parser)
    (tag : descriptor_type) : moves_forward p (p.handle_container_end tag).2 := by
  unfold bencode.descriptor_parser.handle_container_end
  cases hs : p.stack_ with
  | nil => exact ⟨Nat.le_refl _, fun e he => Or.inl he⟩
  | cons top below =>
    simp only
    apply moves_forward_modify_descriptor
    apply moves_forward_modify_descriptor
    have h0 : moves_forward p { p with stack_ := below, it_ := p.it_ + 1 } :=
      ⟨by simp, fun e he => Or.inl he⟩
    have h1 := moves_forward_nested p _ h0
    exact ⟨h1.1, h1.2⟩

theorem moves_forward_loop_body (p : bencode.descriptor_parser) :
    moves_forward p p.loop_body := by
  unfold bencode.descriptor_parser.loop_body
  simp only
  cases p.stack_ with
  | nil => exact moves_forward_handle_value p _
  | cons top below =>
    simp only
    cases top.state with
    | expect_value => exact moves_forward_set_error p _ _
    | expect_list_value =>
      simp only
      split
      · exact moves_forward_handle_container_end p _
      · exact moves_forward_handle_value p _
    | expect_dict_key =>
      simp only
      split
      · exact moves_forward_handle_dict_key p
      · split
        · exact moves_forward_handle_container_end p _
        · exact moves_forward_set_error p _ _
    | expect_dict_value =>
      simp only
      split
      · exact moves_forward_set_error p _ _
      · exact moves_forward_handle_value p _

theorem state_after_invariant_body (I : bencode.descriptor_parser → Prop)
    (hstep : ∀ p, I p → p.running → I p.loop_body)
    (n : Nat) (p : bencode.descriptor_parser) (h0 : I p) :
    I (bencode.descriptor_parser.state_after n p) := by
  induction n generalizing p with
  | zero => exact h0
  | succ n ih =>
    unfold bencode.descriptor_parser.state_after
    by_cases hr : p.running
    · rw [if_pos hr]
      exact ih _ (hstep p h0 hr)
    · rw [if_neg hr]
      exact h0

theorem parse_loop_of_fuel (p : bencode.descriptor_parser) (fuel : Nat)
    (r : Bool × bencode.descriptor_parser) (hle : p.it_ ≤ p.input.length)
    (h : bencode.descriptor_parser.parse_loop_fuel fuel p = some r) : p.parse_loop = some r := by
  obtain ⟨n, hn, hres⟩ := parse_loop_fuel_result fuel p r h
  rw [hres]
  exact parse_loop_of_final_state p n hle hn

/-- The loop on a first value followed by more bytes continues as the loop that
starts after the first value. -/
theorem parse_loop_after_first_value (v : bvalue) (options : parser_options) (post : List Nat)
    (hwf : v.wf) (hlen : (v.wire ++ post).length < 4294967296)
    (hlim : v.count ≤ options.value_limit + 1) (hrec : v.depth ≤ options.recursion_limit) :
    ((bencode.descriptor_parser.create options).start (v.wire ++ post)).parse_loop =
      bencode.descriptor_parser.parse_loop
        { input := v.wire ++ post, it_ := v.wire.length
          descriptors_ := v.records 0 descriptor_type.empty, stack_ := [], error_ := none
          options_ := options } := by
  have hcv := bvalue_count_le_wire v
  have hfuel : ((bencode.descriptor_parser.create options).start (v.wire ++ post)).input.length -
      ((bencode.descriptor_parser.create options).start (v.wire ++ post)).it_ + 1 =
      (v.wire.length + post.length + 1 - v.count) + v.count := by
    simp only [bencode.descriptor_parser.start, List.length_append]
    omega
  have h1 := run_first_value v options post (v.wire.length + post.length + 1 - v.count)
    hwf hlen hlim hrec
  obtain ⟨r, hr⟩ := parse_loop_fuel_total (v.wire.length + post.length + 1 - v.count)
    { input := v.wire ++ post, it_ := v.wire.length
      descriptors_ := v.records 0 descriptor_type.empty, stack_ := [], error_ := none
      options_ := options }
    (fun _ => by simp)
    (by simp [bencode.descriptor_parser.work_left]; omega)
  have h2 := parse_loop_of_fuel _ _ r (by simp) hr
  rw [h2]
  unfold bencode.descriptor_parser.parse_loop
  rw [hfuel, h1, hr]

theorem parse_eq_of_parse_loop (p0 : bencode.descriptor_parser) (B : List Nat)
    (r : Bool × bencode.descriptor_parser) (h : (p0.start B).parse_loop = some r) :
    p0.parse B =
      if !r.1 then some (none, r.2)
      else some (some { descriptors := r.2.descriptors_, data := B },
        { r.2 with descriptors_ := [] }) := by
  unfold bencode.descriptor_parser.start at h
  unfold bencode.descriptor_parser.parse
  simp only [h]

theorem starts_value_false (c : Nat) (h : starts_value c = false) :
    c ≠ symbol.begin_integer ∧ c ≠ symbol.begin_list ∧ c ≠ symbol.begin_dict ∧
      symbol.digit c = false := by
  simp only [starts_value, Bool.or_eq_false_iff, decide_eq_false_iff_not] at h
  exact ⟨h.1.1.1, h.1.1.2, h.1.2, h.2⟩

theorem top_level_value_start (p : bencode.descriptor_parser) (hs : p.stack_ = [])
    (hc : starts_value p.peek = true) :
    ∀ e, p.loop_body.error_ = some e →
      p.error_ = some e ∨ e.context ≠ none ∨ e.errc = parsing_errc.recursion_depth_exceeded := by
  intro e he
  simp only [bencode.descriptor_parser.loop_body, hs] at he
  unfold bencode.descriptor_parser.handle_value at he
  simp only at he
  split at he
  · unfold bencode.descriptor_parser.handle_integer at he
    cases hdec : bdecode_integer p.remaining with
    | error x =>
      obtain ⟨ec, moved⟩ := x
      rw [hdec] at he
      simp [bencode.descriptor_parser.dispatch, bencode.descriptor_parser.set_error] at he
      right; left
      rw [← he]
      simp
    | ok x =>
      obtain ⟨v, moved⟩ := x
      rw [hdec] at he
      simp [bencode.descriptor_parser.dispatch] at he
      exact Or.inl he
  · split at he
    · unfold bencode.descriptor_parser.handle_list_begin at he
      simp only at he
      split at he
      · simp [bencode.descriptor_parser.set_error] at he
        right; right
        rw [← he]
      · exact Or.inl he
    · split at he
      · unfold bencode.descriptor_parser.handle_dict_begin at he
        simp only at he
        split at he
        · simp [bencode.descriptor_parser.set_error] at he
          right; right
          rw [← he]
        · exact Or.inl he
      · split at he
        · unfold bencode.descriptor_parser.handle_string at he
          cases hdec : bdecode_string_token p.remaining with
          | error x =>
            obtain ⟨ec, moved⟩ := x
            rw [hdec] at he
            simp [bencode.descriptor_parser.dispatch, bencode.descriptor_parser.set_error] at he
            right; left
            rw [← he]
            simp
          | ok x =>
            obtain ⟨tok, moved⟩ := x
            rw [hdec] at he
            simp [bencode.descriptor_parser.dispatch] at he
            exact Or.inl he
        · rename_i h1 h2 h3 h4
          simp only [starts_value, Bool.or_eq_true, decide_eq_true_eq] at hc
          rcases hc with ((hc | hc) | hc) | hc
          · exact absurd hc h1
          · exact absurd hc h2
          · exact absurd hc h3
          · exact absurd hc h4

theorem exit_result_false (p q : bencode.descriptor_parser)
    (h : p.exit_result = (false, q)) :
    (q = p ∧ p.error_ ≠ none) ∨
      q = p.set_error parsing_errc.value_limit_exceeded none := by
  unfold bencode.descriptor_parser.exit_result at h
  by_cases hc : p.it_ ≠ p.input.length ∧ p.error_ = none
  · rw [if_pos hc] at h
    simp only [Prod.mk.injEq, true_and] at h
    exact Or.inr h.symm
  · rw [if_neg hc] at h
    by_cases he : p.error_ = none
    · rw [finish_eq p he] at h
      simp at h
    · have hs : p.error_.isSome = true := by
        cases hh : p.error_ with
        | none => exact absurd hh he
        | some e => rfl
      simp only [bencode.descriptor_parser.finish, hs, if_true, Prod.mk.injEq, true_and] at h
      exact Or.inl ⟨h.symm, he⟩

/-- Trailing bytes whose first byte cannot start a value: `expected_value` at
that byte, with no context. -/
theorem trailing_byte_rejected (v : bvalue) (options : parser_options) (c : Nat)
    (rest : List Nat) (hv : v.valid_for options)
    (hlen : (v.wire ++ c :: rest).length < 4294967296) (hc : starts_value c = false) :
    ∃ q, (bencode.descriptor_parser.create options).parse (v.wire ++ c :: rest) =
        some (none, q) ∧
      q.error_ = some { errc := parsing_errc.expected_value, position := v.wire.length
                        context := none } := by
  obtain ⟨hwf, _, hlim, hrec⟩ := hv
  obtain ⟨p1, hp1⟩ : ∃ p : bencode.descriptor_parser, p =
      { input := v.wire ++ c :: rest, it_ := v.wire.length
        descriptors_ := v.records 0 descriptor_type.empty, stack_ := [], error_ := none
        options_ := options } := ⟨_, rfl⟩
  have hloop := parse_loop_after_first_value v options (c :: rest) hwf hlen (by omega) hrec
  rw [← hp1] at hloop
  have hrun : p1.running := by
    rw [hp1]
    refine ⟨?_, rfl, ?_⟩
    · simp
    · simpa [bvalue_records_length] using hlim
  have hpk : p1.peek = c := by
    rw [hp1]
    simp [bencode.descriptor_parser.peek, bencode.descriptor_parser.remaining]
  obtain ⟨h1, h2, h3, h4⟩ := starts_value_false c hc
  have hbody := expect_value_other_byte p1 (by rw [hp1]; trivial) (by rw [hpk]; exact h1)
    (by rw [hpk]; exact h2) (by rw [hpk]; exact h3) (by rw [hpk]; exact h4)
    (by rw [hp1]; simp)
  have hst : bencode.descriptor_parser.state_after 1 p1 = p1.loop_body := by
    simp [bencode.descriptor_parser.state_after, hrun]
  have hnr : ¬ (bencode.descriptor_parser.state_after 1 p1).running := by
    rw [hst, hbody]
    intro h
    simp [bencode.descriptor_parser.set_error] at h
    exact absurd h.2.1 (by simp)
  have hfin := parse_loop_of_final_state p1 1 (by rw [hp1]; simp) hnr
  rw [hst, hbody] at hfin
  have hex : (p1.set_error parsing_errc.expected_value (value_error_context p1.stack_)).exit_result =
      (false, p1.set_error parsing_errc.expected_value (value_error_context p1.stack_)) := by
    simp [bencode.descriptor_parser.exit_result, bencode.descriptor_parser.finish,
      bencode.descriptor_parser.set_error]
  rw [hex, ← hloop] at hfin
  refine ⟨p1.set_error parsing_errc.expected_value (value_error_context p1.stack_), ?_, ?_⟩
  · rw [parse_eq_of_parse_loop _ _ _ hfin]
    simp
  · rw [hp1]
    rfl

/-- Trailing bytes whose first byte can start a value: whatever error the parse
ends with, it is not `expected_value` with no context at that byte. -/
theorem trailing_value_not_rejected_at_start (v : bvalue) (options : parser_options) (c : Nat)
    (rest : List Nat) (hv : v.valid_for options)
    (hlen : (v.wire ++ c :: rest).length < 4294967296) (hc : starts_value c = true)
    (q : bencode.descriptor_parser)
    (hq : (bencode.descriptor_parser.create options).parse (v.wire ++ c :: rest) =
      some (none, q)) :
    q.error_ ≠ some { errc := parsing_errc.expected_value, position := v.wire.length
                      context := none } := by
  obtain ⟨hwf, _, hlim, hrec⟩ := hv
  obtain ⟨p1, hp1⟩ : ∃ p : bencode.descriptor_parser, p =
      { input := v.wire ++ c :: rest, it_ := v.wire.length
        descriptors_ := v.records 0 descriptor_type.empty, stack_ := [], error_ := none
        options_ := options } := ⟨_, rfl⟩
  have hloop := parse_loop_after_first_value v options (c :: rest) hwf hlen (by omega) hrec
  rw [← hp1] at hloop
  have hle : p1.it_ ≤ p1.input.length := by rw [hp1]; simp
  have hrun : p1.running := by
    rw [hp1]
    refine ⟨?_, rfl, ?_⟩
    · simp
    · simpa [bvalue_records_length] using hlim
  have hpk : p1.peek = c := by
    rw [hp1]
    simp [bencode.descriptor_parser.peek, bencode.descriptor_parser.remaining]
  have hit : p1.it_ = v.wire.length := by rw [hp1]
  obtain ⟨r, hr⟩ := parse_loop_total p1 hle
  rw [hr] at hloop
  rw [parse_eq_of_parse_loop _ _ _ hloop] at hq
  obtain ⟨success, q2⟩ := r
  cases success with
  | true => simp at hq
  | false =>
    simp only [Bool.not_false, if_true, Option.some.injEq, Prod.mk.injEq, true_and] at hq
    subst hq
    obtain ⟨n, hn, hres⟩ := parse_loop_fuel_result _ _ _ hr
    cases n with
    | zero => exact absurd hrun hn
    | succ m =>
      have hst : bencode.descriptor_parser.state_after (m + 1) p1 =
          bencode.descriptor_parser.state_after m p1.loop_body := by
        simp [bencode.descriptor_parser.state_after, hrun]
      rw [hst] at hn hres
      have hJ := state_after_invariant_body
        (fun s => (s.error_ = none → v.wire.length < s.it_) ∧
          ∀ e, s.error_ = some e → e ≠
            { errc := parsing_errc.expected_value, position := v.wire.length, context := none })
        (fun s hI hrs => by
          have hlt := hI.1 hrs.2.1
          obtain ⟨hm1, hm2⟩ := moves_forward_loop_body s
          refine ⟨fun _ => by omega, ?_⟩
          intro e he
          rcases hm2 e he with h | h
          · rw [hrs.2.1] at h
            cases h
          · intro heq
            rw [heq] at h
            simp only at h
            omega)
        m p1.loop_body
        (by
          constructor
          · intro he
            rcases loop_step_progress p1 _ hrun hle (loop_body_step p1) with h | ⟨h, _⟩
            · exact absurd he h
            · rw [hit] at h
              exact h
          · intro e he
            rcases top_level_value_start p1 (by rw [hp1]) (by rw [hpk]; exact hc) e he
              with h | h | h
            · rw [hrun.2.1] at h
              cases h
            · intro heq
              rw [heq] at h
              exact h rfl
            · intro heq
              rw [heq] at h
              cases h)
      rcases exit_result_false _ _ hres.symm with ⟨h1, h2⟩ | h1
      · rw [h1]
        cases hq : (bencode.descriptor_parser.state_after m p1.loop_body).error_ with
        | none => exact absurd hq h2
        | some e =>
          intro heq
          exact hJ.2 e hq (Option.some.inj heq)
      · rw [h1]
        simp [bencode.descriptor_parser.set_error]

theorem append_ne_nil_of_records (v w : bvalue) (n : Nat) :
    v.records 0 descriptor_type.empty ++ w.records n descriptor_type.empty ≠ [] := by
  intro h
  have := congrArg List.length h
  simp only [List.length_append, bvalue_records_length, List.length_nil] at this
  have := bvalue_count_pos v
  omega

/-- C22 (as amended): (1) for all values `v` and `w` that a fresh parser accepts
and whose concatenation is within the limits of the parser (together at most
`value_limit` records, shorter than 2^32 bytes), the parser accepts the
concatenation of their inputs, and its table is the records of the table of the
first, without the stop modifier, followed by the records of the table of the
second with every position increased by the length of the first input, the
stop modifier on the last record only; (2) after a value that the parser
accepts, trailing bytes are read as a new top-level value: `parse` fails with
`expected_value`, no context, at the first trailing byte exactly when that byte
is not `i`, `l`, `d` or a decimal digit. -/
theorem several_top_level_values :
    (∀ (v w : bvalue) (options : parser_options),
      v.valid_for options → w.valid_for options →
      (v.wire ++ w.wire).length < 4294967296 → v.count + w.count ≤ options.value_limit →
      ∃ tA qA tB qB tAB q,
        (bencode.descriptor_parser.create options).parse v.wire = some (some tA, qA) ∧
        (bencode.descriptor_parser.create options).parse w.wire = some (some tB, qB) ∧
        (bencode.descriptor_parser.create options).parse (v.wire ++ w.wire) =
          some (some tAB, q) ∧
        q.error_ = none ∧ tAB.data = v.wire ++ w.wire ∧
        tAB.descriptors = mark_stop (tA.descriptors.map descriptor.unstop ++
          tB.descriptors.map (fun d => d.unstop.shift v.wire.length)) ∧
        stop_on_last_only tAB.descriptors) ∧
    (∀ (v : bvalue) (options : parser_options) (c : Nat) (rest : List Nat),
      v.valid_for options → (v.wire ++ c :: rest).length < 4294967296 →
      ((∃ q, (bencode.descriptor_parser.create options).parse (v.wire ++ c :: rest) =
          some (none, q) ∧
        q.error_ = some { errc := parsing_errc.expected_value, position := v.wire.length
                          context := none }) ↔ starts_value c = false)) := by
  constructor
  · intro v w options hv hw hlen hlim
    obtain ⟨qA, hA, _, _⟩ := parse_valid v options hv
    obtain ⟨qB, hB, _, _⟩ := parse_valid w options hw
    have hAB := parse_two_values v w options hv.1 hw.1 hlen (by omega) hv.2.2.2 hw.2.2.2
    refine ⟨_, qA, _, qB, _, _, hA, hB, hAB, rfl, rfl, ?_, ?_⟩
    · simp only
      have e1 : (mark_stop (v.records 0 descriptor_type.empty)).map descriptor.unstop =
          v.records 0 descriptor_type.empty := by
        rw [mark_stop_map_unstop, map_unstop_of_no_stop _ (bvalue_records_no_stop v 0 _ rfl)]
      have e2 : (mark_stop (w.records 0 descriptor_type.empty)).map
          (fun d => d.unstop.shift v.wire.length) =
          w.records v.wire.length descriptor_type.empty := by
        have := bvalue_records_shift w 0 v.wire.length descriptor_type.empty
        rw [Nat.zero_add] at this
        rw [this]
        have h3 : (mark_stop (w.records 0 descriptor_type.empty)).map
            (fun d => d.unstop.shift v.wire.length) =
            ((mark_stop (w.records 0 descriptor_type.empty)).map descriptor.unstop).map
              (descriptor.shift v.wire.length) := by
          rw [List.map_map]
          rfl
        rw [h3, mark_stop_map_unstop,
          map_unstop_of_no_stop _ (bvalue_records_no_stop w 0 _ rfl)]
      rw [e1, e2]
    · apply stop_on_last_only_mark_stop _ (append_ne_nil_of_records v w _)
      intro d hd
      rw [List.mem_append] at hd
      rcases hd with hd | hd
      · exact bvalue_records_no_stop v 0 _ rfl d hd
      · exact bvalue_records_no_stop w _ _ rfl d hd
  · intro v options c rest hv hlen
    constructor
    · rintro ⟨q, hq, he⟩
      by_contra hc
      have hc' : starts_value c = true := by
        cases h : starts_value c with
        | true => rfl
        | false => exact absurd h hc
      exact trailing_value_not_rejected_at_start v options c rest hv hlen hc' q hq he
    · intro hc
      exact trailing_byte_rejected v options c rest hv hlen hc

theorem several_top_level_values_witness :
    (∃ tA qA tB qB tAB q,
      (bencode.descriptor_parser.create {}).parse sample_nested_list.wire = some (some tA, qA) ∧
      (bencode.descriptor_parser.create {}).parse sample_dict.wire = some (some tB, qB) ∧
      (bencode.descriptor_parser.create {}).parse (sample_nested_list.wire ++ sample_dict.wire) =
        some (some tAB, q) ∧
      q.error_ = none ∧ tAB.data = sample_nested_list.wire ++ sample_dict.wire ∧
      tAB.descriptors = mark_stop (tA.descriptors.map descriptor.unstop ++
        tB.descriptors.map (fun d => d.unstop.shift sample_nested_list.wire.length)) ∧
      stop_on_last_only tAB.descriptors) ∧
    ((∃ q, (bencode.descriptor_parser.create {}).parse (sample_dict.wire ++ 120 :: bytes "i1e") =
        some (none, q) ∧
      q.error_ = some { errc := parsing_errc.expected_value
                        position := sample_dict.wire.length, context := none }) ↔
      starts_value 120 = false) :=
  ⟨several_top_level_values.1 sample_nested_list sample_dict {} sample_nested_list_valid
      sample_dict_valid (by decide) (by decide),
    several_top_level_values.2 sample_dict {} 120 (bytes "i1e") sample_dict_valid (by decide)⟩

/-- C22 (counterexample): a fresh parser with `value_limit = 2` accepts the
input `le`, a complete value of two records, and rejects the concatenation
`lele` of that input with itself with `value_limit_exceeded`. -/
theorem concatenation_rejected_by_value_limit :
    ∃ tA qA q,
      (bencode.descriptor_parser.create { value_limit := 2 }).parse (bytes "le") =
        some (some tA, qA) ∧
      tA.descriptors.length = 2 ∧
      (bencode.descriptor_parser.create { value_limit := 2 }).parse (bytes "le" ++ bytes "le") =
        some (none, q) ∧
      q.error = some { errc := parsing_errc.value_limit_exceeded, position := 3
                       context := none } :=
  ⟨_, _, _, rfl, rfl, rfl, rfl⟩

/-! ## Layout written to an appending sink -/

theorem fill_spaces_eq (fuel len : Nat) (out : List Nat) (h : len ≤ fuel) :
    format_json_to.fill_spaces fuel len out = out ++ spaces len := by
  induction fuel generalizing len out with
  | zero =>
    have : len = 0 := by omega
    subst this
    simp [format_json_to.fill_spaces, spaces]
  | succ fuel ih =>
    unfold format_json_to.fill_spaces
    by_cases h0 : len = 0
    · subst h0
      simp [spaces]
    · rw [if_neg h0]
      simp only
      rw [ih _ _ (by omega)]
      simp only [spaces, List.append_assoc, ← List.replicate_add]
      congr 2
      omega

theorem next_line_eq (f : format_json_to) :
    f.next_line = { f with out_ := f.out_ ++ [10] ++ spaces f.current_indent_ } := by
  simp [format_json_to.next_line, fill_spaces_eq]

theorem next_eq (f : format_json_to) :
    f.next = { f with out_ := f.out_ ++ f.lead, after_key_ := false } := by
  obtain ⟨out, indent, cur, first, key⟩ := f
  cases first <;> cases key <;>
    simp [format_json_to.next, format_json_to.lead, next_line_eq]

theorem json_feed_all_append (f : format_json_to) (a b : List event) :
    f.feed_all (a ++ b) = (f.feed_all a).feed_all b := by
  simp [format_json_to.feed_all, List.foldl_append]

theorem json_feed_all_cons (f : format_json_to) (ev : event) (rest : List event) :
    f.feed_all (ev :: rest) = (f.feed ev).feed_all rest := rfl

theorem to_buffer_eq (v : Int) :
    itoa.to_buffer v = (if v < 0 then [symbol.minus] else []) ++ decimal_text v.natAbs := by
  by_cases hv : v < 0
  · simp [itoa.to_buffer, hv]
  · have : v.toNat = v.natAbs := by omega
    simp [itoa.to_buffer, hv, this]

theorem u64_of_lt (k : Nat) (h : k < 18446744073709551616) : u64 k = k :=
  Nat.mod_eq_of_lt h

theorem begin_list_eq (f : format_json_to) (n d : Nat) (s : Option Nat) (hn : f.indent_ = n)
    (hc : f.current_indent_ = n * d) (hb : n * (d + 1) < 18446744073709551616) :
    f.begin_list s = { out_ := f.out_ ++ f.lead ++ [91], indent_ := n
                       current_indent_ := n * (d + 1), first_ := true, after_key_ := false } := by
  obtain ⟨out, indent, cur, first, key⟩ := f
  simp only at hn hc
  subst hn hc
  have e : indent * d + indent = indent * (d + 1) := by rw [Nat.mul_succ]
  simp [format_json_to.begin_list, next_eq, e, u64_of_lt _ hb]

theorem begin_dict_eq (f : format_json_to) (n d : Nat) (s : Option Nat) (hn : f.indent_ = n)
    (hc : f.current_indent_ = n * d) (hb : n * (d + 1) < 18446744073709551616) :
    f.begin_dict s = { out_ := f.out_ ++ f.lead ++ [123], indent_ := n
                       current_indent_ := n * (d + 1), first_ := true, after_key_ := false } := by
  obtain ⟨out, indent, cur, first, key⟩ := f
  simp only at hn hc
  subst hn hc
  have e : indent * d + indent = indent * (d + 1) := by rw [Nat.mul_succ]
  simp [format_json_to.begin_dict, next_eq, e, u64_of_lt _ hb]

theorem indent_back (n d : Nat) (hb : n * (d + 1) < 18446744073709551616) :
    u64 (n * (d + 1) + 18446744073709551616 - n) = n * d := by
  have e : n * (d + 1) = n * d + n := Nat.mul_succ n d
  have h1 : n * (d + 1) + 18446744073709551616 - n = n * d + 18446744073709551616 := by omega
  rw [h1]
  unfold u64
  rw [Nat.add_mod_right]
  exact Nat.mod_eq_of_lt (by omega)

theorem end_list_eq (out : List Nat) (n d : Nat) (first : Bool) (s : Option Nat)
    (hb : n * (d + 1) < 18446744073709551616) :
    format_json_to.end_list
        { out_ := out, indent_ := n, current_indent_ := n * (d + 1), first_ := first
          after_key_ := false } s =
      { out_ := out ++ (if first then [] else [10] ++ spaces (n * d)) ++ [93], indent_ := n
        current_indent_ := n * d, first_ := first, after_key_ := false } := by
  cases first <;> simp [format_json_to.end_list, next_line_eq, indent_back n d hb]

theorem end_dict_eq (out : List Nat) (n d : Nat) (first : Bool) (s : Option Nat)
    (hb : n * (d + 1) < 18446744073709551616) :
    format_json_to.end_dict
        { out_ := out, indent_ := n, current_indent_ := n * (d + 1), first_ := first
          after_key_ := false } s =
      { out_ := out ++ (if first then [] else [10] ++ spaces (n * d)) ++ [125], indent_ := n
        current_indent_ := n * d, first_ := first, after_key_ := false } := by
  cases first <;> simp [format_json_to.end_dict, next_line_eq, indent_back n d hb]

theorem mul_depth_lt (n a b : Nat) (h : a ≤ b) (hb : n * b < 18446744073709551616) :
    n * a < 18446744073709551616 :=
  Nat.lt_of_le_of_lt (Nat.mul_le_mul_left n h) hb

mutual
/-- The printer fed the events of a value writes what `next` writes before a
value and then the layout of the value at the current depth. -/
theorem json_value (v : bvalue) (f : format_json_to) (n d : Nat) (hn : f.indent_ = n)
    (hc : f.current_indent_ = n * d) (hb : n * (d + v.depth) < 18446744073709551616) :
    ∃ b, f.feed_all v.events =
      { out_ := f.out_ ++ f.lead ++ v.pp n d, indent_ := n, current_indent_ := n * d
        first_ := b, after_key_ := false } := by
  cases v with
  | integer i =>
    refine ⟨f.first_, ?_⟩
    obtain ⟨out, indent, cur, first, key⟩ := f
    simp only at hn hc
    subst hn hc
    simp [bvalue.events, bvalue.pp, format_json_to.feed_all, format_json_to.feed,
      format_json_to.integer, next_eq, to_buffer_eq]
  | string s =>
    refine ⟨f.first_, ?_⟩
    obtain ⟨out, indent, cur, first, key⟩ := f
    simp only at hn hc
    subst hn hc
    simp [bvalue.events, bvalue.pp, format_json_to.feed_all, format_json_to.feed,
      format_json_to.string, next_eq]
  | list xs =>
    simp only [bvalue.depth] at hb
    have hb1 : n * (d + 1) < 18446744073709551616 := mul_depth_lt n _ _ (by omega) hb
    have hb2 : n * (d + 1 + xs.depth) < 18446744073709551616 :=
      mul_depth_lt n _ _ (by omega) hb
    simp only [bvalue.events, json_feed_all_cons, json_feed_all_append, format_json_to.feed]
    rw [begin_list_eq f n d none hn hc hb1]
    rw [json_list xs _ n d rfl rfl rfl hb2]
    simp only [format_json_to.feed_all, List.foldl_nil]
    rw [end_list_eq _ n d _ none hb1]
    cases xs with
    | nil => exact ⟨true, by simp [bvalue.pp, blist.pp, blist.length]⟩
    | cons x xs => exact ⟨false, by simp [bvalue.pp, blist.length]⟩
  | dict kvs =>
    simp only [bvalue.depth] at hb
    have hb1 : n * (d + 1) < 18446744073709551616 := mul_depth_lt n _ _ (by omega) hb
    have hb2 : n * (d + 1 + kvs.depth) < 18446744073709551616 :=
      mul_depth_lt n _ _ (by omega) hb
    simp only [bvalue.events, json_feed_all_cons, json_feed_all_append, format_json_to.feed]
    rw [begin_dict_eq f n d none hn hc hb1]
    rw [json_dict kvs _ n d rfl rfl rfl hb2]
    simp only [format_json_to.feed_all, List.foldl_nil]
    rw [end_dict_eq _ n d _ none hb1]
    cases kvs with
    | nil => exact ⟨true, by simp [bvalue.pp, bdict.pp, bdict.length]⟩
    | cons k v kvs => exact ⟨false, by simp [bvalue.pp, bdict.length]⟩
/-- The printer fed the events of the elements of a list, inside the list. -/
theorem json_list (xs : blist) (f : format_json_to) (n d : Nat) (hn : f.indent_ = n)
    (hc : f.current_indent_ = n * (d + 1)) (hk : f.after_key_ = false)
    (hb : n * (d + 1 + xs.depth) < 18446744073709551616) :
    f.feed_all xs.events =
      { out_ := f.out_ ++ xs.pp n d f.first_, indent_ := n, current_indent_ := n * (d + 1)
        first_ := f.first_ && decide (xs.length = 0)
        after_key_ := false } := by
  cases xs with
  | nil =>
    obtain ⟨out, indent, cur, first, key⟩ := f
    simp only at hn hc hk
    subst hn hc hk
    simp [blist.events, blist.pp, format_json_to.feed_all, blist.length]
  | cons x xs =>
    simp only [blist.depth] at hb
    have hbx : n * (d + 1 + x.depth) < 18446744073709551616 :=
      mul_depth_lt n _ _ (by omega) hb
    have hbs : n * (d + 1 + xs.depth) < 18446744073709551616 :=
      mul_depth_lt n _ _ (by omega) hb
    obtain ⟨b, hx⟩ := json_value x f n (d + 1) hn hc hbx
    simp only [blist.events, json_feed_all_append, json_feed_all_cons, hx, format_json_to.feed,
      format_json_to.list_item]
    rw [json_list xs _ n d rfl rfl rfl hbs]
    obtain ⟨out, indent, cur, first, key⟩ := f
    simp only at hn hc hk
    subst hn hc hk
    cases first <;> simp [blist.pp, format_json_to.lead, blist.length]
/-- The printer fed the events of the entries of a dict, inside the dict. -/
theorem json_dict (kvs : bdict) (f : format_json_to) (n d : Nat) (hn : f.indent_ = n)
    (hc : f.current_indent_ = n * (d + 1)) (hk : f.after_key_ = false)
    (hb : n * (d + 1 + kvs.depth) < 18446744073709551616) :
    f.feed_all kvs.events =
      { out_ := f.out_ ++ kvs.pp n d f.first_, indent_ := n, current_indent_ := n * (d + 1)
        first_ := f.first_ && decide (kvs.length = 0)
        after_key_ := false } := by
  cases kvs with
  | nil =>
    obtain ⟨out, indent, cur, first, key⟩ := f
    simp only at hn hc hk
    subst hn hc hk
    simp [bdict.events, bdict.pp, format_json_to.feed_all, bdict.length]
  | cons k v kvs =>
    simp only [bdict.depth] at hb
    have hbv : n * (d + 1 + v.depth) < 18446744073709551616 :=
      mul_depth_lt n _ _ (by omega) hb
    have hbs : n * (d + 1 + kvs.depth) < 18446744073709551616 :=
      mul_depth_lt n _ _ (by omega) hb
    obtain ⟨out, indent, cur, first, key⟩ := f
    simp only at hn hc hk
    subst hn hc hk
    obtain ⟨b, hv⟩ := json_value v
      { out_ := out ++ format_json_to.lead
            { out_ := out, indent_ := indent, current_indent_ := indent * (d + 1)
              first_ := first, after_key_ := false } ++ [34] ++ k ++ [34] ++ [58, 32]
        indent_ := indent, current_indent_ := indent * (d + 1), first_ := true
        after_key_ := true } indent (d + 1) rfl rfl hbv
    have hkey : format_json_to.dict_key (format_json_to.string
        { out_ := out, indent_ := indent, current_indent_ := indent * (d + 1)
          first_ := first, after_key_ := false } k) =
        { out_ := out ++ format_json_to.lead
            { out_ := out, indent_ := indent, current_indent_ := indent * (d + 1)
              first_ := first, after_key_ := false } ++ [34] ++ k ++ [34] ++ [58, 32]
          indent_ := indent, current_indent_ := indent * (d + 1), first_ := true
          after_key_ := true } := by
      simp [format_json_to.dict_key, format_json_to.string, next_eq]
    simp only [bdict.events, json_feed_all_append, json_feed_all_cons, format_json_to.feed,
      hkey, hv, format_json_to.dict_value]
    rw [json_dict kvs _ indent d rfl rfl rfl hbs]
    cases first <;> simp [bdict.pp, format_json_to.lead, bdict.length]
end

/-- On a sink that appends on every write, a fresh printer with indent `n` fed
the events of one value has written the layout `pp(value, 0)`, as long as the
deepest indentation `n * depth` fits a `std::size_t`; the size hints of the
begin and end events play no part. -/
theorem json_layout_on_appending_sink (v : bvalue) (n : Nat)
    (h : n * v.depth < 18446744073709551616) :
    ((format_json_to.create n).feed_all v.events).out_ = v.pp n 0 ∧
    ∀ (f : format_json_to) (s : Option Nat),
      f.begin_list s = f.begin_list none ∧ f.end_list s = f.end_list none ∧
      f.begin_dict s = f.begin_dict none ∧ f.end_dict s = f.end_dict none := by
  constructor
  · obtain ⟨b, hb⟩ := json_value v (format_json_to.create n) n 0 rfl
      (by simp [format_json_to.create]) (by simpa using h)
    rw [hb]
    simp [format_json_to.create, format_json_to.lead]
  · intro f s
    exact ⟨rfl, rfl, rfl, rfl⟩

/-! ## Layout written through a pointer -/

/-- C21: with a pointer as output iterator the bytes written are not the layout
`pp(value, 0)`.  For the string `ab` and indent 4 the buffer holds `""b` where
the layout is `"ab"`; for the list of the integer 12 and indent 2 it holds `[`,
two newlines and `]` where the layout is `[`, a newline, two spaces, `12`, a
newline and `]`.  Each `std::copy_n(.., out_)` stores its bytes but leaves the
member `out_` behind, so the next store goes over them.  On a sink that appends
on every write the same events give the layout. -/
theorem json_layout_lost_on_pointer :
    ((format_json_to_char_ptr.create 4).feed_all (bvalue.string (bytes "ab")).events).buffer =
      [34, 34, 98] ∧
    (bvalue.string (bytes "ab")).pp 4 0 = [34, 97, 98, 34] ∧
    ((format_json_to_char_ptr.create 2).feed_all
      (bvalue.list (blist.cons (bvalue.integer 12) blist.nil)).events).buffer =
      [91, 10, 10, 93] ∧
    (bvalue.list (blist.cons (bvalue.integer 12) blist.nil)).pp 2 0 =
      [91, 10, 32, 32, 49, 50, 10, 93] ∧
    ((format_json_to.create 2).feed_all
      (bvalue.list (blist.cons (bvalue.integer 12) blist.nil)).events).out_ =
      (bvalue.list (blist.cons (bvalue.integer 12) blist.nil)).pp 2 0 ∧
    ((format_json_to.create 4).feed_all (bvalue.string (bytes "ab")).events).out_ =
      (bvalue.string (bytes "ab")).pp 4 0 := by
  refine ⟨by decide, by decide, by decide, by decide, by decide, by decide⟩
